import Mathlib

/-!
# Hyrise: `visit_pqp` and the `ClusteringPlugin`

A shallow embedding of

* `src/lib/operators/visit_pqp.hpp`: the breadth-first walk over a physical query plan, and
* `src/plugins/clustering_plugin.cpp`: the pass that rebuilds the policy tables in sorted order,

together with theorems about the two.
-/

namespace Hyrise

/-! ## Part 1: `visit_pqp` -/

/-- The result type of a visitor: `enum class PQPVisitation`. -/
inductive PQPVisitation where
  | VisitInputs
  | DoNotVisitInputs
  deriving DecidableEq, Repr

/-- An operator handle, `std::shared_ptr<AbstractOperator>`: the operators are numbered, the handle
    `some n` points at operator `n` (two handles are the same pointer iff the numbers agree), and
    `none` is the null pointer. -/
abbrev OperatorPtr := Option Nat

/-- The operators of a plan: entry `n` of `inputs` holds what `input_left()` and `input_right()`
    of operator `n` return. An operator that has no entry has no inputs. -/
structure PQP where
  inputs : List (OperatorPtr × OperatorPtr)
  deriving DecidableEq, Repr

/-- The call `op->input_left()`. -/
def input_left (g : PQP) (op : Nat) : OperatorPtr :=
  match g.inputs.get? op with
  | some p => p.1
  | none => none

/-- The call `op->input_right()`. -/
def input_right (g : PQP) (op : Nat) : OperatorPtr :=
  match g.inputs.get? op with
  | some p => p.2
  | none => none

/-- Operator `m` is the left or the right input of operator `n`. -/
def is_input (g : PQP) (n m : Nat) : Prop :=
  input_left g n = some m ∨ input_right g n = some m

instance (g : PQP) (n m : Nat) : Decidable (is_input g n m) := by
  unfold is_input; infer_instance

/-- The variables of `visit_pqp`: the queue, the set of visited operators, the state the visitor
    functor carries from one call to the next, and the record of the visitor calls made so far
    (argument and returned value, oldest first). -/
structure VisitState (σ : Type) where
  operator_queue : List OperatorPtr
  visited_operators : List OperatorPtr
  visitor_state : σ
  calls : List (OperatorPtr × PQPVisitation)

/-- The statement `if (p) operator_queue.push(p);`. -/
def push_input (operator_queue : List OperatorPtr) (p : OperatorPtr) : List OperatorPtr :=
  if p.isSome then operator_queue ++ [p] else operator_queue

/-- What one evaluation of the `while` condition and body does. -/
inductive VisitStep (σ : Type) where
  /-- the queue is empty: the loop is left -/
  | exit : VisitStep σ
  /-- the body ran and the loop goes on in the given state -/
  | next : VisitState σ → VisitStep σ
  /-- the body called `input_left()` through a null pointer -/
  | null_dereference : VisitState σ → VisitStep σ

/-- One iteration of the `while` loop of `visit_pqp` (lines 33 to 43). -/
def visit_step {σ : Type} (g : PQP) (visitor : σ → OperatorPtr → PQPVisitation × σ)
    (st : VisitState σ) : VisitStep σ :=
  match st.operator_queue with
  | [] => VisitStep.exit
  | op :: rest =>
    -- `if (!visited_operators.emplace(op).second) continue;`
    if op ∈ st.visited_operators then
      VisitStep.next { st with operator_queue := rest }
    else
      let res := visitor st.visitor_state op
      let st1 : VisitState σ :=
        { operator_queue := rest
          visited_operators := st.visited_operators ++ [op]
          visitor_state := res.2
          calls := st.calls ++ [(op, res.1)] }
      if res.1 = PQPVisitation.VisitInputs then
        match op with
        | none => VisitStep.null_dereference st1
        | some n =>
          VisitStep.next
            { st1 with
              operator_queue := push_input (push_input rest (input_left g n)) (input_right g n) }
      else
        VisitStep.next st1

/-- How a run of `visit_pqp` ends. -/
inductive VisitOutcome (σ : Type) where
  /-- the loop was left with an empty queue and the function returned -/
  | finished : VisitState σ → VisitOutcome σ
  /-- a null pointer was dereferenced -/
  | null_dereference : VisitState σ → VisitOutcome σ
  /-- the iteration budget was used up before the queue was empty -/
  | out_of_fuel : VisitState σ → VisitOutcome σ

/-- The `while` loop, run for at most `fuel` iterations. -/
def visit_loop {σ : Type} (g : PQP) (visitor : σ → OperatorPtr → PQPVisitation × σ) :
    Nat → VisitState σ → VisitOutcome σ
  | 0, st =>
    match st.operator_queue with
    | [] => VisitOutcome.finished st
    | _ :: _ => VisitOutcome.out_of_fuel st
  | fuel + 1, st =>
    match visit_step g visitor st with
    | VisitStep.exit => VisitOutcome.finished st
    | VisitStep.next st1 => visit_loop g visitor fuel st1
    | VisitStep.null_dereference st1 => VisitOutcome.null_dereference st1

/-- The state in which the loop is entered: the root has been pushed, nothing is visited. -/
def visit_init {σ : Type} (lqp : OperatorPtr) (s0 : σ) : VisitState σ :=
  { operator_queue := [lqp], visited_operators := [], visitor_state := s0, calls := [] }

/-- An iteration budget that is enough for every plan: every handle that is ever in the queue is
    the root or one of the `2 * inputs.length` input handles of the plan. -/
def visit_fuel (g : PQP) : Nat := 4 * g.inputs.length + 3

/-- The function `visit_pqp(lqp, visitor)`; `s0` is the state of the visitor functor at the call. -/
def visit_pqp {σ : Type} (g : PQP) (lqp : OperatorPtr)
    (visitor : σ → OperatorPtr → PQPVisitation × σ) (s0 : σ) : VisitOutcome σ :=
  visit_loop g visitor (visit_fuel g) (visit_init lqp s0)

/-- The variables of `visit_pqp` at the point where the run ended. -/
def VisitOutcome.state {σ : Type} : VisitOutcome σ → VisitState σ
  | VisitOutcome.finished st => st
  | VisitOutcome.null_dereference st => st
  | VisitOutcome.out_of_fuel st => st

/-- The run returned normally. -/
def VisitOutcome.returned {σ : Type} : VisitOutcome σ → Bool
  | VisitOutcome.finished _ => true
  | _ => false

/-- A visitor without state of its own that lets every operator expand. -/
def visit_all : Unit → OperatorPtr → PQPVisitation × Unit :=
  fun _ _ => (PQPVisitation.VisitInputs, ())

/-- A visitor without state of its own that follows a fixed decision table. -/
def visit_by (decision : OperatorPtr → PQPVisitation) : Unit → OperatorPtr → PQPVisitation × Unit :=
  fun _ op => (decision op, ())

/-- The diamond `0 -> 1`, `0 -> 2`, `1 -> 3`, `2 -> 3`. -/
def diamond : PQP :=
  { inputs := [(some 1, some 2), (some 3, none), (some 3, none), (none, none)] }

/-- The operators the visitor was called on, in call order. -/
def VisitState.visited_nodes {σ : Type} (st : VisitState σ) : List OperatorPtr :=
  st.calls.map Prod.fst

/-- Operator `n` is reachable from `root` along `input_left` / `input_right` edges. -/
inductive Reachable (g : PQP) (root : Nat) : Nat → Prop where
  | root : Reachable g root root
  | input {n m : Nat} : Reachable g root n → is_input g n m → Reachable g root m

/-- Every handle that can ever be in the queue of a walk that starts at `root`. -/
def candidates (g : PQP) (root : OperatorPtr) : List OperatorPtr :=
  root :: g.inputs.flatMap (fun p => [p.1, p.2])

/-- The quantity that every loop iteration decreases: twice the number of candidate handles not
    yet visited, plus the length of the queue. -/
def visit_measure {σ : Type} (g : PQP) (root : OperatorPtr) (st : VisitState σ) : Nat :=
  2 * ((candidates g root).toFinset \ st.visited_operators.toFinset).card
    + st.operator_queue.length

/-- The handles that the calls made so far account for: the root, and every input of an accounted
    operator on which the visitor returned `VisitInputs`. -/
inductive Justified (g : PQP) (root : OperatorPtr) (calls : List (OperatorPtr × PQPVisitation)) :
    OperatorPtr → Prop where
  | root : Justified g root calls root
  | input {n m : Nat} : Justified g root calls (some n) →
      (some n, PQPVisitation.VisitInputs) ∈ calls → is_input g n m →
      Justified g root calls (some m)

/-- The loop invariant of `visit_pqp`. -/
structure VisitInv {σ : Type} (g : PQP) (root : OperatorPtr) (st : VisitState σ) : Prop where
  calls_visited : st.calls.map Prod.fst = st.visited_operators
  nodup : st.visited_operators.Nodup
  queue_justified : ∀ p ∈ st.operator_queue, Justified g root st.calls p
  visited_justified : ∀ p ∈ st.visited_operators, Justified g root st.calls p
  root_pending : root ∈ st.visited_operators ∨ root ∈ st.operator_queue
  inputs_pending : ∀ n m, (some n, PQPVisitation.VisitInputs) ∈ st.calls → is_input g n m →
    some m ∈ st.visited_operators ∨ some m ∈ st.operator_queue

/-! ## Part 2: the `ClusteringPlugin`

The storage classes, the `Sort` operator, the statistics and the `Hyrise` singleton are used by
`clustering_plugin.cpp` but are not part of it. The data they hold is modelled after the
specification; the `Sort` operator, `Chunk::DEFAULT_SIZE` and the statistics generators are
parameters of the embedding (`Collaborators`). -/

abbrev ColumnID := Nat
abbrev ChunkID := Nat
abbrev CommitID := Nat

inductive OrderByMode where
  | Ascending
  | Descending
  deriving DecidableEq, Repr

inductive TableType where
  | Data
  | References
  deriving DecidableEq, Repr

inductive UseMvcc where
  | Yes
  | No
  deriving DecidableEq, Repr

/-- Modelled from the spec: the schema entry of one column, of which the plugin uses the name. -/
structure TableColumnDefinition where
  name : String
  nullable : Bool
  deriving DecidableEq, Repr

/-- Modelled from the spec: a segment is one column's data for the rows of one chunk; the values
    are integers here. -/
abbrev Segment := List Int

abbrev Segments := List Segment

/-- Modelled from the spec: the MVCC metadata of a chunk, of which the plugin fixes the number of
    rows and the begin commit id of each row. -/
structure MvccData where
  begin_cids : List CommitID
  deriving DecidableEq, Repr

/-- The constructor call `MvccData(size, begin_commit_id)`. -/
def MvccData.create (size : Nat) (begin_commit_id : CommitID) : MvccData :=
  { begin_cids := List.replicate size begin_commit_id }

def MvccData.size (m : MvccData) : Nat := m.begin_cids.length

/-- The summaries that the statistics generators attach; their content is not looked at. -/
abbrev TableStatistics := Nat
abbrev ChunkPruningStatistics := Nat

/-- Modelled from the spec: a chunk holds one segment per column, optional MVCC metadata, an
    optional ordering descriptor, the finalization flag and optional pruning statistics. -/
structure Chunk where
  segments : Segments
  mvcc_data : Option MvccData
  ordered_by : Option (ColumnID × OrderByMode)
  is_mutable : Bool
  pruning_statistics : Option ChunkPruningStatistics
  deriving DecidableEq, Repr

/-- The call `chunk->size()`: the number of rows, read off the first segment. -/
def Chunk.size (c : Chunk) : Nat :=
  match c.segments with
  | [] => 0
  | s :: _ => s.length

/-- The call `chunk->get_segment(column_id)`; `none` when there is no such segment. -/
def Chunk.get_segment (c : Chunk) (column_id : ColumnID) : Option Segment :=
  c.segments.get? column_id

def Chunk.set_ordered_by (c : Chunk) (o : ColumnID × OrderByMode) : Chunk :=
  { c with ordered_by := some o }

def Chunk.finalize (c : Chunk) : Chunk :=
  { c with is_mutable := false }

/-- The rows of a chunk: row `i` holds the `i`-th value of every segment. -/
def Chunk.rows (c : Chunk) : List (List Int) :=
  (List.range c.size).map (fun i => c.segments.map (fun s => s.getD i 0))

/-- The values that the rows of a chunk have in one column, in row order. -/
def Chunk.column_values (c : Chunk) (column_id : ColumnID) : List Int :=
  c.rows.map (fun r => r.getD column_id 0)

/-- Modelled from the spec: a table has a schema, a kind, a target chunk capacity, an MVCC mode,
    a sequence of chunks and optional table statistics. -/
structure Table where
  column_definitions : List TableColumnDefinition
  type : TableType
  target_chunk_size : Nat
  use_mvcc : UseMvcc
  chunks : List Chunk
  table_statistics : Option TableStatistics
  deriving DecidableEq, Repr

/-- The constructor call `Table(column_definitions, type, target_chunk_size, use_mvcc)`: a table
    without chunks. -/
def Table.create (column_definitions : List TableColumnDefinition) (type : TableType)
    (target_chunk_size : Nat) (use_mvcc : UseMvcc) : Table :=
  { column_definitions := column_definitions, type := type,
    target_chunk_size := target_chunk_size, use_mvcc := use_mvcc, chunks := [],
    table_statistics := none }

def Table.column_count (t : Table) : Nat := t.column_definitions.length

def Table.chunk_count (t : Table) : Nat := t.chunks.length

def Table.row_count (t : Table) : Nat := (t.chunks.map Chunk.size).sum

/-- The call `table->get_chunk(chunk_id)`; `none` when there is no such chunk. -/
def Table.get_chunk (t : Table) (chunk_id : ChunkID) : Option Chunk :=
  t.chunks.get? chunk_id

/-- Modelled from the spec: `column_id_by_name` resolves a column name to its position in the
    schema; `none` stands for the failure of the resolution, which is fatal. -/
def Table.column_id_by_name (t : Table) (column_name : String) : Option ColumnID :=
  match t.column_definitions.findIdx? (fun d => d.name == column_name) with
  | some i => some i
  | none => none

/-- The call `table->append_chunk(segments, mvcc_data)`: a new mutable chunk at the end. -/
def Table.append_chunk (t : Table) (segments : Segments) (mvcc_data : MvccData) : Table :=
  { t with chunks := t.chunks ++
      [{ segments := segments, mvcc_data := some mvcc_data, ordered_by := none,
         is_mutable := true, pruning_statistics := none }] }

/-- A method call on the chunk that `table->get_chunk(chunk_id)` returns. -/
def Table.update_chunk (t : Table) (chunk_id : ChunkID) (f : Chunk → Chunk) : Table :=
  { t with chunks := t.chunks.modify f chunk_id }

def Table.set_table_statistics (t : Table) (statistics : TableStatistics) : Table :=
  { t with table_statistics := some statistics }

/-- The rows of a table, chunk after chunk. -/
def Table.rows (t : Table) : List (List Int) :=
  t.chunks.flatMap Chunk.rows

/-- What `clustering_plugin.cpp` takes from elsewhere: the `Sort` operator (run on the wrapped
    table, with a column, a direction and an output chunk size, and giving the output table),
    the constant `Chunk::DEFAULT_SIZE`, `TableStatistics::from_table`, and the per-chunk summary
    that `generate_chunk_pruning_statistics` attaches. -/
structure Collaborators where
  sort : Table → ColumnID → OrderByMode → Nat → Table
  DEFAULT_SIZE : Nat
  from_table : Table → TableStatistics
  chunk_pruning_statistics : Chunk → ChunkPruningStatistics

/-- Modelled from the spec: `generate_chunk_pruning_statistics(table)` attaches a summary to every
    chunk and changes nothing else. -/
def generate_chunk_pruning_statistics (env : Collaborators) (t : Table) : Table :=
  let attach : Chunk → Chunk :=
    fun c => { c with pruning_statistics := some (env.chunk_pruning_statistics c) }
  { t with chunks := t.chunks.map attach }

/-- A plan cache: the cached entries. -/
abbrev Cache := List String

/-- The state the plugin works on: the `Hyrise` singleton (table store, the two plan caches,
    which may be absent, and the log) and the plugin's own flag `_optimized`. -/
structure World where
  storage_manager : String → Option Table
  default_lqp_cache : Option Cache
  default_pqp_cache : Option Cache
  log_manager : List (String × String)
  _optimized : Bool

/-- The effects of the plugin on the `Hyrise` singleton, recorded in the order they happen. -/
inductive Effect where
  | add_message (source message : String)
  | replace_table (name : String) (table : Table)
  | clear_lqp_cache
  | clear_pqp_cache
  deriving DecidableEq, Repr

def description : String := "ClusteringPlugin"

def World.has_table (w : World) (name : String) : Bool := (w.storage_manager name).isSome

def World.get_table (w : World) (name : String) : Option Table := w.storage_manager name

/-- Modelled from the spec: `replace_table` binds the name to the new table in one step and
    leaves every other binding alone. -/
def World.replace_table (w : World) (name : String) (table : Table) : World :=
  { w with storage_manager := fun n => if n = name then some table else w.storage_manager n }

def World.add_message (w : World) (source message : String) : World :=
  { w with log_manager := w.log_manager ++ [(source, message)] }

/-- The statement `if (default_lqp_cache) default_lqp_cache->clear();`. -/
def World.clear_lqp_cache (w : World) : World :=
  match w.default_lqp_cache with
  | some _ => { w with default_lqp_cache := some [] }
  | none => w

/-- The statement `if (default_pqp_cache) default_pqp_cache->clear();`. -/
def World.clear_pqp_cache (w : World) : World :=
  match w.default_pqp_cache with
  | some _ => { w with default_pqp_cache := some [] }
  | none => w

/-- The cache effects that the two `if` statements after `replace_table` have. -/
def cache_effects (w : World) : List Effect :=
  (if w.default_lqp_cache.isSome then [Effect.clear_lqp_cache] else []) ++
  (if w.default_pqp_cache.isSome then [Effect.clear_pqp_cache] else [])

/-- The inner `for` loop (lines 58 to 60): `remaining` more segments are taken, from
    `column_id` on, and put at the end of `segments`. -/
def collect_segments (chunk : Chunk) : Nat → ColumnID → Segments → Option Segments
  | 0, _, segments => some segments
  | remaining + 1, column_id, segments =>
    match chunk.get_segment column_id with
    | none => none
    | some segment => collect_segments chunk remaining (column_id + 1) (segments ++ [segment])

/-- The body of the outer `for` loop (lines 55 to 63) for one `chunk_id`. -/
def rebuild_chunk (immutable_sorted_table : Table) (column_count : Nat)
    (sort_column_id : ColumnID) (table : Table) (chunk_id : ChunkID) : Option Table :=
  match immutable_sorted_table.get_chunk chunk_id with
  | none => none
  | some chunk =>
    let mvcc_data := MvccData.create chunk.size 0
    match collect_segments chunk column_count 0 [] with
    | none => none
    | some segments =>
      let table := table.append_chunk segments mvcc_data
      let table := table.update_chunk chunk_id
        (fun c => c.set_ordered_by (sort_column_id, OrderByMode.Ascending))
      let table := table.update_chunk chunk_id Chunk.finalize
      some table

/-- The outer `for` loop (lines 54 to 64): `remaining` more chunks are rebuilt, from `chunk_id`
    on. -/
def rebuild_chunks (immutable_sorted_table : Table) (column_count : Nat)
    (sort_column_id : ColumnID) : Nat → ChunkID → Table → Option Table
  | 0, _, table => some table
  | remaining + 1, chunk_id, table =>
    match rebuild_chunk immutable_sorted_table column_count sort_column_id table chunk_id with
    | none => none
    | some table1 =>
      rebuild_chunks immutable_sorted_table column_count sort_column_id remaining
        (chunk_id + 1) table1

/-- How the body of the loop over the policy ends for one entry. -/
inductive EntryOutcome where
  /-- the end of the body was reached: the loop goes on with the next entry -/
  | next
  /-- the `return` statement of line 36 was run -/
  | returned
  /-- an assertion failed or an access was out of range: an exception leaves the function -/
  | fatal (message : String)
  deriving DecidableEq, Repr

structure EntryResult where
  world : World
  effects : List Effect
  outcome : EntryOutcome

def no_optimization_message (table_name : String) : String :=
  "No optimization possible with given parameters for " ++ table_name ++ " table!"

def applied_message (table_name column_name : String) : String :=
  "Applied new clustering configuration (" ++ column_name ++ ") to " ++ table_name ++ " table."

/-- The table that lines 50 to 67 build from the original table and the sorted table; `none`
    when an access is out of range. -/
def rebuild_table (env : Collaborators) (table immutable_sorted_table : Table)
    (sort_column_id : ColumnID) : Option Table :=
  let new_table := Table.create immutable_sorted_table.column_definitions TableType.Data
    table.target_chunk_size UseMvcc.Yes
  let column_count := immutable_sorted_table.column_count
  let chunk_count := immutable_sorted_table.chunk_count
  match rebuild_chunks immutable_sorted_table column_count sort_column_id chunk_count 0
      new_table with
  | none => none
  | some table1 =>
    let table2 := table1.set_table_statistics (env.from_table table1)
    some (generate_chunk_pruning_statistics env table2)

/-- The body of the loop over the policy (lines 34 to 75) for one entry. -/
def process_entry (env : Collaborators) (w : World) (table_name column_name : String) :
    EntryResult :=
  match w.get_table table_name with
  | none =>
    -- `has_table` is false
    { world := w.add_message description (no_optimization_message table_name)
      effects := [Effect.add_message description (no_optimization_message table_name)]
      outcome := EntryOutcome.returned }
  | some table =>
    match table.column_id_by_name column_name with
    | none => { world := w, effects := [], outcome := EntryOutcome.fatal "Couldn't find column" }
    | some sort_column_id =>
      let immutable_sorted_table :=
        env.sort table sort_column_id OrderByMode.Ascending env.DEFAULT_SIZE
      if immutable_sorted_table.chunk_count ≠ table.chunk_count then
        { world := w, effects := [], outcome := EntryOutcome.fatal "Mismatching chunk_count" }
      else
        match rebuild_table env table immutable_sorted_table sort_column_id with
        | none => { world := w, effects := [], outcome := EntryOutcome.fatal "out of range" }
        | some new_table =>
          let w1 := w.replace_table table_name new_table
          let w2 := w1.clear_lqp_cache
          let w3 := w2.clear_pqp_cache
          { world := w3.add_message description (applied_message table_name column_name)
            effects := [Effect.replace_table table_name new_table] ++ cache_effects w ++
              [Effect.add_message description (applied_message table_name column_name)]
            outcome := EntryOutcome.next }

/-- The initializer list of the policy `sort_orders` (line 31), as written. -/
def sort_orders_initializer : List (String × String) :=
  [("orders", "o_orderdate"), ("lineitem", "l_shipdate")]

/-- The policy `sort_orders`, in the order in which the loop goes through it. It is a
    `std::map`, which is iterated by ascending key: `"lineitem"` comes before `"orders"`,
    whatever the order in the initializer list. -/
def sort_orders : List (String × String) :=
  [("lineitem", "l_shipdate"), ("orders", "o_orderdate")]

/-- How a call of `_optimize_clustering` ends. -/
inductive PassOutcome where
  /-- the function returned, at its end or through a `return` statement -/
  | returned
  /-- an exception left the function -/
  | fatal (message : String)
  deriving DecidableEq, Repr

structure PassResult where
  world : World
  effects : List Effect
  outcome : PassOutcome

/-- The loop over the policy (lines 33 to 76), for the entries that are still to come. -/
def optimize_loop (env : Collaborators) : List (String × String) → World → PassResult
  | [], w => { world := w, effects := [], outcome := PassOutcome.returned }
  | (table_name, column_name) :: rest, w =>
    let r := process_entry env w table_name column_name
    match r.outcome with
    | EntryOutcome.next =>
      let r1 := optimize_loop env rest r.world
      { r1 with effects := r.effects ++ r1.effects }
    | EntryOutcome.returned =>
      { world := r.world, effects := r.effects, outcome := PassOutcome.returned }
    | EntryOutcome.fatal message =>
      { world := r.world, effects := r.effects, outcome := PassOutcome.fatal message }

/-- The function `ClusteringPlugin::_optimize_clustering()`. -/
def _optimize_clustering (env : Collaborators) (w : World) : PassResult :=
  if w._optimized then
    { world := w, effects := [], outcome := PassOutcome.returned }
  else
    optimize_loop env sort_orders { w with _optimized := true }

/-- The chunk that the loop body makes of a chunk of the sorted table: its first `column_count`
    segments, fresh MVCC metadata for its rows, the ordering descriptor, finalized. -/
def rebuilt_chunk (column_count : Nat) (sort_column_id : ColumnID) (chunk : Chunk) : Chunk :=
  { segments := chunk.segments.take column_count
    mvcc_data := some (MvccData.create chunk.size 0)
    ordered_by := some (sort_column_id, OrderByMode.Ascending)
    is_mutable := false
    pruning_statistics := none }

/-- The effect is a `replace_table` call for this table. -/
def Effect.replaces (e : Effect) (table_name : String) : Bool :=
  match e with
  | Effect.replace_table n _ => decide (n = table_name)
  | _ => false

/-- The effect is one of the two cache clearings. -/
def Effect.clears (e : Effect) : Bool :=
  match e with
  | Effect.clear_lqp_cache => true
  | Effect.clear_pqp_cache => true
  | _ => false

/-- The entry of the policy for this table completes in the pass: its `replace_table` call is
    among the effects (nothing after that call can fail). -/
def PassResult.completes (r : PassResult) (table_name : String) : Prop :=
  ∃ e ∈ r.effects, e.replaces table_name = true

instance (r : PassResult) (table_name : String) : Decidable (r.completes table_name) := by
  unfold PassResult.completes; infer_instance

/-- The number of `replace_table` calls for one table among the effects. -/
def rewrites (effects : List Effect) (table_name : String) : Nat :=
  effects.countP (fun e => e.replaces table_name)

/-- The effects of the swap of one entry (table name, column name, new table), in order:
    `replace_table`, the clearing of each cache that is present, the log message. -/
def swap_effects (w : World) (swap : String × String × Table) : List Effect :=
  [Effect.replace_table swap.1 swap.2.2] ++ cache_effects w ++
    [Effect.add_message description (applied_message swap.1 swap.2.1)]

/-- A cache after `clear()`, when there is one. -/
def cleared (cache : Option Cache) : Option Cache := cache.map (fun _ => [])

/-- The table invariant of the data model: every chunk has one segment per column of the
    schema. -/
def Table.well_formed (t : Table) : Prop :=
  ∀ c ∈ t.chunks, c.segments.length = t.column_count

instance (t : Table) : Decidable t.well_formed := by
  unfold Table.well_formed; infer_instance

/-- What is assumed of the `Sort` operator for a table and a sort column: its output satisfies
    the table invariant, its rows are a permutation of the rows of the input, and they are in
    ascending order of the sort column. -/
def sorted_permutation (env : Collaborators) (t : Table) (sort_column_id : ColumnID) : Prop :=
  let out := env.sort t sort_column_id OrderByMode.Ascending env.DEFAULT_SIZE
  out.well_formed ∧ out.rows.Perm t.rows ∧
    (out.rows.map (fun r => r.getD sort_column_id 0)).Sorted (fun a b => a ≤ b)

instance (env : Collaborators) (t : Table) (c : ColumnID) :
    Decidable (sorted_permutation env t c) := by
  unfold sorted_permutation; infer_instance

/-- The blocks in which `rows` are cut when every chunk takes at most `chunk_size` of them. -/
def cut_rows (chunk_size : Nat) : Nat → List (List Int) → List (List (List Int))
  | 0, _ => []
  | fuel + 1, rows =>
    match rows with
    | [] => []
    | _ :: _ => rows.take chunk_size :: cut_rows chunk_size fuel (rows.drop chunk_size)

/-- A `Sort` operator for the examples: the rows in order of the sort column (insertion sort),
    cut into chunks of at most `chunk_size` rows. -/
def example_sort (t : Table) (column_id : ColumnID) (mode : OrderByMode) (chunk_size : Nat) :
    Table :=
  let key : List Int → Int := fun r => r.getD column_id 0
  let rows :=
    match mode with
    | OrderByMode.Ascending => t.rows.insertionSort (fun a b => key a ≤ key b)
    | OrderByMode.Descending => t.rows.insertionSort (fun a b => key b ≤ key a)
  let to_chunk : List (List Int) → Chunk := fun block =>
    { segments := (List.range t.column_count).map (fun j => block.map (fun r => r.getD j 0))
      mvcc_data := none
      ordered_by := some (column_id, mode)
      is_mutable := false
      pruning_statistics := none }
  { column_definitions := t.column_definitions
    type := TableType.Data
    target_chunk_size := chunk_size
    use_mvcc := UseMvcc.No
    chunks := (cut_rows chunk_size rows.length rows).map to_chunk
    table_statistics := none }

/-- The collaborators of the examples: `example_sort`, chunks of two rows, the row count as table
    statistics and the chunk size as pruning statistics. -/
def example_env : Collaborators :=
  { sort := example_sort
    DEFAULT_SIZE := 2
    from_table := Table.row_count
    chunk_pruning_statistics := Chunk.size }

def example_chunk (segments : Segments) : Chunk :=
  { segments := segments, mvcc_data := none, ordered_by := none, is_mutable := false,
    pruning_statistics := none }

/-- An `orders` table: four rows in two chunks, not sorted by `o_orderdate`. -/
def example_orders : Table :=
  { column_definitions := [{ name := "o_orderkey", nullable := false },
                           { name := "o_orderdate", nullable := false }]
    type := TableType.Data
    target_chunk_size := 2
    use_mvcc := UseMvcc.No
    chunks := [example_chunk [[1, 2], [30, 10]], example_chunk [[3, 4], [20, 5]]]
    table_statistics := none }

/-- A `lineitem` table: two rows in one chunk, not sorted by `l_shipdate`. -/
def example_lineitem : Table :=
  { column_definitions := [{ name := "l_orderkey", nullable := false },
                           { name := "l_shipdate", nullable := false }]
    type := TableType.Data
    target_chunk_size := 2
    use_mvcc := UseMvcc.Yes
    chunks := [example_chunk [[1, 2], [9, 8]]]
    table_statistics := none }

/-- A world: the given bindings of `"lineitem"` and `"orders"`, both caches present and filled,
    an empty log, the guard unset. -/
def example_world (lineitem orders : Option Table) : World :=
  { storage_manager := fun n =>
      if n = "lineitem" then lineitem else if n = "orders" then orders else none
    default_lqp_cache := some ["SELECT * FROM orders"]
    default_pqp_cache := some ["SELECT * FROM orders"]
    log_manager := []
    _optimized := false }

/-- An `orders` table whose schema has no column `o_orderdate`. -/
def example_orders_other_schema : Table :=
  { column_definitions := [{ name := "o_orderkey", nullable := false },
                           { name := "o_totalprice", nullable := false }]
    type := TableType.Data
    target_chunk_size := 2
    use_mvcc := UseMvcc.No
    chunks := [example_chunk [[1, 2], [30, 10]]]
    table_statistics := none }

/-- Collaborators as `example_env`, with `Chunk::DEFAULT_SIZE` at the value 100000. -/
def example_env_default : Collaborators :=
  { sort := example_sort
    DEFAULT_SIZE := 100000
    from_table := Table.row_count
    chunk_pruning_statistics := Chunk.size }

/-- A `lineitem` table with target chunk size 2 that is fully packed: four rows in two chunks of
    two rows. -/
def example_lineitem_packed : Table :=
  { column_definitions := [{ name := "l_orderkey", nullable := false },
                           { name := "l_shipdate", nullable := false }]
    type := TableType.Data
    target_chunk_size := 2
    use_mvcc := UseMvcc.Yes
    chunks := [example_chunk [[1, 2], [9, 8]], example_chunk [[3, 4], [7, 6]]]
    table_statistics := none }

/-- The table name of a `replace_table` effect. -/
def Effect.replaced_name (e : Effect) : Option String :=
  match e with
  | Effect.replace_table n _ => some n
  | _ => none

/-- The cycle `0 -> 1 -> 0`. -/
def two_cycle : PQP :=
  { inputs := [(some 1, none), (some 0, none)] }

/-- The loop iterations and the pushes onto the queue in a run of the loop from a state, for at
    most `fuel` iterations. An iteration pops one handle, so that the pushes of an iteration
    are the handles by which the queue after it is longer than the queue without the popped
    handle. -/
def visit_counts {σ : Type} (g : PQP) (visitor : σ → OperatorPtr → PQPVisitation × σ) :
    Nat → VisitState σ → Nat × Nat
  | 0, _ => (0, 0)
  | fuel + 1, st =>
    match visit_step g visitor st with
    | VisitStep.exit => (0, 0)
    | VisitStep.next st1 =>
      ((visit_counts g visitor fuel st1).1 + 1,
        (visit_counts g visitor fuel st1).2
          + (st1.operator_queue.length + 1 - st.operator_queue.length))
    | VisitStep.null_dereference _ => (1, 0)

/-- The loop iterations of `visit_pqp`, counted for at most `fuel` iterations. -/
def visit_pqp_iterations {σ : Type} (g : PQP) (lqp : OperatorPtr)
    (visitor : σ → OperatorPtr → PQPVisitation × σ) (s0 : σ) (fuel : Nat) : Nat :=
  (visit_counts g visitor fuel (visit_init lqp s0)).1

/-- The pushes onto the queue of `visit_pqp`, counted for at most `fuel` iterations: the push of
    the root (line 29) and the pushes of the iterations. -/
def visit_pqp_pushes {σ : Type} (g : PQP) (lqp : OperatorPtr)
    (visitor : σ → OperatorPtr → PQPVisitation × σ) (s0 : σ) (fuel : Nat) : Nat :=
  1 + (visit_counts g visitor fuel (visit_init lqp s0)).2

/-- The states that the loop goes through from a state: the state itself and what iterations
    make of it. -/
inductive VisitReaches {σ : Type} (g : PQP) (visitor : σ → OperatorPtr → PQPVisitation × σ)
    (st0 : VisitState σ) : VisitState σ → Prop where
  | start : VisitReaches g visitor st0 st0
  | step {st st1 : VisitState σ} : VisitReaches g visitor st0 st →
      visit_step g visitor st = VisitStep.next st1 → VisitReaches g visitor st0 st1

/-- The operators reachable from the root that are not yet visited in a state. -/
def unvisited {σ : Type} (g : PQP) (root : Nat) (st : VisitState σ) : Set Nat :=
  {m | Reachable g root m ∧ some m ∉ st.visited_operators}

/-- A path of the given length from the root to an operator along edges that leave operators on
    which the visitor returned `VisitInputs`, as the recorded calls tell. -/
inductive ExpandedPath (g : PQP) (root : Nat) (calls : List (OperatorPtr × PQPVisitation)) :
    Nat → Nat → Prop where
  | root : ExpandedPath g root calls root 0
  | step {n m d : Nat} : ExpandedPath g root calls n d →
      (some n, PQPVisitation.VisitInputs) ∈ calls → is_input g n m →
      ExpandedPath g root calls m (d + 1)

/-- The depth of an operator: the length of a shortest path from the root along edges that
    leave operators on which the visitor returned `VisitInputs`. -/
def is_depth (g : PQP) (root : Nat) (calls : List (OperatorPtr × PQPVisitation))
    (m d : Nat) : Prop :=
  ExpandedPath g root calls m d ∧ ∀ k, ExpandedPath g root calls m k → d ≤ k

/-- The handle `u` stands before the handle `v` in a list. -/
def before_in (l : List OperatorPtr) (u v : OperatorPtr) : Prop :=
  ∃ i j, i < j ∧ l.get? i = some u ∧ l.get? j = some v

/-- The operator `u` is passed to the visitor before the operator `v`. -/
def visited_before {σ : Type} (st : VisitState σ) (u v : OperatorPtr) : Prop :=
  before_in st.visited_nodes u v

/-- The statement `if (p) operator_queue.push(p);` on a queue whose entries carry a level. -/
def push_level (lq : List (OperatorPtr × Nat)) (p : OperatorPtr) (level : Nat) :
    List (OperatorPtr × Nat) :=
  if p.isSome then lq ++ [(p, level)] else lq

/-- The level invariant of the loop. Every entry of the queue and every visited operator
    carries a level (`lq`, `lv`), the level of the entry that was popped last is `last`; the
    levels are path lengths, they do not decrease along the visited operators and along the
    queue, the queue holds the levels `last` and `last + 1` only, and every input of an expanded
    operator of level `d` is visited with a level of at most `d + 1` or waits in the queue with
    level `d + 1`. -/
structure LevelInv {σ : Type} (g : PQP) (root : Nat) (st : VisitState σ)
    (lq lv : List (OperatorPtr × Nat)) (last : Nat) : Prop where
  queue_eq : lq.map Prod.fst = st.operator_queue
  visited_eq : lv.map Prod.fst = st.visited_operators
  calls_eq : st.calls.map Prod.fst = st.visited_operators
  visited_sorted : (lv.map Prod.snd).Pairwise (fun a b => a ≤ b)
  visited_le : ∀ e ∈ lv, e.2 ≤ last
  queue_sorted : (lq.map Prod.snd).Pairwise (fun a b => a ≤ b)
  queue_levels : ∀ e ∈ lq, last ≤ e.2 ∧ e.2 ≤ last + 1
  queue_path : ∀ e ∈ lq, ∃ m, e.1 = some m ∧ ExpandedPath g root st.calls m e.2
  visited_path : ∀ e ∈ lv, ∃ m, e.1 = some m ∧ ExpandedPath g root st.calls m e.2
  root_pending : (some root, 0) ∈ lv ∨ (some root, 0) ∈ lq
  inputs_pending : ∀ n d m, (some n, d) ∈ lv →
    (some n, PQPVisitation.VisitInputs) ∈ st.calls → is_input g n m →
    (∃ k, k ≤ d + 1 ∧ (some m, k) ∈ lv) ∨ (some m, d + 1) ∈ lq

/-- The order invariant for two operators `a` and `b`: `a` is visited before `b`, or `a` is
    visited and `b` waits in the queue, or both wait in the queue and no entry for `b` stands
    before some entry for `a`. -/
def OrderInv {σ : Type} (st : VisitState σ) (a b : OperatorPtr) : Prop :=
  before_in st.visited_operators a b ∨
  (a ∈ st.visited_operators ∧ b ∉ st.visited_operators ∧ b ∈ st.operator_queue) ∨
  (a ∉ st.visited_operators ∧ b ∉ st.visited_operators ∧
    ∃ q1 q2, st.operator_queue = q1 ++ a :: q2 ∧ b ∉ q1 ∧ b ∈ q2)

/-- The plugin object and its surroundings: the world, whether `_loop_thread` holds a loop
    thread, and how many invocations of `_optimize_clustering` have begun so far. -/
structure PluginState where
  world : World
  _loop_thread : Bool
  invocations : Nat

/-- The steps of the plugin: the calls `start()` and `stop()`, and a tick of the timer. -/
inductive PluginStep where
  | start
  | stop
  | tick
  deriving DecidableEq, Repr

/-- The function `ClusteringPlugin::start()`: the message, and a new loop thread in
    `_loop_thread`. -/
def ClusteringPlugin.start (s : PluginState) : PluginState :=
  { s with world := s.world.add_message description "Initialized!", _loop_thread := true }

/-- The function `ClusteringPlugin::stop()`: its body is empty. -/
def ClusteringPlugin.stop (s : PluginState) : PluginState := s

/-- Modelled from the spec: a tick of the `PausableLoopThread`: while the loop thread exists,
    every tick of its timer calls the callback, which invokes `_optimize_clustering`. -/
def ClusteringPlugin.tick (env : Collaborators) (s : PluginState) : PluginState :=
  if s._loop_thread then
    { s with world := (_optimize_clustering env s.world).world, invocations := s.invocations + 1 }
  else s

def ClusteringPlugin.step (env : Collaborators) (s : PluginState) : PluginStep → PluginState
  | PluginStep.start => ClusteringPlugin.start s
  | PluginStep.stop => ClusteringPlugin.stop s
  | PluginStep.tick => ClusteringPlugin.tick env s

/-- The plugin after a sequence of steps. -/
def ClusteringPlugin.run (env : Collaborators) (steps : List PluginStep) (s : PluginState) :
    PluginState :=
  steps.foldl (ClusteringPlugin.step env) s

/-- A plugin that has not been started, in the example world with both tables. -/
def example_plugin : PluginState :=
  { world := example_world (some example_lineitem) (some example_orders)
    _loop_thread := false
    invocations := 0 }

end Hyrise

/-! ## Theorems about `visit_pqp` -/

namespace Hyrise

theorem mem_push_input {q : List OperatorPtr} {p x : OperatorPtr} :
    x ∈ push_input q p ↔ x ∈ q ∨ (x = p ∧ p.isSome = true) := by
  unfold push_input
  split
  · rename_i h
    simp [h]
  · rename_i h
    simp [h]

theorem length_push_input_le (q : List OperatorPtr) (p : OperatorPtr) :
    (push_input q p).length ≤ q.length + 1 := by
  unfold push_input
  split <;> simp

theorem Justified.mono {g : PQP} {root : OperatorPtr} {calls : List (OperatorPtr × PQPVisitation)}
    {p : OperatorPtr} (c : OperatorPtr × PQPVisitation) (h : Justified g root calls p) :
    Justified g root (calls ++ [c]) p := by
  induction h with
  | root => exact Justified.root
  | input _ hc hi ih => exact Justified.input ih (List.mem_append_left _ hc) hi

theorem visit_init_inv {σ : Type} (g : PQP) (root : OperatorPtr) (s0 : σ) :
    VisitInv g root (visit_init root s0) := by
  refine ⟨rfl, List.nodup_nil, ?_, ?_, ?_, ?_⟩
  · intro p hp
    simp [visit_init] at hp
    rw [hp]; exact Justified.root
  · intro p hp
    simp [visit_init] at hp
  · right
    simp [visit_init]
  · intro n m h
    simp [visit_init] at h

/-- The three ways in which an iteration goes on to the next one. -/
theorem visit_step_next {σ : Type} {g : PQP} {visitor : σ → OperatorPtr → PQPVisitation × σ}
    {st st1 : VisitState σ} (hstep : visit_step g visitor st = VisitStep.next st1) :
    ∃ op rest, st.operator_queue = op :: rest ∧
      ((op ∈ st.visited_operators ∧ st1 = { st with operator_queue := rest }) ∨
       (op ∉ st.visited_operators ∧
          (visitor st.visitor_state op).1 ≠ PQPVisitation.VisitInputs ∧
          st1 = { operator_queue := rest
                  visited_operators := st.visited_operators ++ [op]
                  visitor_state := (visitor st.visitor_state op).2
                  calls := st.calls ++ [(op, (visitor st.visitor_state op).1)] }) ∨
       (op ∉ st.visited_operators ∧
          (visitor st.visitor_state op).1 = PQPVisitation.VisitInputs ∧
          ∃ n, op = some n ∧
          st1 = { operator_queue :=
                    push_input (push_input rest (input_left g n)) (input_right g n)
                  visited_operators := st.visited_operators ++ [op]
                  visitor_state := (visitor st.visitor_state op).2
                  calls := st.calls ++ [(op, (visitor st.visitor_state op).1)] })) := by
  unfold visit_step at hstep
  cases hq : st.operator_queue with
  | nil => rw [hq] at hstep; simp at hstep
  | cons op rest =>
    rw [hq] at hstep
    refine ⟨op, rest, rfl, ?_⟩
    by_cases hv : op ∈ st.visited_operators
    · left
      simp only [hv, if_true] at hstep
      injection hstep with h
      exact ⟨hv, h.symm⟩
    · right
      simp only [hv, if_false] at hstep
      by_cases hr : (visitor st.visitor_state op).1 = PQPVisitation.VisitInputs
      · right
        simp only [hr, if_true] at hstep
        cases op with
        | none => simp at hstep
        | some n =>
          simp only at hstep
          injection hstep with h
          refine ⟨hv, hr, n, rfl, ?_⟩
          rw [← h, hr]
      · left
        simp only [hr, if_false] at hstep
        injection hstep with h
        exact ⟨hv, hr, h.symm⟩

/-- The loop invariant is kept by every iteration. -/
theorem visit_step_inv {σ : Type} {g : PQP} {root : OperatorPtr}
    {visitor : σ → OperatorPtr → PQPVisitation × σ} {st st1 : VisitState σ}
    (hstep : visit_step g visitor st = VisitStep.next st1) (hinv : VisitInv g root st) :
    VisitInv g root st1 := by
  obtain ⟨op, rest, hq, hcase⟩ := visit_step_next hstep
  have hpend : ∀ x, (x ∈ st.visited_operators ∨ x ∈ st.operator_queue) →
      x ∈ st.visited_operators ++ [op] ∨ x ∈ rest := by
    intro x hx
    rw [hq] at hx
    rcases hx with hx | hx
    · exact Or.inl (List.mem_append_left _ hx)
    · rcases List.mem_cons.mp hx with hx | hx
      · exact Or.inl (by simp [hx])
      · exact Or.inr hx
  have hrest : ∀ x ∈ rest, x ∈ st.operator_queue := by
    intro x hx; rw [hq]; exact List.mem_cons_of_mem _ hx
  have hop : op ∈ st.operator_queue := by rw [hq]; exact List.mem_cons_self _ _
  rcases hcase with ⟨hv, rfl⟩ | ⟨hv, hr, rfl⟩ | ⟨hv, hr, n, rfl, rfl⟩
  · refine ⟨hinv.calls_visited, hinv.nodup, ?_, hinv.visited_justified, ?_, ?_⟩
    · intro p hp
      exact hinv.queue_justified p (hrest p hp)
    · rcases hpend _ hinv.root_pending with h | h
      · rcases List.mem_append.mp h with h | h
        · exact Or.inl h
        · simp at h; left; rw [h]; exact hv
      · exact Or.inr h
    · intro n m hc hi
      rcases hpend _ (hinv.inputs_pending n m hc hi) with h | h
      · rcases List.mem_append.mp h with h | h
        · exact Or.inl h
        · simp at h; left; rw [h]; exact hv
      · exact Or.inr h
  · refine ⟨?_, ?_, ?_, ?_, ?_, ?_⟩
    · simp [hinv.calls_visited]
    · exact List.Nodup.append hinv.nodup (List.nodup_singleton _) (by simpa using hv)
    · intro p hp
      exact (hinv.queue_justified p (hrest p hp)).mono _
    · intro p hp
      rcases List.mem_append.mp hp with h | h
      · exact (hinv.visited_justified p h).mono _
      · simp at h; subst h
        exact (hinv.queue_justified p hop).mono _
    · exact hpend _ hinv.root_pending
    · intro n m hc hi
      rcases List.mem_append.mp hc with h | h
      · exact hpend _ (hinv.inputs_pending n m h hi)
      · simp at h
        exact absurd h.2.symm hr
  · refine ⟨?_, ?_, ?_, ?_, ?_, ?_⟩
    · simp [hinv.calls_visited]
    · exact List.Nodup.append hinv.nodup (List.nodup_singleton _) (by simpa using hv)
    · intro p hp
      simp only [mem_push_input] at hp
      rcases hp with (hp | ⟨hp, hs⟩) | ⟨hp, hs⟩
      · exact (hinv.queue_justified p (hrest p hp)).mono _
      · obtain ⟨m, hm⟩ := Option.isSome_iff_exists.mp hs
        rw [hp, hm]
        exact Justified.input ((hinv.queue_justified _ hop).mono _) (by simp [hr]) (Or.inl hm)
      · obtain ⟨m, hm⟩ := Option.isSome_iff_exists.mp hs
        rw [hp, hm]
        exact Justified.input ((hinv.queue_justified _ hop).mono _) (by simp [hr]) (Or.inr hm)
    · intro p hp
      rcases List.mem_append.mp hp with h | h
      · exact (hinv.visited_justified p h).mono _
      · simp at h; subst h
        exact (hinv.queue_justified _ hop).mono _
    · rcases hpend _ hinv.root_pending with h | h
      · exact Or.inl h
      · exact Or.inr (by simp only [mem_push_input]; exact Or.inl (Or.inl h))
    · intro n1 m hc hi
      rcases List.mem_append.mp hc with h | h
      · rcases hpend _ (hinv.inputs_pending n1 m h hi) with h | h
        · exact Or.inl h
        · exact Or.inr (by simp only [mem_push_input]; exact Or.inl (Or.inl h))
      · simp at h
        obtain ⟨rfl, _⟩ := h
        right
        simp only [mem_push_input]
        rcases hi with hi | hi
        · exact Or.inl (Or.inr ⟨hi.symm, by rw [hi]; rfl⟩)
        · exact Or.inr ⟨hi.symm, by rw [hi]; rfl⟩

theorem input_left_mem_candidates (g : PQP) (root : OperatorPtr) (n : Nat) :
    input_left g n ∈ candidates g root ∨ input_left g n = none := by
  unfold input_left
  cases h : g.inputs.get? n with
  | none => exact Or.inr rfl
  | some p =>
    left
    simp only [candidates, List.mem_cons, List.mem_flatMap]
    exact Or.inr ⟨p, List.get?_mem h, by simp⟩

theorem input_right_mem_candidates (g : PQP) (root : OperatorPtr) (n : Nat) :
    input_right g n ∈ candidates g root ∨ input_right g n = none := by
  unfold input_right
  cases h : g.inputs.get? n with
  | none => exact Or.inr rfl
  | some p =>
    left
    simp only [candidates, List.mem_cons, List.mem_flatMap]
    exact Or.inr ⟨p, List.get?_mem h, by simp⟩

theorem candidates_length (g : PQP) (root : OperatorPtr) :
    (candidates g root).length = 2 * g.inputs.length + 1 := by
  unfold candidates
  have h : ∀ l : List (OperatorPtr × OperatorPtr),
      (l.flatMap (fun p => [p.1, p.2])).length = 2 * l.length := by
    intro l
    induction l with
    | nil => rfl
    | cons a t ih => simp only [List.flatMap_cons, List.length_append, ih]; simp; omega
  simp [h]

theorem unvisited_card_lt {U : Finset OperatorPtr} {V : List OperatorPtr} {op : OperatorPtr}
    (hU : op ∈ U) (hV : op ∉ V) :
    (U \ (V ++ [op]).toFinset).card < (U \ V.toFinset).card := by
  apply Finset.card_lt_card
  rw [Finset.ssubset_iff_of_subset]
  · exact ⟨op, by simp [hU, hV], by simp⟩
  · intro x hx
    simp only [Finset.mem_sdiff, List.mem_toFinset, List.mem_append] at hx ⊢
    exact ⟨hx.1, fun h => hx.2 (Or.inl h)⟩

/-- Every iteration keeps the queue inside the candidate handles and decreases the measure. -/
theorem visit_step_measure {σ : Type} {g : PQP} (root : OperatorPtr)
    {visitor : σ → OperatorPtr → PQPVisitation × σ} {st st1 : VisitState σ}
    (hstep : visit_step g visitor st = VisitStep.next st1)
    (hcand : ∀ p ∈ st.operator_queue, p ∈ candidates g root) :
    (∀ p ∈ st1.operator_queue, p ∈ candidates g root) ∧
      visit_measure g root st1 < visit_measure g root st := by
  obtain ⟨op, rest, hq, hcase⟩ := visit_step_next hstep
  have hrest : ∀ x ∈ rest, x ∈ candidates g root := by
    intro x hx; exact hcand x (by rw [hq]; exact List.mem_cons_of_mem _ hx)
  have hop : op ∈ (candidates g root).toFinset := by
    rw [List.mem_toFinset]; exact hcand op (by rw [hq]; exact List.mem_cons_self _ _)
  rcases hcase with ⟨_, rfl⟩ | ⟨hv, _, rfl⟩ | ⟨hv, _, n, rfl, rfl⟩
  · refine ⟨hrest, ?_⟩
    simp only [visit_measure, hq, List.length_cons]
    omega
  · refine ⟨hrest, ?_⟩
    have := unvisited_card_lt hop hv
    simp only [visit_measure, hq, List.length_cons]
    omega
  · constructor
    · intro p hp
      simp only [mem_push_input] at hp
      rcases hp with (hp | ⟨hp, hs⟩) | ⟨hp, hs⟩
      · exact hrest p hp
      · rcases input_left_mem_candidates g root n with h | h
        · rw [hp]; exact h
        · rw [h] at hs; simp at hs
      · rcases input_right_mem_candidates g root n with h | h
        · rw [hp]; exact h
        · rw [h] at hs; simp at hs
    · have := unvisited_card_lt hop hv
      have h1 := length_push_input_le (push_input rest (input_left g n)) (input_right g n)
      have h2 := length_push_input_le rest (input_left g n)
      simp only [visit_measure, hq, List.length_cons]
      omega

/-- No null handle enters the queue, and no non-null handle is dereferenced wrongly. -/
theorem visit_step_nonnull {σ : Type} {g : PQP}
    {visitor : σ → OperatorPtr → PQPVisitation × σ} {st : VisitState σ}
    (hnn : ∀ p ∈ st.operator_queue, p ≠ none) :
    (∀ st1, visit_step g visitor st ≠ VisitStep.null_dereference st1) ∧
    (∀ st1, visit_step g visitor st = VisitStep.next st1 →
      ∀ p ∈ st1.operator_queue, p ≠ none) := by
  constructor
  · intro st1 h
    unfold visit_step at h
    cases hq : st.operator_queue with
    | nil => rw [hq] at h; simp at h
    | cons op rest =>
      rw [hq] at h
      cases op with
      | none => exact hnn none (by rw [hq]; exact List.mem_cons_self _ _) rfl
      | some n =>
        simp only at h
        split at h
        · simp at h
        · split at h <;> simp at h
  · intro st1 h
    obtain ⟨op, rest, hq, hcase⟩ := visit_step_next h
    have hrest : ∀ x ∈ rest, x ≠ none := by
      intro x hx; exact hnn x (by rw [hq]; exact List.mem_cons_of_mem _ hx)
    rcases hcase with ⟨_, rfl⟩ | ⟨_, _, rfl⟩ | ⟨_, _, n, rfl, rfl⟩
    · exact hrest
    · exact hrest
    · intro p hp
      simp only [mem_push_input] at hp
      rcases hp with (hp | ⟨hp, hs⟩) | ⟨hp, hs⟩
      · exact hrest p hp
      · intro hn; rw [hp] at hn; rw [hn] at hs; simp at hs
      · intro hn; rw [hp] at hn; rw [hn] at hs; simp at hs

theorem visit_step_exit {σ : Type} {g : PQP}
    {visitor : σ → OperatorPtr → PQPVisitation × σ} {st : VisitState σ}
    (h : visit_step g visitor st = VisitStep.exit) : st.operator_queue = [] := by
  unfold visit_step at h
  cases hq : st.operator_queue with
  | nil => rfl
  | cons op rest =>
    rw [hq] at h
    simp only at h
    split at h
    · simp at h
    · split at h
      · cases op <;> simp at h
      · simp at h

/-- With a budget at least as large as the measure the loop is left in a state that satisfies the
    invariant and has an empty queue. -/
theorem visit_loop_finished {σ : Type} {g : PQP} {root : OperatorPtr}
    {visitor : σ → OperatorPtr → PQPVisitation × σ} :
    ∀ (fuel : Nat) (st : VisitState σ), VisitInv g root st →
      (∀ p ∈ st.operator_queue, p ∈ candidates g root) →
      (∀ p ∈ st.operator_queue, p ≠ none) →
      visit_measure g root st ≤ fuel →
      ∃ st1, visit_loop g visitor fuel st = VisitOutcome.finished st1 ∧
        VisitInv g root st1 ∧ st1.operator_queue = [] := by
  intro fuel
  induction fuel with
  | zero =>
    intro st hinv _ _ hm
    have hq : st.operator_queue = [] := by
      have : st.operator_queue.length = 0 := by
        simp only [visit_measure] at hm; omega
      exact List.length_eq_zero.mp this
    refine ⟨st, ?_, hinv, hq⟩
    simp [visit_loop, hq]
  | succ fuel ih =>
    intro st hinv hcand hnn hm
    cases hs : visit_step g visitor st with
    | exit =>
      refine ⟨st, ?_, hinv, visit_step_exit hs⟩
      simp [visit_loop, hs]
    | next st1 =>
      obtain ⟨hc1, hlt⟩ := visit_step_measure root hs hcand
      obtain ⟨st2, h2, hinv2, hq2⟩ := ih st1 (visit_step_inv hs hinv) hc1
        ((visit_step_nonnull hnn).2 st1 hs) (by omega)
      refine ⟨st2, ?_, hinv2, hq2⟩
      simp [visit_loop, hs, h2]
    | null_dereference st1 =>
      exact absurd hs ((visit_step_nonnull hnn).1 st1)

theorem visit_measure_init_le {σ : Type} (g : PQP) (root : OperatorPtr) (s0 : σ) :
    visit_measure g root (visit_init root s0) ≤ visit_fuel g := by
  have h1 := List.toFinset_card_le (candidates g root)
  have h2 := candidates_length g root
  have h3 : ((candidates g root).toFinset \ (∅ : Finset OperatorPtr)).card
      ≤ (candidates g root).length := by simpa using h1
  simp only [visit_measure, visit_init, visit_fuel, List.toFinset_nil, List.length_singleton]
  omega

/-- For a non-null root `visit_pqp` returns, and the state it returns in satisfies the invariant
    with an empty queue. -/
theorem visit_pqp_finished {σ : Type} (g : PQP) (root : Nat)
    (visitor : σ → OperatorPtr → PQPVisitation × σ) (s0 : σ) :
    ∃ st, visit_pqp g (some root) visitor s0 = VisitOutcome.finished st ∧
      VisitInv g (some root) st ∧ st.operator_queue = [] := by
  unfold visit_pqp
  apply visit_loop_finished (visit_fuel g) _ (visit_init_inv g (some root) s0)
  · intro p hp
    simp [visit_init] at hp
    simp [candidates, hp]
  · intro p hp
    simp [visit_init] at hp
    simp [hp]
  · exact visit_measure_init_le g (some root) s0

/-- The only way in which an iteration dereferences a null pointer. -/
theorem visit_step_null {σ : Type} {g : PQP} {visitor : σ → OperatorPtr → PQPVisitation × σ}
    {st st1 : VisitState σ} (hstep : visit_step g visitor st = VisitStep.null_dereference st1) :
    ∃ rest, st.operator_queue = none :: rest ∧ none ∉ st.visited_operators ∧
      (visitor st.visitor_state none).1 = PQPVisitation.VisitInputs ∧
      st1 = { operator_queue := rest
              visited_operators := st.visited_operators ++ [none]
              visitor_state := (visitor st.visitor_state none).2
              calls := st.calls ++ [(none, (visitor st.visitor_state none).1)] } := by
  unfold visit_step at hstep
  cases hq : st.operator_queue with
  | nil => rw [hq] at hstep; simp at hstep
  | cons op rest =>
    rw [hq] at hstep
    by_cases hv : op ∈ st.visited_operators
    · simp [hv] at hstep
    · simp only [hv, if_false] at hstep
      by_cases hr : (visitor st.visitor_state op).1 = PQPVisitation.VisitInputs
      · simp only [hr, if_true] at hstep
        cases op with
        | some n => simp at hstep
        | none =>
          simp only at hstep
          injection hstep with h
          refine ⟨rest, rfl, hv, hr, ?_⟩
          rw [← h, hr]
      · simp [hr] at hstep

/-- However the run ends, the record of the calls lists the visited set, without repetition. -/
theorem visit_loop_calls_nodup {σ : Type} {g : PQP}
    {visitor : σ → OperatorPtr → PQPVisitation × σ} :
    ∀ (fuel : Nat) (st : VisitState σ),
      st.calls.map Prod.fst = st.visited_operators → st.visited_operators.Nodup →
      ((visit_loop g visitor fuel st).state.calls.map Prod.fst).Nodup := by
  intro fuel
  induction fuel with
  | zero =>
    intro st h1 h2
    unfold visit_loop
    split <;> simpa [VisitOutcome.state, h1] using h2
  | succ fuel ih =>
    intro st h1 h2
    unfold visit_loop
    cases hs : visit_step g visitor st with
    | exit => simpa [VisitOutcome.state, h1] using h2
    | next st1 =>
      simp only
      obtain ⟨op, rest, _, hcase⟩ := visit_step_next hs
      rcases hcase with ⟨_, rfl⟩ | ⟨hv, _, rfl⟩ | ⟨hv, _, n, rfl, rfl⟩
      · exact ih _ h1 h2
      · exact ih _ (by simp [h1])
          (List.Nodup.append h2 (List.nodup_singleton _) (by simpa using hv))
      · exact ih _ (by simp [h1])
          (List.Nodup.append h2 (List.nodup_singleton _) (by simpa using hv))
    | null_dereference st1 =>
      obtain ⟨rest, _, hv, _, rfl⟩ := visit_step_null hs
      simp only [VisitOutcome.state, List.map_append, h1, List.map_cons, List.map_nil]
      exact List.Nodup.append h2 (List.nodup_singleton _) (by simpa using hv)

theorem nodup_countP_le_one {l : List OperatorPtr} (h : l.Nodup) (p : OperatorPtr) :
    l.countP (fun q => decide (q = p)) ≤ 1 := by
  induction l with
  | nil => simp
  | cons a t ih =>
    obtain ⟨ha, ht⟩ := List.nodup_cons.mp h
    rw [List.countP_cons]
    by_cases hap : a = p
    · have h0 : t.countP (fun q => decide (q = p)) = 0 := by
        rw [List.countP_eq_zero]
        intro q hq
        simp only [decide_eq_true_eq]
        intro hqp
        exact ha (by rw [hap, ← hqp]; exact hq)
      simp [hap, h0]
    · have := ih ht
      simp [hap, this]

/-- C1. For every plan, every root handle (null or not) and every visitor, with any state of its
    own, the visitor is called at most once on each operator handle: no handle occurs twice among
    the arguments of the calls, and for a non-null root the walk returns. On the diamond
    `0 -> 1`, `0 -> 2`, `1 -> 3`, `2 -> 3` the calls are on `0`, `1`, `2`, `3`, so the shared
    operator `3` is visited once. -/
theorem visit_pqp_visits_at_most_once :
    (∀ (σ : Type) (g : PQP) (lqp : OperatorPtr) (visitor : σ → OperatorPtr → PQPVisitation × σ)
        (s0 : σ) (p : OperatorPtr),
        (visit_pqp g lqp visitor s0).state.visited_nodes.countP (fun q => decide (q = p)) ≤ 1) ∧
    (∀ (σ : Type) (g : PQP) (root : Nat) (visitor : σ → OperatorPtr → PQPVisitation × σ)
        (s0 : σ), (visit_pqp g (some root) visitor s0).returned = true) ∧
    (visit_pqp diamond (some 0) visit_all ()).state.visited_nodes
      = [some 0, some 1, some 2, some 3] := by
  refine ⟨?_, ?_, by decide⟩
  · intro σ g lqp visitor s0 p
    have h : (visit_pqp g lqp visitor s0).state.visited_nodes.Nodup :=
      visit_loop_calls_nodup (visit_fuel g) (visit_init lqp s0) rfl List.nodup_nil
    exact nodup_countP_le_one h p
  · intro σ g root visitor s0
    obtain ⟨st, h, _⟩ := visit_pqp_finished g root visitor s0
    rw [h]; rfl

/-- The visited set at the return of `visit_pqp`: it holds the root, is closed under the inputs
    of expanded operators, and every member is justified by the calls. -/
theorem visit_pqp_closure {σ : Type} (g : PQP) (root : Nat)
    (visitor : σ → OperatorPtr → PQPVisitation × σ) (s0 : σ) :
    ∃ st, visit_pqp g (some root) visitor s0 = VisitOutcome.finished st ∧
      some root ∈ st.visited_nodes ∧
      (∀ n m, (some n, PQPVisitation.VisitInputs) ∈ st.calls → is_input g n m →
        some m ∈ st.visited_nodes) ∧
      (∀ p ∈ st.visited_nodes, Justified g (some root) st.calls p) := by
  obtain ⟨st, hfin, hinv, hq⟩ := visit_pqp_finished g root visitor s0
  have hvis : st.visited_nodes = st.visited_operators := hinv.calls_visited
  refine ⟨st, hfin, ?_, ?_, ?_⟩
  · rcases hinv.root_pending with h | h
    · rw [hvis]; exact h
    · rw [hq] at h; simp at h
  · intro n m hc hi
    rcases hinv.inputs_pending n m hc hi with h | h
    · rw [hvis]; exact h
    · rw [hq] at h; simp at h
  · intro p hp
    rw [hvis] at hp
    exact hinv.visited_justified p hp

/-- C2. For every plan, non-null root and visitor, `visit_pqp` returns, and the set of operators
    passed to the visitor (a) contains the root, (b) contains every input of every visited
    operator on which the visitor returned `VisitInputs`, and (c) is contained in every set that
    holds the root and, with a visited operator on which the visitor returned `VisitInputs`, its
    inputs: it is the least such set. In particular (d) an operator with one parent
    that returned `DoNotVisitInputs` and another visited parent that returned `VisitInputs` is
    visited, and (e) an operator other than the root all of whose visited parents returned
    `DoNotVisitInputs` is not visited. -/
theorem visit_pqp_visited_least_closed {σ : Type} (g : PQP) (root : Nat)
    (visitor : σ → OperatorPtr → PQPVisitation × σ) (s0 : σ) :
    ∃ st, visit_pqp g (some root) visitor s0 = VisitOutcome.finished st ∧
      some root ∈ st.visited_nodes ∧
      (∀ n m, (some n, PQPVisitation.VisitInputs) ∈ st.calls → is_input g n m →
        some m ∈ st.visited_nodes) ∧
      (∀ S : OperatorPtr → Prop, S (some root) →
        (∀ n m, S (some n) → (some n, PQPVisitation.VisitInputs) ∈ st.calls → is_input g n m →
          S (some m)) →
        ∀ p ∈ st.visited_nodes, S p) ∧
      (∀ n1 n2 m, (some n1, PQPVisitation.DoNotVisitInputs) ∈ st.calls →
        (some n2, PQPVisitation.VisitInputs) ∈ st.calls → is_input g n1 m → is_input g n2 m →
        some m ∈ st.visited_nodes) ∧
      (∀ m, m ≠ root →
        (∀ n r, is_input g n m → (some n, r) ∈ st.calls → r = PQPVisitation.DoNotVisitInputs) →
        some m ∉ st.visited_nodes) := by
  obtain ⟨st, hfin, hroot, hclosed, hjust⟩ := visit_pqp_closure g root visitor s0
  refine ⟨st, hfin, hroot, hclosed, ?_, ?_, ?_⟩
  · intro S hS0 hS p hp
    have hall : ∀ q, Justified g (some root) st.calls q → S q := by
      intro q hj
      induction hj with
      | root => exact hS0
      | input _ hc hi ih => exact hS _ _ ih hc hi
    exact hall p (hjust p hp)
  · intro n1 n2 m _ h2 _ hi2
    exact hclosed n2 m h2 hi2
  · intro m hm hpar hvisited
    have hj := hjust _ hvisited
    generalize hp : (some m : OperatorPtr) = p at hj
    cases hj with
    | root => exact hm (Option.some.inj hp)
    | input _ hc hi =>
      have hmm := Option.some.inj hp
      subst hmm
      have := hpar _ _ hi hc
      cases this

/-- C3. For every plan and non-null root, if every call of the visitor made by the walk
    returned `VisitInputs`, then `visit_pqp` returns, the operators passed to the visitor are
    exactly the operators reachable from the root along input edges (the root included), and the
    number of visitor calls is the number of distinct reachable operators. -/
theorem visit_pqp_expand_everywhere {σ : Type} (g : PQP) (root : Nat)
    (visitor : σ → OperatorPtr → PQPVisitation × σ) (s0 : σ)
    (hall : ∀ c ∈ (visit_pqp g (some root) visitor s0).state.calls,
      c.2 = PQPVisitation.VisitInputs) :
    ∃ st, visit_pqp g (some root) visitor s0 = VisitOutcome.finished st ∧
      (∀ p, p ∈ st.visited_nodes ↔ ∃ n, p = some n ∧ Reachable g root n) ∧
      st.calls.length = Set.ncard {n | Reachable g root n} := by
  obtain ⟨st, hfin, hroot, hclosed, hjust⟩ := visit_pqp_closure g root visitor s0
  obtain ⟨st1, hfin1, hinv, _⟩ := visit_pqp_finished g root visitor s0
  have hst : st1 = st := by
    rw [hfin] at hfin1; injection hfin1 with h; exact h.symm
  subst hst
  rw [hfin] at hall
  simp only [VisitOutcome.state] at hall
  have hreach : ∀ p, Justified g (some root) st1.calls p → ∃ n, p = some n ∧ Reachable g root n := by
    intro p hj
    induction hj with
    | root => exact ⟨root, rfl, Reachable.root⟩
    | input _ _ hi ih =>
      obtain ⟨k, hk, hr⟩ := ih
      rw [← Option.some.inj hk] at hr
      exact ⟨_, rfl, Reachable.input hr hi⟩
  have hvisited : ∀ n, Reachable g root n → some n ∈ st1.visited_nodes := by
    intro n hr
    induction hr with
    | root => exact hroot
    | @input a b _ hi ih =>
      obtain ⟨c, hc, hca⟩ := List.mem_map.mp ih
      have hc2 := hall c hc
      have hce : c = (some a, PQPVisitation.VisitInputs) := by
        cases c; simp only at hca hc2; rw [hca, hc2]
      rw [hce] at hc
      exact hclosed a b hc hi
  have hmem : ∀ p, p ∈ st1.visited_nodes ↔ ∃ n, p = some n ∧ Reachable g root n := by
    intro p
    constructor
    · intro hp; exact hreach p (hjust p hp)
    · rintro ⟨n, rfl, hr⟩; exact hvisited n hr
  refine ⟨st1, hfin, hmem, ?_⟩
  have hnodup : st1.visited_nodes.Nodup := by
    have h := hinv.nodup
    rw [← hinv.calls_visited] at h
    exact h
  have himg : Set.image Option.some {n | Reachable g root n}
      = (↑(st1.visited_nodes.toFinset) : Set OperatorPtr) := by
    ext p
    simp only [Set.mem_image, Set.mem_setOf_eq, Finset.mem_coe, List.mem_toFinset, hmem p]
    constructor
    · rintro ⟨n, hr, rfl⟩; exact ⟨n, rfl, hr⟩
    · rintro ⟨n, rfl, hr⟩; exact ⟨n, hr, rfl⟩
  calc st1.calls.length = st1.visited_nodes.length := by simp [VisitState.visited_nodes]
    _ = st1.visited_nodes.toFinset.card := (List.toFinset_card_of_nodup hnodup).symm
    _ = Set.ncard (↑(st1.visited_nodes.toFinset) : Set OperatorPtr) :=
        (Set.ncard_coe_Finset _).symm
    _ = Set.ncard (Set.image Option.some {n | Reachable g root n}) := by rw [himg]
    _ = Set.ncard {n | Reachable g root n} :=
        Set.ncard_image_of_injective _ (Option.some_injective _)

/-- The diamond, with a visitor that expands every operator: the hypothesis of C3 holds and the
    calls are on the reachable operators. -/
theorem visit_pqp_expand_everywhere_diamond :
    (∀ c ∈ (visit_pqp diamond (some 0) visit_all ()).state.calls,
      c.2 = PQPVisitation.VisitInputs) ∧
    ∃ st, visit_pqp diamond (some 0) visit_all () = VisitOutcome.finished st ∧
      (∀ p, p ∈ st.visited_nodes ↔ ∃ n, p = some n ∧ Reachable diamond 0 n) ∧
      st.calls.length = Set.ncard {n | Reachable diamond 0 n} :=
  ⟨by decide, visit_pqp_expand_everywhere diamond 0 visit_all () (by decide)⟩

/-- C4. For every plan and non-null root, if the visitor returns `DoNotVisitInputs` on the
    root, then `visit_pqp` returns after exactly one visitor call, the call on the root: the
    record of the calls is that one call, no other operator is passed to the visitor, and so no
    input of the root is (an input that is the root itself, which only a cyclic plan has, gets
    the root's one call and no second one). -/
theorem visit_pqp_root_stop {σ : Type} (g : PQP) (root : Nat)
    (visitor : σ → OperatorPtr → PQPVisitation × σ) (s0 : σ)
    (hstop : (visitor s0 (some root)).1 = PQPVisitation.DoNotVisitInputs) :
    ∃ st, visit_pqp g (some root) visitor s0 = VisitOutcome.finished st ∧
      st.calls = [(some root, PQPVisitation.DoNotVisitInputs)] ∧
      (∀ p, p ≠ some root → p ∉ st.visited_nodes) ∧
      (∀ m, is_input g root m → m ≠ root → some m ∉ st.visited_nodes) := by
  have hne : (visitor s0 (some root)).1 ≠ PQPVisitation.VisitInputs := by
    rw [hstop]; decide
  refine ⟨{ operator_queue := []
            visited_operators := [some root]
            visitor_state := (visitor s0 (some root)).2
            calls := [(some root, PQPVisitation.DoNotVisitInputs)] }, ?_, rfl, ?_, ?_⟩
  · have hfuel : visit_fuel g = (4 * g.inputs.length + 1) + 1 + 1 := by
      unfold visit_fuel; omega
    unfold visit_pqp
    rw [hfuel]
    simp [visit_loop, visit_step, visit_init, hne, hstop]
  · intro p hp
    simpa [VisitState.visited_nodes] using hp
  · intro m _ hm
    simpa [VisitState.visited_nodes] using hm

/-- A visitor that stops at the root of the diamond: the hypothesis of C4 holds and the walk makes
    the one call on the root. -/
theorem visit_pqp_root_stop_diamond :
    (visit_by (fun _ => PQPVisitation.DoNotVisitInputs) () (some 0)).1
      = PQPVisitation.DoNotVisitInputs ∧
    ∃ st, visit_pqp diamond (some 0) (visit_by (fun _ => PQPVisitation.DoNotVisitInputs)) ()
        = VisitOutcome.finished st ∧
      st.calls = [(some 0, PQPVisitation.DoNotVisitInputs)] ∧
      (∀ p, p ≠ some 0 → p ∉ st.visited_nodes) ∧
      (∀ m, is_input diamond 0 m → m ≠ 0 → some m ∉ st.visited_nodes) :=
  ⟨rfl, visit_pqp_root_stop diamond 0 (visit_by (fun _ => PQPVisitation.DoNotVisitInputs)) () rfl⟩

end Hyrise

/-! ## Theorems about the `ClusteringPlugin` -/

namespace Hyrise

/-- The inner loop takes the segments of the chunk in column order. -/
theorem collect_segments_spec (chunk : Chunk) :
    ∀ (remaining : Nat) (column_id : Nat) (segments : Segments),
      column_id ≤ chunk.segments.length →
      collect_segments chunk remaining column_id (chunk.segments.take column_id) = some segments →
      segments = chunk.segments.take (column_id + remaining) ∧
        column_id + remaining ≤ chunk.segments.length := by
  intro remaining
  induction remaining with
  | zero =>
    intro column_id segments hle h
    simp only [collect_segments, Option.some.injEq] at h
    exact ⟨by simpa using h.symm, by simpa using hle⟩
  | succ r ih =>
    intro column_id segments _ h
    simp only [collect_segments, Chunk.get_segment] at h
    cases hg : chunk.segments.get? column_id with
    | none => rw [hg] at h; simp at h
    | some segment =>
      rw [hg] at h
      simp only at h
      have hlt : column_id < chunk.segments.length := by
        obtain ⟨hlt, _⟩ := List.get?_eq_some.mp hg
        exact hlt
      have htake : chunk.segments.take column_id ++ [segment]
          = chunk.segments.take (column_id + 1) := by
        rw [List.take_succ, ← List.get?_eq_getElem?, hg]; rfl
      rw [htake] at h
      obtain ⟨h1, h2⟩ := ih (column_id + 1) segments hlt h
      have he : column_id + 1 + r = column_id + (r + 1) := by omega
      rw [he] at h1 h2
      exact ⟨h1, h2⟩

theorem modify_append_last {α : Type} (f : α → α) (l : List α) (x : α) :
    List.modify f l.length (l ++ [x]) = l ++ [f x] := by
  induction l with
  | nil => rfl
  | cons a t ih => simp [List.modify_succ_cons, ih]

/-- The body of the outer loop appends the rebuilt chunk, when the table has `chunk_id` chunks
    at the start of the iteration. -/
theorem rebuild_chunk_spec {immutable_sorted_table table table1 : Table} {column_count : Nat}
    {sort_column_id : ColumnID} {chunk_id : ChunkID}
    (h : rebuild_chunk immutable_sorted_table column_count sort_column_id table chunk_id
      = some table1)
    (hlen : table.chunks.length = chunk_id) :
    ∃ chunk, immutable_sorted_table.chunks.get? chunk_id = some chunk ∧
      column_count ≤ chunk.segments.length ∧
      table1 = { table with
        chunks := table.chunks ++ [rebuilt_chunk column_count sort_column_id chunk] } := by
  unfold rebuild_chunk at h
  simp only [Table.get_chunk] at h
  cases hc : immutable_sorted_table.chunks.get? chunk_id with
  | none => rw [hc] at h; simp at h
  | some chunk =>
    rw [hc] at h
    simp only at h
    cases hs : collect_segments chunk column_count 0 [] with
    | none => rw [hs] at h; simp at h
    | some segments =>
      rw [hs] at h
      simp only [Option.some.injEq] at h
      obtain ⟨h1, h2⟩ := collect_segments_spec chunk column_count 0 segments (Nat.zero_le _)
        (by simpa using hs)
      simp only [Nat.zero_add] at h1 h2
      refine ⟨chunk, rfl, h2, ?_⟩
      rw [← h]
      simp only [Table.append_chunk, Table.update_chunk, ← hlen, modify_append_last,
        rebuilt_chunk, Chunk.set_ordered_by, Chunk.finalize, h1]

theorem drop_take_succ {α : Type} {l : List α} {k : Nat} {a : α} (r : Nat)
    (h : l.get? k = some a) :
    (l.drop k).take (r + 1) = a :: (l.drop (k + 1)).take r := by
  obtain ⟨hlt, ha⟩ := List.get?_eq_some.mp h
  have hk : l[k] = a := by simpa using ha
  rw [List.drop_eq_getElem_cons hlt, List.take_succ_cons, hk]

/-- The outer loop appends the rebuilt chunks of the sorted table, in order. -/
theorem rebuild_chunks_spec (immutable_sorted_table : Table) (column_count : Nat)
    (sort_column_id : ColumnID) :
    ∀ (remaining chunk_id : Nat) (table table1 : Table),
      rebuild_chunks immutable_sorted_table column_count sort_column_id remaining chunk_id table
        = some table1 →
      table.chunks.length = chunk_id →
      table1 = { table with chunks := (table.chunks ++
        ((immutable_sorted_table.chunks.drop chunk_id).take remaining).map
          (rebuilt_chunk column_count sort_column_id)) } ∧
      ∀ c ∈ (immutable_sorted_table.chunks.drop chunk_id).take remaining,
        column_count ≤ c.segments.length := by
  intro remaining
  induction remaining with
  | zero =>
    intro chunk_id table table1 h _
    simp only [rebuild_chunks, Option.some.injEq] at h
    subst h
    simp
  | succ r ih =>
    intro chunk_id table table1 h hlen
    simp only [rebuild_chunks] at h
    cases hb : rebuild_chunk immutable_sorted_table column_count sort_column_id table chunk_id with
    | none => rw [hb] at h; simp at h
    | some table2 =>
      rw [hb] at h
      simp only at h
      obtain ⟨chunk, hchunk, hcc, h2⟩ := rebuild_chunk_spec hb hlen
      have hlen2 : table2.chunks.length = chunk_id + 1 := by
        rw [h2]; simp [hlen]
      obtain ⟨h3, h4⟩ := ih (chunk_id + 1) table2 table1 h hlen2
      rw [drop_take_succ r hchunk]
      constructor
      · rw [h3, h2]
        simp
      · intro c hc
        rcases List.mem_cons.mp hc with hc | hc
        · rw [hc]; exact hcc
        · exact h4 c hc

/-- The table that `rebuild_table` returns. -/
theorem rebuild_table_spec {env : Collaborators} {table immutable_sorted_table new_table : Table}
    {sort_column_id : ColumnID}
    (h : rebuild_table env table immutable_sorted_table sort_column_id = some new_table) :
    new_table.column_definitions = immutable_sorted_table.column_definitions ∧
    new_table.type = TableType.Data ∧
    new_table.target_chunk_size = table.target_chunk_size ∧
    new_table.use_mvcc = UseMvcc.Yes ∧
    new_table.chunks.map (fun c => ({ c with pruning_statistics := none } : Chunk))
      = immutable_sorted_table.chunks.map
          (rebuilt_chunk immutable_sorted_table.column_count sort_column_id) ∧
    ∀ c ∈ immutable_sorted_table.chunks,
      immutable_sorted_table.column_count ≤ c.segments.length := by
  unfold rebuild_table at h
  simp only at h
  cases hr : rebuild_chunks immutable_sorted_table immutable_sorted_table.column_count
      sort_column_id immutable_sorted_table.chunk_count 0
      (Table.create immutable_sorted_table.column_definitions TableType.Data
        table.target_chunk_size UseMvcc.Yes) with
  | none => rw [hr] at h; simp at h
  | some table1 =>
    rw [hr] at h
    simp only [Option.some.injEq] at h
    obtain ⟨h1, h2⟩ := rebuild_chunks_spec _ _ _ _ _ _ _ hr rfl
    simp only [Table.chunk_count, List.drop_zero, List.take_length] at h1 h2
    refine ⟨?_, ?_, ?_, ?_, ?_, h2⟩
    · rw [← h, h1]; rfl
    · rw [← h, h1]; rfl
    · rw [← h, h1]; rfl
    · rw [← h, h1]; rfl
    · rw [← h, h1]
      simp [generate_chunk_pruning_statistics, Table.set_table_statistics, Table.create,
        rebuilt_chunk]

/-- The three ways in which the loop body ends for an entry: the table is absent (message and
    `return`), a fatal failure before any effect, or the swap. -/
theorem process_entry_cases (env : Collaborators) (w : World) (table_name column_name : String) :
    (w.storage_manager table_name = none ∧
      (process_entry env w table_name column_name).world
        = w.add_message description (no_optimization_message table_name) ∧
      (process_entry env w table_name column_name).effects
        = [Effect.add_message description (no_optimization_message table_name)] ∧
      (process_entry env w table_name column_name).outcome = EntryOutcome.returned) ∨
    (∃ table, w.storage_manager table_name = some table ∧
      (table.column_id_by_name column_name = none ∨
        ∃ sort_column_id, table.column_id_by_name column_name = some sort_column_id ∧
          ((env.sort table sort_column_id OrderByMode.Ascending env.DEFAULT_SIZE).chunk_count
              ≠ table.chunk_count ∨
            rebuild_table env table
              (env.sort table sort_column_id OrderByMode.Ascending env.DEFAULT_SIZE)
              sort_column_id = none)) ∧
      (process_entry env w table_name column_name).world = w ∧
      (process_entry env w table_name column_name).effects = [] ∧
      ∃ message, (process_entry env w table_name column_name).outcome
        = EntryOutcome.fatal message) ∨
    (∃ table sort_column_id new_table, w.storage_manager table_name = some table ∧
      table.column_id_by_name column_name = some sort_column_id ∧
      (env.sort table sort_column_id OrderByMode.Ascending env.DEFAULT_SIZE).chunk_count
        = table.chunk_count ∧
      rebuild_table env table
        (env.sort table sort_column_id OrderByMode.Ascending env.DEFAULT_SIZE) sort_column_id
        = some new_table ∧
      (process_entry env w table_name column_name).world
        = (((w.replace_table table_name new_table).clear_lqp_cache).clear_pqp_cache).add_message
            description (applied_message table_name column_name) ∧
      (process_entry env w table_name column_name).effects
        = [Effect.replace_table table_name new_table] ++ cache_effects w ++
            [Effect.add_message description (applied_message table_name column_name)] ∧
      (process_entry env w table_name column_name).outcome = EntryOutcome.next) := by
  cases ht : w.storage_manager table_name with
  | none =>
    left
    refine ⟨rfl, ?_, ?_, ?_⟩ <;> simp [process_entry, World.get_table, ht]
  | some table =>
    right
    cases hc : table.column_id_by_name column_name with
    | none =>
      left
      refine ⟨table, rfl, Or.inl hc, ?_, ?_, ?_⟩ <;>
        simp [process_entry, World.get_table, ht, hc]
    | some sort_column_id =>
      by_cases hn : (env.sort table sort_column_id OrderByMode.Ascending env.DEFAULT_SIZE).chunk_count
          = table.chunk_count
      · cases hr : rebuild_table env table
            (env.sort table sort_column_id OrderByMode.Ascending env.DEFAULT_SIZE)
            sort_column_id with
        | none =>
          left
          refine ⟨table, rfl, Or.inr ⟨sort_column_id, hc, Or.inr hr⟩, ?_, ?_, ?_⟩ <;>
            simp [process_entry, World.get_table, ht, hc, hn, hr]
        | some new_table =>
          right
          refine ⟨table, sort_column_id, new_table, rfl, hc, hn, hr, ?_, ?_, ?_⟩ <;>
            simp [process_entry, World.get_table, ht, hc, hn, hr]
      · left
        refine ⟨table, rfl, Or.inr ⟨sort_column_id, hc, Or.inl hn⟩, ?_, ?_, ?_⟩ <;>
          simp [process_entry, World.get_table, ht, hc, hn]

/-- What the swap of one entry (`replace_table`, the two cache statements, the message) does to
    each part of the world. -/
theorem swap_world_fields (w : World) (table_name : String) (new_table : Table)
    (source message : String) :
    ((((w.replace_table table_name new_table).clear_lqp_cache).clear_pqp_cache).add_message
        source message).storage_manager
      = (fun n => if n = table_name then some new_table else w.storage_manager n) ∧
    ((((w.replace_table table_name new_table).clear_lqp_cache).clear_pqp_cache).add_message
        source message).default_lqp_cache = cleared w.default_lqp_cache ∧
    ((((w.replace_table table_name new_table).clear_lqp_cache).clear_pqp_cache).add_message
        source message).default_pqp_cache = cleared w.default_pqp_cache ∧
    ((((w.replace_table table_name new_table).clear_lqp_cache).clear_pqp_cache).add_message
        source message).log_manager = w.log_manager ++ [(source, message)] ∧
    ((((w.replace_table table_name new_table).clear_lqp_cache).clear_pqp_cache).add_message
        source message)._optimized = w._optimized := by
  cases hl : w.default_lqp_cache <;> cases hp : w.default_pqp_cache <;>
    simp [World.replace_table, World.clear_lqp_cache, World.clear_pqp_cache, World.add_message,
      cleared, hl, hp]

theorem optimize_loop_nil (env : Collaborators) (w : World) :
    optimize_loop env [] w = { world := w, effects := [], outcome := PassOutcome.returned } :=
  rfl

theorem optimize_loop_cons_next {env : Collaborators} {w : World} {table_name column_name : String}
    (rest : List (String × String))
    (h : (process_entry env w table_name column_name).outcome = EntryOutcome.next) :
    optimize_loop env ((table_name, column_name) :: rest) w
      = { world := (optimize_loop env rest (process_entry env w table_name column_name).world).world
          effects := (process_entry env w table_name column_name).effects ++
            (optimize_loop env rest (process_entry env w table_name column_name).world).effects
          outcome :=
            (optimize_loop env rest (process_entry env w table_name column_name).world).outcome } := by
  simp [optimize_loop, h]

theorem optimize_loop_cons_returned {env : Collaborators} {w : World}
    {table_name column_name : String} (rest : List (String × String))
    (h : (process_entry env w table_name column_name).outcome = EntryOutcome.returned) :
    optimize_loop env ((table_name, column_name) :: rest) w
      = { world := (process_entry env w table_name column_name).world
          effects := (process_entry env w table_name column_name).effects
          outcome := PassOutcome.returned } := by
  simp [optimize_loop, h]

theorem optimize_loop_cons_fatal {env : Collaborators} {w : World}
    {table_name column_name : String} (rest : List (String × String)) {message : String}
    (h : (process_entry env w table_name column_name).outcome = EntryOutcome.fatal message) :
    optimize_loop env ((table_name, column_name) :: rest) w
      = { world := (process_entry env w table_name column_name).world
          effects := (process_entry env w table_name column_name).effects
          outcome := PassOutcome.fatal message } := by
  simp [optimize_loop, h]

/-- The one `replace_table` effect in the effects of a swap. -/
theorem replace_mem_swap_effects {w : World} {name n1 : String} {table new_table : Table}
    {source message : String} :
    Effect.replace_table name table ∈
      [Effect.replace_table n1 new_table] ++ cache_effects w ++
        [Effect.add_message source message] ↔ name = n1 ∧ table = new_table := by
  unfold cache_effects
  cases w.default_lqp_cache <;> cases w.default_pqp_cache <;> simp

/-- Only tables of the policy are replaced. -/
theorem optimize_loop_replace_mem (env : Collaborators) :
    ∀ (entries : List (String × String)) (w : World) (name : String) (table : Table),
      Effect.replace_table name table ∈ (optimize_loop env entries w).effects →
      name ∈ entries.map Prod.fst := by
  intro entries
  induction entries with
  | nil => intro w name table h; simp [optimize_loop_nil] at h
  | cons e rest ih =>
    obtain ⟨n1, c1⟩ := e
    intro w name table h
    rcases process_entry_cases env w n1 c1 with ⟨_, _, he, ho⟩ | ⟨_, _, _, _, he, m, ho⟩ |
      ⟨_, _, new_table, _, _, _, _, hw, he, ho⟩
    · rw [optimize_loop_cons_returned rest ho, he] at h
      simp at h
    · rw [optimize_loop_cons_fatal rest ho, he] at h
      simp at h
    · rw [optimize_loop_cons_next rest ho, he] at h
      simp only [List.map_cons, List.mem_cons]
      rcases List.mem_append.mp h with h | h
      · exact Or.inl (replace_mem_swap_effects.mp h).1
      · exact Or.inr (ih _ name table h)

/-- A table for which the pass makes no `replace_table` call keeps its binding. -/
theorem optimize_loop_storage_unchanged (env : Collaborators) :
    ∀ (entries : List (String × String)) (w : World) (name : String),
      (∀ table, Effect.replace_table name table ∉ (optimize_loop env entries w).effects) →
      (optimize_loop env entries w).world.storage_manager name = w.storage_manager name := by
  intro entries
  induction entries with
  | nil => intro w name _; rfl
  | cons e rest ih =>
    obtain ⟨n1, c1⟩ := e
    intro w name h
    rcases process_entry_cases env w n1 c1 with ⟨_, hw, _, ho⟩ | ⟨_, _, _, hw, _, m, ho⟩ |
      ⟨_, _, new_table, _, _, _, _, hw, he, ho⟩
    · rw [optimize_loop_cons_returned rest ho, hw]
      rfl
    · rw [optimize_loop_cons_fatal rest ho, hw]
    · rw [optimize_loop_cons_next rest ho, he] at h
      rw [optimize_loop_cons_next rest ho]
      simp only
      have hne : name ≠ n1 := by
        intro heq
        exact h new_table (List.mem_append_left _ (replace_mem_swap_effects.mpr ⟨heq, rfl⟩))
      rw [ih _ name (fun table ht => h table (List.mem_append_right _ ht)), hw,
        (swap_world_fields w n1 new_table _ _).1]
      simp [hne]

/-- A `replace_table` call of the pass: the table it registers is the one built from the table
    that was bound to the name before the pass, and it is still registered after the pass. -/
theorem optimize_loop_replace (env : Collaborators) :
    ∀ (entries : List (String × String)) (w : World) (name : String) (new_table : Table),
      (entries.map Prod.fst).Nodup →
      Effect.replace_table name new_table ∈ (optimize_loop env entries w).effects →
      (optimize_loop env entries w).world.storage_manager name = some new_table ∧
      ∃ column_name table sort_column_id, (name, column_name) ∈ entries ∧
        w.storage_manager name = some table ∧
        table.column_id_by_name column_name = some sort_column_id ∧
        (env.sort table sort_column_id OrderByMode.Ascending env.DEFAULT_SIZE).chunk_count
          = table.chunk_count ∧
        rebuild_table env table
          (env.sort table sort_column_id OrderByMode.Ascending env.DEFAULT_SIZE) sort_column_id
          = some new_table := by
  intro entries
  induction entries with
  | nil => intro w name new_table _ h; simp [optimize_loop_nil] at h
  | cons e rest ih =>
    obtain ⟨n1, c1⟩ := e
    intro w name new_table hnodup h
    obtain ⟨hn1, hrest⟩ := List.nodup_cons.mp hnodup
    rcases process_entry_cases env w n1 c1 with ⟨_, _, he, ho⟩ | ⟨_, _, _, _, he, m, ho⟩ |
      ⟨t, cid, tbl, ht, hc, hcount, hr, hw, he, ho⟩
    · rw [optimize_loop_cons_returned rest ho, he] at h
      simp at h
    · rw [optimize_loop_cons_fatal rest ho, he] at h
      simp at h
    · rw [optimize_loop_cons_next rest ho, he] at h
      rw [optimize_loop_cons_next rest ho]
      simp only
      rcases List.mem_append.mp h with h | h
      · obtain ⟨rfl, rfl⟩ := replace_mem_swap_effects.mp h
        constructor
        · rw [optimize_loop_storage_unchanged env rest _ name, hw,
            (swap_world_fields w name new_table _ _).1]
          · simp
          · intro table hmem
            exact hn1 (optimize_loop_replace_mem env rest _ name table hmem)
        · exact ⟨c1, t, cid, List.mem_cons_self _ _, ht, hc, hcount, hr⟩
      · obtain ⟨h1, col, t2, cid2, hmem, ht2, hc2, hcount2, hr2⟩ :=
          ih _ name new_table hrest h
        have hne : name ≠ n1 := by
          intro heq
          apply hn1
          rw [← heq]
          exact List.mem_map.mpr ⟨(name, col), hmem, rfl⟩
        refine ⟨h1, col, t2, cid2, List.mem_cons_of_mem _ hmem, ?_, hc2, hcount2, hr2⟩
        rw [hw, (swap_world_fields w n1 tbl _ _).1] at ht2
        simpa [hne] using ht2

/-- The policy as the loop sees it holds the entries of the initializer list, by ascending key,
    as the iteration over a `std::map` gives them. -/
theorem sort_orders_iteration_order :
    sort_orders.Perm sort_orders_initializer ∧ "lineitem" < "orders" ∧
      sort_orders.map Prod.fst = ["lineitem", "orders"] := by
  refine ⟨by decide, ?_, rfl⟩
  exact String.lt_iff_toList_lt.mpr (by decide)

theorem has_table_eq_false_iff (w : World) (name : String) :
    w.has_table name = false ↔ w.get_table name = none := by
  simp [World.has_table, World.get_table]

theorem optimize_clustering_unset (env : Collaborators) {w : World} (h : w._optimized = false) :
    _optimize_clustering env w = optimize_loop env sort_orders { w with _optimized := true } := by
  simp [_optimize_clustering, h]

theorem sort_orders_nodup : (sort_orders.map Prod.fst).Nodup := by decide

theorem sort_orders_column {table_name c1 c2 : String} (h1 : (table_name, c1) ∈ sort_orders)
    (h2 : (table_name, c2) ∈ sort_orders) : c1 = c2 := by
  simp only [sort_orders, List.mem_cons, Prod.mk.injEq, List.mem_singleton, List.not_mem_nil,
    or_false] at h1 h2
  rcases h1 with ⟨rfl, rfl⟩ | ⟨rfl, rfl⟩ <;> rcases h2 with ⟨h, rfl⟩ | ⟨h, rfl⟩ <;>
    first | rfl | (exact absurd h (by decide))

theorem completes_iff {r : PassResult} {table_name : String} :
    r.completes table_name ↔ ∃ table, Effect.replace_table table_name table ∈ r.effects := by
  constructor
  · rintro ⟨e, he, hr⟩
    cases e with
    | replace_table n t =>
      simp only [Effect.replaces, decide_eq_true_eq] at hr
      subst hr
      exact ⟨t, he⟩
    | add_message a b => simp [Effect.replaces] at hr
    | clear_lqp_cache => simp [Effect.replaces] at hr
    | clear_pqp_cache => simp [Effect.replaces] at hr
  · rintro ⟨t, ht⟩
    exact ⟨_, ht, by simp [Effect.replaces]⟩

/-- An entry of the policy that completes in a pass: the table registered under its name after
    the pass is the one that `rebuild_table` makes of the table bound to the name before the
    pass and of its sorted version. -/
theorem optimize_clustering_completes {env : Collaborators} {w : World}
    {table_name column_name : String} {table : Table}
    (hpolicy : (table_name, column_name) ∈ sort_orders)
    (hguard : w._optimized = false)
    (htable : w.get_table table_name = some table)
    (hdone : (_optimize_clustering env w).completes table_name) :
    ∃ sort_column_id new_table,
      table.column_id_by_name column_name = some sort_column_id ∧
      (env.sort table sort_column_id OrderByMode.Ascending env.DEFAULT_SIZE).chunk_count
        = table.chunk_count ∧
      rebuild_table env table
        (env.sort table sort_column_id OrderByMode.Ascending env.DEFAULT_SIZE) sort_column_id
        = some new_table ∧
      (_optimize_clustering env w).world.get_table table_name = some new_table := by
  obtain ⟨new_table, hmem⟩ := completes_iff.mp hdone
  rw [optimize_clustering_unset env hguard] at hmem ⊢
  obtain ⟨hfinal, col, t, cid, hcol, ht, hc, hcount, hr⟩ :=
    optimize_loop_replace env sort_orders _ table_name new_table sort_orders_nodup hmem
  have hcc : col = column_name := sort_orders_column hcol hpolicy
  subst hcc
  have htt : t = table := by
    simp only [World.get_table] at htable
    simp only at ht
    rw [htable] at ht
    exact (Option.some.inj ht).symm
  subst htt
  exact ⟨cid, new_table, hc, hcount, hr, hfinal⟩

theorem chunk_size_congr {c1 c2 : Chunk} (h : c1.segments = c2.segments) : c1.size = c2.size := by
  simp [Chunk.size, h]

theorem chunk_rows_congr {c1 c2 : Chunk} (h : c1.segments = c2.segments) : c1.rows = c2.rows := by
  simp [Chunk.rows, chunk_size_congr h, h]

theorem table_rows_length (t : Table) : t.rows.length = t.row_count := by
  unfold Table.rows Table.row_count
  induction t.chunks with
  | nil => rfl
  | cons c cs ih => simp [List.flatMap_cons, ih, Chunk.rows]

theorem row_count_congr {t1 t2 : Table}
    (h : t1.chunks.map Chunk.segments = t2.chunks.map Chunk.segments) :
    t1.row_count = t2.row_count := by
  have hsize : ∀ l : List Chunk, l.map Chunk.size
      = (l.map Chunk.segments).map (fun segs => match segs with | [] => 0 | s :: _ => s.length) := by
    intro l
    rw [List.map_map]
    apply List.map_congr_left
    intro c _
    rfl
  unfold Table.row_count
  rw [hsize, hsize, h]

/-- The chunks of the rebuilt table hold the segments of the chunks of the sorted table, when the
    sorted table satisfies the table invariant. -/
theorem rebuild_table_segments {env : Collaborators} {table immutable_sorted_table new_table : Table}
    {sort_column_id : ColumnID}
    (h : rebuild_table env table immutable_sorted_table sort_column_id = some new_table)
    (hwf : immutable_sorted_table.well_formed) :
    new_table.chunks.map Chunk.segments = immutable_sorted_table.chunks.map Chunk.segments := by
  obtain ⟨_, _, _, _, hchunks, _⟩ := rebuild_table_spec h
  have h2 := congrArg (List.map Chunk.segments) hchunks
  simp only [List.map_map] at h2
  have hl : (Chunk.segments ∘ fun c => ({ c with pruning_statistics := none } : Chunk))
      = Chunk.segments := rfl
  rw [hl] at h2
  rw [h2]
  apply List.map_congr_left
  intro c hc
  simp only [Function.comp, rebuilt_chunk]
  rw [← hwf c hc]
  exact List.take_length _

theorem sorted_chunk_values {t : Table} {column_id : ColumnID}
    (h : (t.rows.map (fun r => r.getD column_id 0)).Sorted (fun a b => a ≤ b)) :
    ∀ c ∈ t.chunks, (c.column_values column_id).Sorted (fun a b => a ≤ b) := by
  intro c hc
  have hsub : List.Sublist (c.column_values column_id)
      (t.rows.map (fun r => r.getD column_id 0)) := by
    unfold Chunk.column_values Table.rows
    apply List.Sublist.map
    rw [List.flatMap]
    exact List.sublist_flatten_of_mem (List.mem_map.mpr ⟨c, hc, rfl⟩)
  exact List.Pairwise.sublist hsub h

/-- C6. For a table of the policy that is in the store and whose entry completes in a pass, if
    the `Sort` operator returns for it a table that satisfies the table invariant and whose rows
    are a permutation of its rows in ascending order of the sort column, then the table
    registered under the name after the pass has the row count of the original and the chunk
    count of the original, its chunks hold, chunk by chunk and in column order, the segments of
    the chunks of the sorted table, and in each of its chunks the values of the sort column are
    non-decreasing. -/
theorem reclustered_table_sorted_rebuild (env : Collaborators) (w : World)
    (table_name column_name : String) (table : Table) (sort_column_id : ColumnID)
    (hpolicy : (table_name, column_name) ∈ sort_orders)
    (hguard : w._optimized = false)
    (htable : w.get_table table_name = some table)
    (hcolumn : table.column_id_by_name column_name = some sort_column_id)
    (hsort : sorted_permutation env table sort_column_id)
    (hdone : (_optimize_clustering env w).completes table_name) :
    ∃ new_table, (_optimize_clustering env w).world.get_table table_name = some new_table ∧
      new_table.row_count = table.row_count ∧
      new_table.chunk_count = table.chunk_count ∧
      new_table.chunks.map Chunk.segments
        = (env.sort table sort_column_id OrderByMode.Ascending env.DEFAULT_SIZE).chunks.map
            Chunk.segments ∧
      ∀ c ∈ new_table.chunks,
        (c.column_values sort_column_id).Sorted (fun a b => a ≤ b) := by
  obtain ⟨cid, new_table, hc, hcount, hr, hfinal⟩ :=
    optimize_clustering_completes hpolicy hguard htable hdone
  rw [hcolumn] at hc
  have hcid : sort_column_id = cid := Option.some.inj hc
  subst hcid
  obtain ⟨hwf, hperm, hsorted⟩ := hsort
  have hseg := rebuild_table_segments hr hwf
  refine ⟨new_table, hfinal, ?_, ?_, hseg, ?_⟩
  · rw [row_count_congr hseg, ← table_rows_length, ← table_rows_length]
    exact hperm.length_eq
  · have hlen := congrArg List.length hseg
    simp only [List.length_map] at hlen
    unfold Table.chunk_count at hcount ⊢
    rw [hlen, hcount]
  · intro c hc
    have hmem : c.segments ∈ new_table.chunks.map Chunk.segments :=
      List.mem_map.mpr ⟨c, hc, rfl⟩
    rw [hseg] at hmem
    obtain ⟨c1, hc1, hc1s⟩ := List.mem_map.mp hmem
    have hv : c.column_values sort_column_id = c1.column_values sort_column_id := by
      unfold Chunk.column_values
      rw [chunk_rows_congr hc1s.symm]
    rw [hv]
    exact sorted_chunk_values hsorted c1 hc1

/-- The example world with both tables: the hypotheses of C6 hold for `"orders"`, and the rebuilt
    table has the stated properties. -/
theorem reclustered_table_sorted_rebuild_example :
    (("orders", "o_orderdate") ∈ sort_orders ∧
      (example_world (some example_lineitem) (some example_orders))._optimized = false ∧
      (example_world (some example_lineitem) (some example_orders)).get_table "orders"
        = some example_orders ∧
      example_orders.column_id_by_name "o_orderdate" = some 1 ∧
      sorted_permutation example_env example_orders 1 ∧
      (_optimize_clustering example_env
        (example_world (some example_lineitem) (some example_orders))).completes "orders") ∧
    ∃ new_table, (_optimize_clustering example_env
        (example_world (some example_lineitem) (some example_orders))).world.get_table "orders"
          = some new_table ∧
      new_table.row_count = example_orders.row_count ∧
      new_table.chunk_count = example_orders.chunk_count ∧
      new_table.chunks.map Chunk.segments
        = (example_env.sort example_orders 1 OrderByMode.Ascending
            example_env.DEFAULT_SIZE).chunks.map Chunk.segments ∧
      ∀ c ∈ new_table.chunks, (c.column_values 1).Sorted (fun a b => a ≤ b) :=
  ⟨⟨by decide, by decide, by decide, by decide, by decide, by decide⟩,
    reclustered_table_sorted_rebuild example_env
      (example_world (some example_lineitem) (some example_orders)) "orders" "o_orderdate"
      example_orders 1 (by decide) (by decide) (by decide) (by decide) (by decide) (by decide)⟩

/-- Every chunk of the rebuilt table is finalized, carries the ordering descriptor and has fresh
    MVCC metadata for its rows, when the sorted table satisfies the table invariant. -/
theorem rebuild_table_chunks {env : Collaborators} {table immutable_sorted_table new_table : Table}
    {sort_column_id : ColumnID}
    (h : rebuild_table env table immutable_sorted_table sort_column_id = some new_table)
    (hwf : immutable_sorted_table.well_formed) :
    ∀ c ∈ new_table.chunks, c.is_mutable = false ∧
      c.ordered_by = some (sort_column_id, OrderByMode.Ascending) ∧
      c.mvcc_data = some (MvccData.create c.size 0) := by
  obtain ⟨_, _, _, _, hchunks, _⟩ := rebuild_table_spec h
  intro c hc
  have hmem : ({ c with pruning_statistics := none } : Chunk) ∈
      new_table.chunks.map (fun c => ({ c with pruning_statistics := none } : Chunk)) :=
    List.mem_map.mpr ⟨c, hc, rfl⟩
  rw [hchunks] at hmem
  obtain ⟨c1, hc1, heq⟩ := List.mem_map.mp hmem
  have h1 := congrArg Chunk.is_mutable heq
  have h2 := congrArg Chunk.ordered_by heq
  have h3 := congrArg Chunk.mvcc_data heq
  have h4 := congrArg Chunk.segments heq
  simp only [rebuilt_chunk] at h1 h2 h3 h4
  have hseg : c.segments = c1.segments := by
    rw [← h4, ← hwf c1 hc1]
    exact List.take_length _
  refine ⟨h1.symm, h2.symm, ?_⟩
  rw [← h3, chunk_size_congr hseg]

/-- The invariant of the loop over the chunks: a table that has `chunk_id` chunks at the start of
    iteration `chunk_id` has one more at the start of the next one, so that after `remaining`
    more iterations it has `chunk_id + remaining` chunks. -/
theorem rebuild_chunks_invariant (immutable_sorted_table : Table) (column_count : Nat)
    (sort_column_id : ColumnID) :
    ∀ (remaining chunk_id : Nat) (table table1 : Table),
      rebuild_chunks immutable_sorted_table column_count sort_column_id remaining chunk_id table
        = some table1 →
      table.chunks.length = chunk_id →
      table1.chunks.length = chunk_id + remaining := by
  intro remaining
  induction remaining with
  | zero =>
    intro chunk_id table table1 h hlen
    simp only [rebuild_chunks, Option.some.injEq] at h
    rw [← h, hlen]; rfl
  | succ r ih =>
    intro chunk_id table table1 h hlen
    simp only [rebuild_chunks] at h
    cases hb : rebuild_chunk immutable_sorted_table column_count sort_column_id table chunk_id with
    | none => rw [hb] at h; simp at h
    | some table2 =>
      rw [hb] at h
      simp only at h
      obtain ⟨chunk, _, _, h2⟩ := rebuild_chunk_spec hb hlen
      have hlen2 : table2.chunks.length = chunk_id + 1 := by
        rw [h2]; simp [hlen]
      rw [ih (chunk_id + 1) table2 table1 h hlen2]
      omega

/-- C7. For a table of the policy that is in the store and whose entry completes in a pass
    (the `Sort` output satisfying the table invariant), every chunk of the table registered
    after the pass, at every chunk index below its chunk count, is finalized, carries the
    ordering descriptor (resolved sort column, `Ascending`) and has MVCC metadata whose size is
    the row count of the chunk and whose begin commit ids are all `0`. The loop over the chunks
    keeps the invariant that a table with `chunk_id` chunks at the start of iteration `chunk_id`
    has `chunk_id + remaining` chunks after `remaining` more iterations, which is why
    `get_chunk(chunk_id)` is the chunk just appended. -/
theorem reclustered_chunks_finalized_ordered (env : Collaborators) (w : World)
    (table_name column_name : String) (table : Table) (sort_column_id : ColumnID)
    (hpolicy : (table_name, column_name) ∈ sort_orders)
    (hguard : w._optimized = false)
    (htable : w.get_table table_name = some table)
    (hcolumn : table.column_id_by_name column_name = some sort_column_id)
    (hwf : (env.sort table sort_column_id OrderByMode.Ascending env.DEFAULT_SIZE).well_formed)
    (hdone : (_optimize_clustering env w).completes table_name) :
    ∃ new_table, (_optimize_clustering env w).world.get_table table_name = some new_table ∧
      (∀ chunk_id, chunk_id < new_table.chunk_count →
        ∃ c, new_table.get_chunk chunk_id = some c ∧
          c.is_mutable = false ∧
          c.ordered_by = some (sort_column_id, OrderByMode.Ascending) ∧
          ∃ mvcc, c.mvcc_data = some mvcc ∧ mvcc.size = c.size ∧ ∀ b ∈ mvcc.begin_cids, b = 0) ∧
      (∀ (remaining chunk_id : Nat) (t t1 : Table),
        rebuild_chunks (env.sort table sort_column_id OrderByMode.Ascending env.DEFAULT_SIZE)
          (env.sort table sort_column_id OrderByMode.Ascending env.DEFAULT_SIZE).column_count
          sort_column_id remaining chunk_id t = some t1 →
        t.chunk_count = chunk_id → t1.chunk_count = chunk_id + remaining) := by
  obtain ⟨cid, new_table, hc, _, hr, hfinal⟩ :=
    optimize_clustering_completes hpolicy hguard htable hdone
  rw [hcolumn] at hc
  have hcid : sort_column_id = cid := Option.some.inj hc
  subst hcid
  refine ⟨new_table, hfinal, ?_, ?_⟩
  · intro chunk_id hlt
    have hlt2 : chunk_id < new_table.chunks.length := hlt
    refine ⟨new_table.chunks.get ⟨chunk_id, hlt2⟩, ?_, ?_⟩
    · simp [Table.get_chunk, List.get?_eq_get hlt2]
    · obtain ⟨h1, h2, h3⟩ := rebuild_table_chunks hr hwf _ (List.get_mem _ chunk_id hlt2)
      refine ⟨h1, h2, _, h3, ?_, ?_⟩
      · simp [MvccData.size, MvccData.create]
      · intro b hb
        simp only [MvccData.create] at hb
        exact List.eq_of_mem_replicate hb
  · intro remaining chunk_id t t1 h hlen
    exact rebuild_chunks_invariant _ _ _ remaining chunk_id t t1 h hlen

/-- The example world with both tables: the hypotheses of C7 hold for `"lineitem"`, and the
    chunks of the rebuilt table have the stated properties. -/
theorem reclustered_chunks_finalized_ordered_example :
    (("lineitem", "l_shipdate") ∈ sort_orders ∧
      (example_world (some example_lineitem) (some example_orders))._optimized = false ∧
      (example_world (some example_lineitem) (some example_orders)).get_table "lineitem"
        = some example_lineitem ∧
      example_lineitem.column_id_by_name "l_shipdate" = some 1 ∧
      (example_env.sort example_lineitem 1 OrderByMode.Ascending
        example_env.DEFAULT_SIZE).well_formed ∧
      (_optimize_clustering example_env
        (example_world (some example_lineitem) (some example_orders))).completes "lineitem") ∧
    ∃ new_table, (_optimize_clustering example_env
        (example_world (some example_lineitem) (some example_orders))).world.get_table "lineitem"
          = some new_table ∧
      (∀ chunk_id, chunk_id < new_table.chunk_count →
        ∃ c, new_table.get_chunk chunk_id = some c ∧
          c.is_mutable = false ∧
          c.ordered_by = some (1, OrderByMode.Ascending) ∧
          ∃ mvcc, c.mvcc_data = some mvcc ∧ mvcc.size = c.size ∧ ∀ b ∈ mvcc.begin_cids, b = 0) ∧
      (∀ (remaining chunk_id : Nat) (t t1 : Table),
        rebuild_chunks (example_env.sort example_lineitem 1 OrderByMode.Ascending
            example_env.DEFAULT_SIZE)
          (example_env.sort example_lineitem 1 OrderByMode.Ascending
            example_env.DEFAULT_SIZE).column_count
          1 remaining chunk_id t = some t1 →
        t.chunk_count = chunk_id → t1.chunk_count = chunk_id + remaining) :=
  ⟨⟨by decide, by decide, by decide, by decide, by decide, by decide⟩,
    reclustered_chunks_finalized_ordered example_env
      (example_world (some example_lineitem) (some example_orders)) "lineitem" "l_shipdate"
      example_lineitem 1 (by decide) (by decide) (by decide) (by decide) (by decide) (by decide)⟩

/-- When the table that the loop reaches first is absent, the pass logs the message and returns:
    nothing else happens, whatever the store holds for the later entry. -/
theorem absent_first_table_ends_pass (env : Collaborators) (w : World)
    (hguard : w._optimized = false) (habsent : w.get_table "lineitem" = none) :
    (_optimize_clustering env w).effects
      = [Effect.add_message description (no_optimization_message "lineitem")] ∧
    (_optimize_clustering env w).world.storage_manager = w.storage_manager ∧
    (_optimize_clustering env w).outcome = PassOutcome.returned ∧
    ¬ (_optimize_clustering env w).completes "orders" := by
  have hloop : _optimize_clustering env w
      = { world := ({ w with _optimized := true } : World).add_message description
            (no_optimization_message "lineitem")
          effects := [Effect.add_message description (no_optimization_message "lineitem")]
          outcome := PassOutcome.returned } := by
    simp only [World.get_table] at habsent
    simp [_optimize_clustering, hguard, sort_orders, optimize_loop, process_entry,
      World.get_table, habsent]
  rw [hloop]
  refine ⟨rfl, rfl, rfl, ?_⟩
  rintro ⟨e, he, hr⟩
  simp only [List.mem_singleton] at he
  subst he
  simp [Effect.replaces] at hr

/-- C5, evaluated on a store in which `"lineitem"`, the table the loop reaches first, is absent
    and `"orders"`, the table it would reach next, is present and could be reclustered (its
    entry completes when the loop body is run for it): the pass records the message for
    `"lineitem"` and returns; `"orders"` is not replaced and stays bound to the original,
    unsorted table. -/
theorem absent_first_table_skips_later_entry :
    sort_orders.map Prod.fst = ["lineitem", "orders"] ∧
    (example_world none (some example_orders)).get_table "lineitem" = none ∧
    (example_world none (some example_orders)).get_table "orders" = some example_orders ∧
    (process_entry example_env (example_world none (some example_orders))
      "orders" "o_orderdate").outcome = EntryOutcome.next ∧
    (_optimize_clustering example_env (example_world none (some example_orders))).effects
      = [Effect.add_message "ClusteringPlugin"
          "No optimization possible with given parameters for lineitem table!"] ∧
    (_optimize_clustering example_env (example_world none (some example_orders))).world.log_manager
      = [("ClusteringPlugin",
          "No optimization possible with given parameters for lineitem table!")] ∧
    (_optimize_clustering example_env (example_world none (some example_orders))).outcome
      = PassOutcome.returned ∧
    ¬ (_optimize_clustering example_env
        (example_world none (some example_orders))).completes "orders" ∧
    (_optimize_clustering example_env
      (example_world none (some example_orders))).world.get_table "orders"
        = some example_orders := by
  decide

/-- C8. If the entry of a policy table that is in the store fails fatally (its sort column
    does not resolve in the schema of the table, or the sorted table has another chunk count
    than the table), then there is no swap for the entry: after the pass the store still binds
    the name to the original table, no `replace_table` call for it is among the effects of the
    pass, and the loop body run for the entry, in any world that binds the name to that table,
    ends fatally without any effect and leaves the world, caches included, as it was. -/
theorem fatal_entry_no_swap (env : Collaborators) (w : World)
    (table_name column_name : String) (table : Table)
    (hpolicy : (table_name, column_name) ∈ sort_orders)
    (hguard : w._optimized = false)
    (htable : w.get_table table_name = some table)
    (hfatal : table.column_id_by_name column_name = none ∨
      ∃ sort_column_id, table.column_id_by_name column_name = some sort_column_id ∧
        (env.sort table sort_column_id OrderByMode.Ascending env.DEFAULT_SIZE).chunk_count
          ≠ table.chunk_count) :
    (_optimize_clustering env w).world.get_table table_name = some table ∧
    ¬ (_optimize_clustering env w).completes table_name ∧
    ∀ w0 : World, w0.get_table table_name = some table →
      (process_entry env w0 table_name column_name).world = w0 ∧
      (process_entry env w0 table_name column_name).effects = [] ∧
      ∃ message, (process_entry env w0 table_name column_name).outcome
        = EntryOutcome.fatal message := by
  have hnot : ¬ (_optimize_clustering env w).completes table_name := by
    intro hdone
    obtain ⟨cid, _, hc, hcount, _, _⟩ :=
      optimize_clustering_completes hpolicy hguard htable hdone
    rcases hfatal with h | ⟨cid2, h2, hne⟩
    · rw [h] at hc; cases hc
    · rw [h2] at hc
      have : cid2 = cid := Option.some.inj hc
      subst this
      exact hne hcount
  refine ⟨?_, hnot, ?_⟩
  · have hnone : ∀ t, Effect.replace_table table_name t ∉ (_optimize_clustering env w).effects :=
      fun t ht => hnot (completes_iff.mpr ⟨t, ht⟩)
    rw [optimize_clustering_unset env hguard] at hnone ⊢
    simp only [World.get_table]
    rw [optimize_loop_storage_unchanged env sort_orders _ table_name hnone]
    exact htable
  · intro w0 h0
    simp only [World.get_table] at h0
    rcases process_entry_cases env w0 table_name column_name with ⟨hn, _⟩ |
      ⟨_, _, _, hw, he, ho⟩ | ⟨t, cid, _, ht, hc, hcount, _⟩
    · rw [h0] at hn; cases hn
    · exact ⟨hw, he, ho⟩
    · rw [h0] at ht
      have : table = t := Option.some.inj ht
      subst this
      rcases hfatal with h | ⟨cid2, h2, hne⟩
      · rw [h] at hc; cases hc
      · rw [h2] at hc
        have : cid2 = cid := Option.some.inj hc
        subst this
        exact absurd hcount hne

/-- The example world with an `orders` table that has no column `o_orderdate`: the hypotheses of
    C8 hold for `"orders"`, and the original table stays registered. -/
theorem fatal_entry_no_swap_example :
    (("orders", "o_orderdate") ∈ sort_orders ∧
      (example_world (some example_lineitem) (some example_orders_other_schema))._optimized
        = false ∧
      (example_world (some example_lineitem) (some example_orders_other_schema)).get_table
        "orders" = some example_orders_other_schema ∧
      example_orders_other_schema.column_id_by_name "o_orderdate" = none) ∧
    ((_optimize_clustering example_env
        (example_world (some example_lineitem) (some example_orders_other_schema))).world.get_table
        "orders" = some example_orders_other_schema ∧
      ¬ (_optimize_clustering example_env
        (example_world (some example_lineitem) (some example_orders_other_schema))).completes
        "orders" ∧
      ∀ w0 : World, w0.get_table "orders" = some example_orders_other_schema →
        (process_entry example_env w0 "orders" "o_orderdate").world = w0 ∧
        (process_entry example_env w0 "orders" "o_orderdate").effects = [] ∧
        ∃ message, (process_entry example_env w0 "orders" "o_orderdate").outcome
          = EntryOutcome.fatal message) :=
  ⟨⟨by decide, by decide, by decide, by decide⟩,
    fatal_entry_no_swap example_env
      (example_world (some example_lineitem) (some example_orders_other_schema))
      "orders" "o_orderdate" example_orders_other_schema
      (by decide) (by decide) (by decide) (Or.inl (by decide))⟩

theorem process_entry_optimized (env : Collaborators) (w : World)
    (table_name column_name : String) :
    (process_entry env w table_name column_name).world._optimized = w._optimized := by
  rcases process_entry_cases env w table_name column_name with ⟨_, hw, _, _⟩ |
    ⟨_, _, _, hw, _, _⟩ | ⟨_, _, new_table, _, _, _, _, hw, _, _⟩
  · rw [hw]; rfl
  · rw [hw]
  · rw [hw, (swap_world_fields w table_name new_table _ _).2.2.2.2]

theorem optimize_loop_optimized (env : Collaborators) :
    ∀ (entries : List (String × String)) (w : World),
      (optimize_loop env entries w).world._optimized = w._optimized := by
  intro entries
  induction entries with
  | nil => intro w; rfl
  | cons e rest ih =>
    obtain ⟨n1, c1⟩ := e
    intro w
    have hflag := process_entry_optimized env w n1 c1
    cases ho : (process_entry env w n1 c1).outcome with
    | next => rw [optimize_loop_cons_next rest ho]; simp only; rw [ih, hflag]
    | returned => rw [optimize_loop_cons_returned rest ho]; exact hflag
    | fatal m => rw [optimize_loop_cons_fatal rest ho]; exact hflag

/-- After a call of `_optimize_clustering` the guard is set, however the call ended. -/
theorem optimize_clustering_sets_guard (env : Collaborators) (w : World) :
    (_optimize_clustering env w).world._optimized = true := by
  cases hg : w._optimized with
  | true => simp [_optimize_clustering, hg]
  | false => rw [optimize_clustering_unset env hg, optimize_loop_optimized]

/-- A call of `_optimize_clustering` with the guard set does nothing. -/
theorem optimize_clustering_guarded (env : Collaborators) (w : World) (hg : w._optimized = true) :
    _optimize_clustering env w = { world := w, effects := [], outcome := PassOutcome.returned } := by
  simp [_optimize_clustering, hg]

theorem rewrites_swap_effects (w : World) (n1 name : String) (new_table : Table)
    (source message : String) :
    rewrites ([Effect.replace_table n1 new_table] ++ cache_effects w ++
      [Effect.add_message source message]) name = if n1 = name then 1 else 0 := by
  unfold rewrites cache_effects
  cases w.default_lqp_cache <;> cases w.default_pqp_cache <;>
    by_cases h : n1 = name <;> simp [Effect.replaces, List.countP_cons, h]

theorem rewrites_eq_zero {effects : List Effect} {name : String}
    (h : ∀ table, Effect.replace_table name table ∉ effects) : rewrites effects name = 0 := by
  unfold rewrites
  rw [List.countP_eq_zero]
  intro e he hr
  cases e with
  | replace_table n t =>
    simp only [Effect.replaces, decide_eq_true_eq] at hr
    subst hr
    exact h t he
  | add_message a b => simp [Effect.replaces] at hr
  | clear_lqp_cache => simp [Effect.replaces] at hr
  | clear_pqp_cache => simp [Effect.replaces] at hr

/-- A pass over a policy without repeated table names replaces each table at most once. -/
theorem optimize_loop_rewrites_le_one (env : Collaborators) :
    ∀ (entries : List (String × String)) (w : World) (name : String),
      (entries.map Prod.fst).Nodup →
      rewrites (optimize_loop env entries w).effects name ≤ 1 := by
  intro entries
  induction entries with
  | nil => intro w name _; simp [optimize_loop_nil, rewrites]
  | cons e rest ih =>
    obtain ⟨n1, c1⟩ := e
    intro w name hnodup
    obtain ⟨hn1, hrest⟩ := List.nodup_cons.mp hnodup
    rcases process_entry_cases env w n1 c1 with ⟨_, _, he, ho⟩ | ⟨_, _, _, _, he, m, ho⟩ |
      ⟨_, _, new_table, _, _, _, _, hw, he, ho⟩
    · rw [optimize_loop_cons_returned rest ho, he]
      simp [rewrites, Effect.replaces]
    · rw [optimize_loop_cons_fatal rest ho, he]
      simp [rewrites]
    · rw [optimize_loop_cons_next rest ho, he]
      simp only
      have happ : ∀ a b : List Effect, rewrites (a ++ b) name = rewrites a name + rewrites b name := by
        intro a b; simp [rewrites, List.countP_append]
      rw [happ, rewrites_swap_effects]
      by_cases h : n1 = name
      · subst h
        have h0 : rewrites (optimize_loop env rest
            (process_entry env w n1 c1).world).effects n1 = 0 :=
          rewrites_eq_zero
            (fun table ht => hn1 (optimize_loop_replace_mem env rest _ n1 table ht))
        simp [h0]
      · have := ih (process_entry env w n1 c1).world name hrest
        simp [h, this]

/-- C9. One-shot guard: whatever the state, after one call of `_optimize_clustering` (also one
    that ended fatally) the guard is set, and every further call is a no-op: it returns with the
    world (table store, both caches, log, guard) as it was and has no effect. So the second of
    two calls in succession is such a no-op, any number of further calls leaves the world as the
    first call left it, and over two calls in succession each table is replaced at most once. -/
theorem optimize_clustering_one_shot (env : Collaborators) (w : World) :
    (_optimize_clustering env w).world._optimized = true ∧
    (∀ v : World, v._optimized = true →
      (_optimize_clustering env v).world = v ∧
      (_optimize_clustering env v).effects = [] ∧
      (_optimize_clustering env v).outcome = PassOutcome.returned) ∧
    (_optimize_clustering env (_optimize_clustering env w).world).world
      = (_optimize_clustering env w).world ∧
    (_optimize_clustering env (_optimize_clustering env w).world).effects = [] ∧
    (∀ n : Nat, (fun v => (_optimize_clustering env v).world)^[n]
      (_optimize_clustering env w).world = (_optimize_clustering env w).world) ∧
    ∀ table_name : String,
      rewrites ((_optimize_clustering env w).effects ++
        (_optimize_clustering env (_optimize_clustering env w).world).effects) table_name ≤ 1 := by
  have hset := optimize_clustering_sets_guard env w
  have hnoop : ∀ v : World, v._optimized = true →
      (_optimize_clustering env v).world = v ∧
      (_optimize_clustering env v).effects = [] ∧
      (_optimize_clustering env v).outcome = PassOutcome.returned := by
    intro v hv
    rw [optimize_clustering_guarded env v hv]
    exact ⟨rfl, rfl, rfl⟩
  refine ⟨hset, hnoop, (hnoop _ hset).1, (hnoop _ hset).2.1, ?_, ?_⟩
  · intro n
    induction n with
    | zero => rfl
    | succ k ih =>
      rw [Function.iterate_succ_apply, (hnoop _ hset).1]
      exact ih
  · intro table_name
    rw [(hnoop _ hset).2.1, List.append_nil]
    cases hg : w._optimized with
    | true => rw [optimize_clustering_guarded env w hg]; simp [rewrites]
    | false =>
      rw [optimize_clustering_unset env hg]
      exact optimize_loop_rewrites_le_one env sort_orders _ table_name sort_orders_nodup

theorem cleared_cleared (cache : Option Cache) : cleared (cleared cache) = cleared cache := by
  cases cache <;> rfl

theorem cache_effects_congr {w v : World}
    (hl : v.default_lqp_cache = w.default_lqp_cache ∨
      v.default_lqp_cache = cleared w.default_lqp_cache)
    (hp : v.default_pqp_cache = w.default_pqp_cache ∨
      v.default_pqp_cache = cleared w.default_pqp_cache) :
    cache_effects v = cache_effects w := by
  unfold cache_effects
  have h1 : v.default_lqp_cache.isSome = w.default_lqp_cache.isSome := by
    rcases hl with h | h <;> rw [h]
    cases w.default_lqp_cache <;> rfl
  have h2 : v.default_pqp_cache.isSome = w.default_pqp_cache.isSome := by
    rcases hp with h | h <;> rw [h]
    cases w.default_pqp_cache <;> rfl
  rw [h1, h2]

/-- The effects of the loop over the policy are the swaps of the entries that complete, one
    after the other, followed by at most a log message; the caches are as they were when there
    is no swap, and cleared (when present) when there is one. -/
theorem optimize_loop_swaps (env : Collaborators) :
    ∀ (entries : List (String × String)) (w : World),
      ∃ (swaps : List (String × String × Table)) (tail : List Effect),
        (optimize_loop env entries w).effects = swaps.flatMap (swap_effects w) ++ tail ∧
        (∀ e ∈ tail, ∃ message, e = Effect.add_message description message) ∧
        (swaps = [] →
          (optimize_loop env entries w).world.default_lqp_cache = w.default_lqp_cache ∧
          (optimize_loop env entries w).world.default_pqp_cache = w.default_pqp_cache) ∧
        (swaps ≠ [] →
          (optimize_loop env entries w).world.default_lqp_cache = cleared w.default_lqp_cache ∧
          (optimize_loop env entries w).world.default_pqp_cache
            = cleared w.default_pqp_cache) := by
  intro entries
  induction entries with
  | nil =>
    intro w
    exact ⟨[], [], rfl, by simp, fun _ => ⟨rfl, rfl⟩, fun h => absurd rfl h⟩
  | cons e rest ih =>
    obtain ⟨n1, c1⟩ := e
    intro w
    rcases process_entry_cases env w n1 c1 with ⟨_, hw, he, ho⟩ | ⟨_, _, _, hw, he, m, ho⟩ |
      ⟨_, _, new_table, _, _, _, _, hw, he, ho⟩
    · rw [optimize_loop_cons_returned rest ho, he, hw]
      refine ⟨[], _, rfl, ?_, fun _ => ⟨rfl, rfl⟩, fun h => absurd rfl h⟩
      intro e he
      exact ⟨_, List.mem_singleton.mp he⟩
    · rw [optimize_loop_cons_fatal rest ho, he, hw]
      exact ⟨[], [], rfl, by simp, fun _ => ⟨rfl, rfl⟩, fun h => absurd rfl h⟩
    · obtain ⟨hs, hl, hp, _, _⟩ := swap_world_fields w n1 new_table description
        (applied_message n1 c1)
      rw [← hw] at hl hp
      obtain ⟨swaps, tail, heff, htail, hnil, hcons⟩ := ih (process_entry env w n1 c1).world
      have hce : cache_effects (process_entry env w n1 c1).world = cache_effects w :=
        cache_effects_congr (Or.inr hl) (Or.inr hp)
      have hsw : swap_effects (process_entry env w n1 c1).world = swap_effects w := by
        funext x
        simp only [swap_effects, hce]
      rw [optimize_loop_cons_next rest ho, he, heff, hsw]
      refine ⟨(n1, c1, new_table) :: swaps, tail, ?_, htail,
        (fun h => absurd h (List.cons_ne_nil _ _)), fun _ => ?_⟩
      · simp [List.flatMap_cons, swap_effects]
      · simp only
        by_cases hsn : swaps = []
        · rw [(hnil hsn).1, (hnil hsn).2, hl, hp]
          exact ⟨rfl, rfl⟩
        · rw [(hcons hsn).1, (hcons hsn).2, hl, hp, cleared_cleared, cleared_cleared]
          exact ⟨rfl, rfl⟩

/-- C10. The effects of every pass are the swaps of the entries that complete, one after the
    other, followed by at most a log message; the effects of a swap are, in this order, the
    `replace_table` call, the clearing of the logical-plan cache if it is present, the clearing
    of the physical-plan cache if it is present (an absent cache is skipped and the entry goes
    on), and the log message. The loop body that ends with a swap leaves both caches cleared
    when present; a pass in which some table is swapped ends with both caches cleared when
    present, and a pass in which no table is swapped leaves both caches as they were. -/
theorem caches_cleared_after_swap (env : Collaborators) (w : World) :
    (∃ (swaps : List (String × String × Table)) (tail : List Effect),
      (_optimize_clustering env w).effects = swaps.flatMap (swap_effects w) ++ tail ∧
      (∀ e ∈ tail, e.clears = false ∧ ∀ n, e.replaces n = false)) ∧
    (∀ swap : String × String × Table, swap_effects w swap
      = [Effect.replace_table swap.1 swap.2.2] ++
        (if w.default_lqp_cache.isSome then [Effect.clear_lqp_cache] else []) ++
        (if w.default_pqp_cache.isSome then [Effect.clear_pqp_cache] else []) ++
        [Effect.add_message description (applied_message swap.1 swap.2.1)]) ∧
    (∀ (w0 : World) (table_name column_name : String),
      (process_entry env w0 table_name column_name).outcome = EntryOutcome.next →
      (∃ new_table, (process_entry env w0 table_name column_name).effects
        = swap_effects w0 (table_name, column_name, new_table)) ∧
      (process_entry env w0 table_name column_name).world.default_lqp_cache
        = cleared w0.default_lqp_cache ∧
      (process_entry env w0 table_name column_name).world.default_pqp_cache
        = cleared w0.default_pqp_cache) ∧
    ((∃ n, (_optimize_clustering env w).completes n) →
      (_optimize_clustering env w).world.default_lqp_cache = cleared w.default_lqp_cache ∧
      (_optimize_clustering env w).world.default_pqp_cache = cleared w.default_pqp_cache) ∧
    ((∀ n, ¬ (_optimize_clustering env w).completes n) →
      (_optimize_clustering env w).world.default_lqp_cache = w.default_lqp_cache ∧
      (_optimize_clustering env w).world.default_pqp_cache = w.default_pqp_cache) := by
  have hpass : ∃ (swaps : List (String × String × Table)) (tail : List Effect),
      (_optimize_clustering env w).effects = swaps.flatMap (swap_effects w) ++ tail ∧
      (∀ e ∈ tail, ∃ message, e = Effect.add_message description message) ∧
      (swaps = [] →
        (_optimize_clustering env w).world.default_lqp_cache = w.default_lqp_cache ∧
        (_optimize_clustering env w).world.default_pqp_cache = w.default_pqp_cache) ∧
      (swaps ≠ [] →
        (_optimize_clustering env w).world.default_lqp_cache = cleared w.default_lqp_cache ∧
        (_optimize_clustering env w).world.default_pqp_cache = cleared w.default_pqp_cache) := by
    cases hg : w._optimized with
    | true =>
      rw [optimize_clustering_guarded env w hg]
      exact ⟨[], [], rfl, by simp, fun _ => ⟨rfl, rfl⟩, fun h => absurd rfl h⟩
    | false =>
      rw [optimize_clustering_unset env hg]
      exact optimize_loop_swaps env sort_orders { w with _optimized := true }
  obtain ⟨swaps, tail, heff, htail, hnil, hcons⟩ := hpass
  have htail2 : ∀ e ∈ tail, e.clears = false ∧ ∀ n, e.replaces n = false := by
    intro e he
    obtain ⟨m, rfl⟩ := htail e he
    exact ⟨rfl, fun _ => rfl⟩
  have hiff : (∃ n, (_optimize_clustering env w).completes n) ↔ swaps ≠ [] := by
    constructor
    · rintro ⟨n, e, he, hr⟩ hs
      rw [heff, hs] at he
      simp only [List.flatMap_nil, List.nil_append] at he
      rw [(htail2 e he).2 n] at hr
      cases hr
    · intro hs
      cases swaps with
      | nil => exact absurd rfl hs
      | cons s rest =>
        refine ⟨s.1, Effect.replace_table s.1 s.2.2, ?_, by simp [Effect.replaces]⟩
        rw [heff]
        simp [List.flatMap_cons, swap_effects]
  refine ⟨⟨swaps, tail, heff, htail2⟩, fun _ => rfl, ?_, fun h => hcons (hiff.mp h), ?_⟩
  · intro w0 table_name column_name ho
    rcases process_entry_cases env w0 table_name column_name with ⟨_, _, _, ho2⟩ |
      ⟨_, _, _, _, _, m, ho2⟩ | ⟨_, _, new_table, _, _, _, _, hw, he, _⟩
    · rw [ho2] at ho; cases ho
    · rw [ho2] at ho; cases ho
    · obtain ⟨_, hl, hp, _, _⟩ := swap_world_fields w0 table_name new_table description
        (applied_message table_name column_name)
      rw [hw]
      exact ⟨⟨new_table, he⟩, hl, hp⟩
  · intro h
    apply hnil
    by_contra hs
    obtain ⟨n, hn⟩ := hiff.mpr hs
    exact h n hn

/-- C11, evaluated on the example world: the original `orders` table has no MVCC, its entry
    completes, and the table registered after the pass has MVCC, not the mode of the original. -/
theorem replacement_mvcc_not_inherited :
    example_orders.use_mvcc = UseMvcc.No ∧
    (_optimize_clustering example_env
      (example_world (some example_lineitem) (some example_orders))).completes "orders" ∧
    ((_optimize_clustering example_env
      (example_world (some example_lineitem) (some example_orders))).world.get_table
        "orders").map Table.use_mvcc = some UseMvcc.Yes := by
  decide

/-- C11 as amended. For a table of the policy that is in the store and whose entry completes in
    a pass, the table registered after the pass has the column definitions of the sorted table
    (those of the original when the `Sort` operator keeps the schema), the target chunk size of
    the original, the kind `Data` and MVCC switched on, whatever the kind and the MVCC mode of
    the original. -/
theorem replacement_table_parameters (env : Collaborators) (w : World)
    (table_name column_name : String) (table : Table)
    (hpolicy : (table_name, column_name) ∈ sort_orders)
    (hguard : w._optimized = false)
    (htable : w.get_table table_name = some table)
    (hdone : (_optimize_clustering env w).completes table_name) :
    ∃ sort_column_id new_table,
      table.column_id_by_name column_name = some sort_column_id ∧
      (_optimize_clustering env w).world.get_table table_name = some new_table ∧
      new_table.column_definitions
        = (env.sort table sort_column_id OrderByMode.Ascending
            env.DEFAULT_SIZE).column_definitions ∧
      ((env.sort table sort_column_id OrderByMode.Ascending env.DEFAULT_SIZE).column_definitions
          = table.column_definitions →
        new_table.column_definitions = table.column_definitions) ∧
      new_table.target_chunk_size = table.target_chunk_size ∧
      new_table.type = TableType.Data ∧
      new_table.use_mvcc = UseMvcc.Yes := by
  obtain ⟨cid, new_table, hc, _, hr, hfinal⟩ :=
    optimize_clustering_completes hpolicy hguard htable hdone
  obtain ⟨h1, h2, h3, h4, _, _⟩ := rebuild_table_spec hr
  exact ⟨cid, new_table, hc, hfinal, h1, fun h => h1.trans h, h3, h2, h4⟩

/-- The example world with both tables: the hypotheses of the amended C11 hold for `"orders"`. -/
theorem replacement_table_parameters_example :
    (("orders", "o_orderdate") ∈ sort_orders ∧
      (example_world (some example_lineitem) (some example_orders))._optimized = false ∧
      (example_world (some example_lineitem) (some example_orders)).get_table "orders"
        = some example_orders ∧
      (_optimize_clustering example_env
        (example_world (some example_lineitem) (some example_orders))).completes "orders") ∧
    ∃ sort_column_id new_table,
      example_orders.column_id_by_name "o_orderdate" = some sort_column_id ∧
      (_optimize_clustering example_env
        (example_world (some example_lineitem) (some example_orders))).world.get_table "orders"
          = some new_table ∧
      new_table.column_definitions
        = (example_env.sort example_orders sort_column_id OrderByMode.Ascending
            example_env.DEFAULT_SIZE).column_definitions ∧
      ((example_env.sort example_orders sort_column_id OrderByMode.Ascending
          example_env.DEFAULT_SIZE).column_definitions = example_orders.column_definitions →
        new_table.column_definitions = example_orders.column_definitions) ∧
      new_table.target_chunk_size = example_orders.target_chunk_size ∧
      new_table.type = TableType.Data ∧
      new_table.use_mvcc = UseMvcc.Yes :=
  ⟨⟨by decide, by decide, by decide, by decide⟩,
    replacement_table_parameters example_env
      (example_world (some example_lineitem) (some example_orders)) "orders" "o_orderdate"
      example_orders (by decide) (by decide) (by decide) (by decide)⟩

/-- C13, evaluated on the example world with an `orders` table that has no column
    `o_orderdate`: the first call ends fatally, and the next call does nothing: it has no
    effect, returns, and leaves `"orders"` as it was. -/
theorem fatal_pass_not_retried_example :
    (_optimize_clustering example_env
      (example_world (some example_lineitem) (some example_orders_other_schema))).outcome
      = PassOutcome.fatal "Couldn't find column" ∧
    (_optimize_clustering example_env
      (_optimize_clustering example_env
        (example_world (some example_lineitem) (some example_orders_other_schema))).world).effects
      = [] ∧
    (_optimize_clustering example_env
      (_optimize_clustering example_env
        (example_world (some example_lineitem) (some example_orders_other_schema))).world).outcome
      = PassOutcome.returned ∧
    ¬ (_optimize_clustering example_env
      (_optimize_clustering example_env
        (example_world (some example_lineitem)
          (some example_orders_other_schema))).world).completes "orders" := by
  decide

/-- C13 as amended. If a pass is aborted by a fatal condition, the guard is set all the same,
    and the next call does not retry: it returns at once, without effect and with the world
    as the aborted pass left it, also when the table store has been changed in between. -/
theorem fatal_pass_not_retried (env : Collaborators) (w : World) (message : String)
    (hfatal : (_optimize_clustering env w).outcome = PassOutcome.fatal message) :
    w._optimized = false ∧
    (_optimize_clustering env w).world._optimized = true ∧
    (_optimize_clustering env (_optimize_clustering env w).world).world
      = (_optimize_clustering env w).world ∧
    (_optimize_clustering env (_optimize_clustering env w).world).effects = [] ∧
    (_optimize_clustering env (_optimize_clustering env w).world).outcome
      = PassOutcome.returned ∧
    ∀ store : String → Option Table,
      (_optimize_clustering env
        { (_optimize_clustering env w).world with storage_manager := store }).effects = [] ∧
      (_optimize_clustering env
        { (_optimize_clustering env w).world with storage_manager := store }).world.storage_manager
        = store := by
  have hset := optimize_clustering_sets_guard env w
  have hunset : w._optimized = false := by
    cases hg : w._optimized with
    | false => rfl
    | true =>
      rw [optimize_clustering_guarded env w hg] at hfatal
      cases hfatal
  refine ⟨hunset, hset, ?_, ?_, ?_, ?_⟩
  · rw [optimize_clustering_guarded env _ hset]
  · rw [optimize_clustering_guarded env _ hset]
  · rw [optimize_clustering_guarded env _ hset]
  · intro store
    have h : ({ (_optimize_clustering env w).world with storage_manager := store } : World)._optimized
        = true := hset
    rw [optimize_clustering_guarded env _ h]
    exact ⟨rfl, rfl⟩

/-- The example world with an `orders` table that has no column `o_orderdate`: the hypothesis of
    the amended C13 holds, and the next call does nothing. -/
theorem fatal_pass_not_retried_witness :
    (_optimize_clustering example_env
      (example_world (some example_lineitem) (some example_orders_other_schema))).outcome
      = PassOutcome.fatal "Couldn't find column" ∧
    (_optimize_clustering example_env
      (_optimize_clustering example_env
        (example_world (some example_lineitem) (some example_orders_other_schema))).world).effects
      = [] :=
  ⟨by decide,
    (fatal_pass_not_retried example_env
      (example_world (some example_lineitem) (some example_orders_other_schema))
      "Couldn't find column" (by decide)).2.2.2.1⟩

/-- The chunk size that the loop body hands to the `Sort` operator is `Chunk::DEFAULT_SIZE`: what
    the operator would return for any other chunk size has no influence on the body. -/
theorem process_entry_sort_chunk_size (env : Collaborators)
    (other : Table → ColumnID → OrderByMode → Nat → Table) (w : World)
    (table_name column_name : String) :
    process_entry
      { env with sort := fun t c m size =>
          if size = env.DEFAULT_SIZE then env.sort t c m size else other t c m size }
      w table_name column_name
    = process_entry env w table_name column_name := by
  simp [process_entry, rebuild_table, generate_chunk_pruning_statistics]

/-- C18, evaluated with `Chunk::DEFAULT_SIZE = 100000` on a `lineitem` table with target chunk
    size 2 that is fully packed (two chunks of two rows): sorted with the target chunk size of
    the table the output would have the two chunks of the table, but the body sorts with
    `Chunk::DEFAULT_SIZE`, the output has one chunk, the chunk-count check fails, the pass ends
    fatally and the table is not reclustered. -/
theorem sort_uses_default_chunk_size :
    (∀ c ∈ example_lineitem_packed.chunks, c.size = example_lineitem_packed.target_chunk_size) ∧
    (example_env_default.sort example_lineitem_packed 1 OrderByMode.Ascending
      example_lineitem_packed.target_chunk_size).chunk_count
      = example_lineitem_packed.chunk_count ∧
    example_env_default.DEFAULT_SIZE ≠ example_lineitem_packed.target_chunk_size ∧
    (example_env_default.sort example_lineitem_packed 1 OrderByMode.Ascending
      example_env_default.DEFAULT_SIZE).chunk_count = 1 ∧
    example_lineitem_packed.chunk_count = 2 ∧
    (_optimize_clustering example_env_default
      (example_world (some example_lineitem_packed) none)).outcome
      = PassOutcome.fatal "Mismatching chunk_count" ∧
    (_optimize_clustering example_env_default
      (example_world (some example_lineitem_packed) none)).effects = [] ∧
    (_optimize_clustering example_env_default
      (example_world (some example_lineitem_packed) none)).world.get_table "lineitem"
      = some example_lineitem_packed := by
  decide

/-- The effects that the loop body can have for an entry. -/
theorem process_entry_effects_kind (env : Collaborators) (w : World)
    (table_name column_name : String) :
    ∀ e ∈ (process_entry env w table_name column_name).effects,
      e = Effect.add_message description (no_optimization_message table_name) ∨
      (∃ t, e = Effect.replace_table table_name t) ∨
      e = Effect.clear_lqp_cache ∨ e = Effect.clear_pqp_cache ∨
      e = Effect.add_message description (applied_message table_name column_name) := by
  intro e he
  rcases process_entry_cases env w table_name column_name with ⟨_, _, heff, _⟩ |
    ⟨_, _, _, _, heff, _⟩ | ⟨_, _, new_table, _, _, _, _, _, heff, _⟩
  · rw [heff] at he
    exact Or.inl (List.mem_singleton.mp he)
  · rw [heff] at he
    simp at he
  · rw [heff] at he
    simp only [cache_effects, List.mem_append, List.mem_singleton] at he
    rcases he with (he | he | he) | he
    · exact Or.inr (Or.inl ⟨new_table, he⟩)
    · split at he
      · exact Or.inr (Or.inr (Or.inl (List.mem_singleton.mp he)))
      · simp at he
    · split at he
      · exact Or.inr (Or.inr (Or.inr (Or.inl (List.mem_singleton.mp he))))
      · simp at he
    · exact Or.inr (Or.inr (Or.inr (Or.inr he)))

/-- C19, evaluated on the example world with both tables: the initializer list names
    `"orders"` first, but the pass replaces `"lineitem"` first and `"orders"` second, and the
    log message for `"lineitem"` comes before the one for `"orders"`. -/
theorem lineitem_processed_before_orders :
    sort_orders_initializer.map Prod.fst = ["orders", "lineitem"] ∧
    (_optimize_clustering example_env
      (example_world (some example_lineitem) (some example_orders))).effects.filterMap
        Effect.replaced_name = ["lineitem", "orders"] ∧
    (_optimize_clustering example_env
      (example_world (some example_lineitem) (some example_orders))).world.log_manager
      = [("ClusteringPlugin", "Applied new clustering configuration (l_shipdate) to lineitem table."),
         ("ClusteringPlugin", "Applied new clustering configuration (o_orderdate) to orders table.")] := by
  decide

/-- C19 as amended. In a pass the entries are processed one after the other in the order of
    the keys of the `std::map`: the effects of the pass are the effects of the loop body for
    `"lineitem"` (by `"l_shipdate"`), followed by nothing when that body did not reach its end,
    and else by the effects of the loop body for `"orders"` (by `"o_orderdate"`), run in the
    world that the first body left. No effect of the first part is a `replace_table` of
    `"orders"` or its log message, none of the second part is a `replace_table` of `"lineitem"`
    or one of its log messages: the log message for `"lineitem"` comes before the one for
    `"orders"`. -/
theorem entries_processed_in_key_order (env : Collaborators) (w : World)
    (hguard : w._optimized = false) :
    ∃ first second : List Effect,
      (_optimize_clustering env w).effects = first ++ second ∧
      first = (process_entry env { w with _optimized := true } "lineitem" "l_shipdate").effects ∧
      (((process_entry env { w with _optimized := true } "lineitem" "l_shipdate").outcome
          ≠ EntryOutcome.next ∧ second = []) ∨
        ((process_entry env { w with _optimized := true } "lineitem" "l_shipdate").outcome
          = EntryOutcome.next ∧
          second = (process_entry env
            (process_entry env { w with _optimized := true } "lineitem" "l_shipdate").world
            "orders" "o_orderdate").effects)) ∧
      (∀ e ∈ first, e.replaces "orders" = false ∧
        e ≠ Effect.add_message description (applied_message "orders" "o_orderdate")) ∧
      (∀ e ∈ second, e.replaces "lineitem" = false ∧
        e ≠ Effect.add_message description (applied_message "lineitem" "l_shipdate") ∧
        e ≠ Effect.add_message description (no_optimization_message "lineitem")) := by
  have hfirst : ∀ w1 : World, ∀ e ∈ (process_entry env w1 "lineitem" "l_shipdate").effects,
      e.replaces "orders" = false ∧
        e ≠ Effect.add_message description (applied_message "orders" "o_orderdate") := by
    intro w1 e he
    rcases process_entry_effects_kind env w1 _ _ e he with h | ⟨t, h⟩ | h | h | h <;>
      subst h <;>
      first
        | exact ⟨by decide, by decide⟩
        | exact ⟨by simp [Effect.replaces], (by intro h; cases h)⟩
  have hsecond : ∀ w1 : World, ∀ e ∈ (process_entry env w1 "orders" "o_orderdate").effects,
      e.replaces "lineitem" = false ∧
        e ≠ Effect.add_message description (applied_message "lineitem" "l_shipdate") ∧
        e ≠ Effect.add_message description (no_optimization_message "lineitem") := by
    intro w1 e he
    rcases process_entry_effects_kind env w1 _ _ e he with h | ⟨t, h⟩ | h | h | h <;>
      subst h <;>
      first
        | exact ⟨by decide, by decide, by decide⟩
        | exact ⟨by simp [Effect.replaces], (by intro h; cases h), (by intro h; cases h)⟩
  rw [optimize_clustering_unset env hguard]
  cases ho : (process_entry env { w with _optimized := true } "lineitem" "l_shipdate").outcome with
  | next =>
    refine ⟨_, (process_entry env
        (process_entry env { w with _optimized := true } "lineitem" "l_shipdate").world
        "orders" "o_orderdate").effects, ?_, rfl, Or.inr ⟨rfl, rfl⟩, hfirst _, hsecond _⟩
    simp only [sort_orders]
    rw [optimize_loop_cons_next _ ho]
    simp only
    congr 1
    cases ho2 : (process_entry env
        (process_entry env { w with _optimized := true } "lineitem" "l_shipdate").world
        "orders" "o_orderdate").outcome with
    | next => rw [optimize_loop_cons_next _ ho2]; simp [optimize_loop_nil]
    | returned => rw [optimize_loop_cons_returned _ ho2]
    | fatal m => rw [optimize_loop_cons_fatal _ ho2]
  | returned =>
    refine ⟨_, [], ?_, rfl, Or.inl ⟨by simp, rfl⟩, hfirst _, by simp⟩
    simp only [sort_orders]
    rw [optimize_loop_cons_returned _ ho]
    simp
  | fatal m =>
    refine ⟨_, [], ?_, rfl, Or.inl ⟨by simp, rfl⟩, hfirst _, by simp⟩
    simp only [sort_orders]
    rw [optimize_loop_cons_fatal _ ho]
    simp

/-- The example world with both tables: the hypothesis of the amended C19 holds. -/
theorem entries_processed_in_key_order_example :
    (example_world (some example_lineitem) (some example_orders))._optimized = false ∧
    ∃ first second : List Effect,
      (_optimize_clustering example_env
        (example_world (some example_lineitem) (some example_orders))).effects
        = first ++ second ∧
      first = (process_entry example_env
        { example_world (some example_lineitem) (some example_orders) with _optimized := true }
        "lineitem" "l_shipdate").effects ∧
      (((process_entry example_env
          { example_world (some example_lineitem) (some example_orders) with _optimized := true }
          "lineitem" "l_shipdate").outcome ≠ EntryOutcome.next ∧ second = []) ∨
        ((process_entry example_env
          { example_world (some example_lineitem) (some example_orders) with _optimized := true }
          "lineitem" "l_shipdate").outcome = EntryOutcome.next ∧
          second = (process_entry example_env
            (process_entry example_env
              { example_world (some example_lineitem) (some example_orders) with
                _optimized := true }
              "lineitem" "l_shipdate").world
            "orders" "o_orderdate").effects)) ∧
      (∀ e ∈ first, e.replaces "orders" = false ∧
        e ≠ Effect.add_message description (applied_message "orders" "o_orderdate")) ∧
      (∀ e ∈ second, e.replaces "lineitem" = false ∧
        e ≠ Effect.add_message description (applied_message "lineitem" "l_shipdate") ∧
        e ≠ Effect.add_message description (no_optimization_message "lineitem")) :=
  ⟨rfl, entries_processed_in_key_order example_env
    (example_world (some example_lineitem) (some example_orders)) rfl⟩

/-- What a pass does to the binding of a name: it leaves it as it was, or the name is one of
    the policy, was bound before, and is bound by a `replace_table` call of the pass to the
    table rebuilt from the table it was bound to. -/
theorem optimize_clustering_binding (env : Collaborators) (w : World) (name : String) :
    ((∀ t, Effect.replace_table name t ∉ (_optimize_clustering env w).effects) ∧
      (_optimize_clustering env w).world.get_table name = w.get_table name) ∨
    ∃ table sort_column_id new_table, name ∈ sort_orders.map Prod.fst ∧
      w.get_table name = some table ∧
      Effect.replace_table name new_table ∈ (_optimize_clustering env w).effects ∧
      rebuild_table env table
        (env.sort table sort_column_id OrderByMode.Ascending env.DEFAULT_SIZE) sort_column_id
        = some new_table ∧
      (_optimize_clustering env w).world.get_table name = some new_table := by
  cases hg : w._optimized with
  | true =>
    left
    rw [optimize_clustering_guarded env w hg]
    exact ⟨by simp, rfl⟩
  | false =>
    by_cases hex : ∃ t, Effect.replace_table name t ∈ (_optimize_clustering env w).effects
    · right
      obtain ⟨new_table, hmem⟩ := hex
      rw [optimize_clustering_unset env hg] at hmem ⊢
      obtain ⟨hfinal, col, t, cid, hcol, ht, _, _, hr⟩ :=
        optimize_loop_replace env sort_orders _ name new_table sort_orders_nodup hmem
      exact ⟨t, cid, new_table, List.mem_map.mpr ⟨(name, col), hcol, rfl⟩, ht, hmem, hr, hfinal⟩
    · left
      have hnone : ∀ t, Effect.replace_table name t ∉ (_optimize_clustering env w).effects :=
        fun t ht => hex ⟨t, ht⟩
      refine ⟨hnone, ?_⟩
      rw [optimize_clustering_unset env hg] at hnone ⊢
      exact optimize_loop_storage_unchanged env sort_orders _ name hnone

/-- C20. Frame of a pass on the table store, for every world: a name is bound after the pass
    if and only if it was bound before (no name is added or removed); the binding of every name
    that is not in the policy is unchanged; the binding of a name for which the pass makes no
    `replace_table` call is unchanged; and a binding that changes is that of a policy table,
    changed by a `replace_table` call of the pass to the table rebuilt from the original. The
    store never holds a changed version of an original table: every binding is the original
    table or the replacement. -/
theorem pass_store_frame (env : Collaborators) (w : World) :
    (∀ name, (_optimize_clustering env w).world.has_table name = w.has_table name) ∧
    (∀ name, name ∉ sort_orders.map Prod.fst →
      (_optimize_clustering env w).world.get_table name = w.get_table name) ∧
    (∀ name, (∀ t, Effect.replace_table name t ∉ (_optimize_clustering env w).effects) →
      (_optimize_clustering env w).world.get_table name = w.get_table name) ∧
    (∀ name, (_optimize_clustering env w).world.get_table name ≠ w.get_table name →
      (name = "lineitem" ∨ name = "orders") ∧
      ∃ table sort_column_id new_table,
        w.get_table name = some table ∧
        Effect.replace_table name new_table ∈ (_optimize_clustering env w).effects ∧
        rebuild_table env table
          (env.sort table sort_column_id OrderByMode.Ascending env.DEFAULT_SIZE) sort_column_id
          = some new_table ∧
        (_optimize_clustering env w).world.get_table name = some new_table) := by
  refine ⟨?_, ?_, ?_, ?_⟩
  · intro name
    rcases optimize_clustering_binding env w name with ⟨_, h⟩ | ⟨t, _, n, _, ht, _, _, hn⟩
    · simp only [World.get_table] at h
      simp [World.has_table, h]
    · simp only [World.get_table] at ht hn
      simp [World.has_table, ht, hn]
  · intro name hname
    rcases optimize_clustering_binding env w name with ⟨_, h⟩ | ⟨_, _, _, hmem, _⟩
    · exact h
    · exact absurd hmem hname
  · intro name hnone
    rcases optimize_clustering_binding env w name with ⟨_, h⟩ | ⟨_, _, n, _, _, hmem, _⟩
    · exact h
    · exact absurd hmem (hnone n)
  · intro name hne
    rcases optimize_clustering_binding env w name with ⟨_, h⟩ | ⟨t, cid, n, hmem, ht, he, hr, hn⟩
    · exact absurd h hne
    · refine ⟨?_, t, cid, n, ht, he, hr, hn⟩
      simpa [sort_orders] using hmem

/-! ## Further theorems about `visit_pqp` -/

/-- C12. For a null root, whatever the plan and the visitor: the null handle is pushed, popped
    and passed to the visitor, so that there is exactly one visitor call, on the null handle;
    when that call returns `VisitInputs` the body goes on to call `input_left()` through the
    null handle, and when it returns `DoNotVisitInputs` the function returns. -/
theorem visit_pqp_null_root (σ : Type) (g : PQP) (visitor : σ → OperatorPtr → PQPVisitation × σ)
    (s0 : σ) :
    (visit_pqp g none visitor s0).state.calls = [(none, (visitor s0 none).1)] ∧
    ((visitor s0 none).1 = PQPVisitation.VisitInputs →
      visit_pqp g none visitor s0 = VisitOutcome.null_dereference
        { operator_queue := []
          visited_operators := [none]
          visitor_state := (visitor s0 none).2
          calls := [(none, PQPVisitation.VisitInputs)] }) ∧
    ((visitor s0 none).1 = PQPVisitation.DoNotVisitInputs →
      visit_pqp g none visitor s0 = VisitOutcome.finished
        { operator_queue := []
          visited_operators := [none]
          visitor_state := (visitor s0 none).2
          calls := [(none, PQPVisitation.DoNotVisitInputs)] }) := by
  have hfuel : visit_fuel g = (4 * g.inputs.length + 1) + 1 + 1 := by
    unfold visit_fuel; omega
  have hvisit : (visitor s0 none).1 = PQPVisitation.VisitInputs →
      visit_pqp g none visitor s0 = VisitOutcome.null_dereference
        { operator_queue := []
          visited_operators := [none]
          visitor_state := (visitor s0 none).2
          calls := [(none, PQPVisitation.VisitInputs)] } := by
    intro h
    unfold visit_pqp
    rw [hfuel]
    simp [visit_loop, visit_step, visit_init, h]
  have hstop : (visitor s0 none).1 = PQPVisitation.DoNotVisitInputs →
      visit_pqp g none visitor s0 = VisitOutcome.finished
        { operator_queue := []
          visited_operators := [none]
          visitor_state := (visitor s0 none).2
          calls := [(none, PQPVisitation.DoNotVisitInputs)] } := by
    intro h
    have hne : (visitor s0 none).1 ≠ PQPVisitation.VisitInputs := by rw [h]; decide
    unfold visit_pqp
    rw [hfuel]
    simp [visit_loop, visit_step, visit_init, hne, h]
  refine ⟨?_, hvisit, hstop⟩
  cases h : (visitor s0 none).1 with
  | VisitInputs => rw [hvisit h]; rfl
  | DoNotVisitInputs => rw [hstop h]; rfl

/-- The null root with a visitor that expands every operator: one call, on the null handle, and
    no normal return. -/
theorem visit_pqp_null_root_example :
    (visit_pqp diamond none visit_all ()).state.calls = [(none, PQPVisitation.VisitInputs)] ∧
    (visit_pqp diamond none visit_all ()).returned = false := by
  decide

theorem visit_step_nil {σ : Type} {g : PQP} {visitor : σ → OperatorPtr → PQPVisitation × σ}
    {st : VisitState σ} (h : st.operator_queue = []) :
    visit_step g visitor st = VisitStep.exit := by
  simp [visit_step, h]

/-- A run that has finished within some budget finishes in the same state within every larger
    budget. -/
theorem visit_loop_mono {σ : Type} {g : PQP} {visitor : σ → OperatorPtr → PQPVisitation × σ} :
    ∀ (fuel : Nat) (st st1 : VisitState σ),
      visit_loop g visitor fuel st = VisitOutcome.finished st1 →
      ∀ k, visit_loop g visitor (fuel + k) st = VisitOutcome.finished st1 := by
  intro fuel
  induction fuel with
  | zero =>
    intro st st1 h k
    cases hq : st.operator_queue with
    | cons a t => simp [visit_loop, hq] at h
    | nil =>
      simp only [visit_loop, hq] at h
      cases k with
      | zero => simp [visit_loop, hq, h]
      | succ k =>
        have he : 0 + (k + 1) = k + 1 := by omega
        rw [he]
        simp only [visit_loop, visit_step_nil hq]
        exact h
  | succ fuel ih =>
    intro st st1 h k
    have he : fuel + 1 + k = (fuel + k) + 1 := by omega
    rw [he]
    simp only [visit_loop] at h ⊢
    cases hs : visit_step g visitor st with
    | exit => rw [hs] at h; exact h
    | next st2 => rw [hs] at h; exact ih st2 st1 h k
    | null_dereference st2 => rw [hs] at h; cases h

/-- For a non-null root the loop finishes within every budget of at least `visit_fuel`, in the
    state in which `visit_pqp` returns. -/
theorem visit_pqp_enough_fuel {σ : Type} (g : PQP) (root : Nat)
    (visitor : σ → OperatorPtr → PQPVisitation × σ) (s0 : σ) (st : VisitState σ)
    (h : visit_pqp g (some root) visitor s0 = VisitOutcome.finished st) :
    ∀ fuel, visit_fuel g ≤ fuel →
      visit_loop g visitor fuel (visit_init (some root) s0) = VisitOutcome.finished st := by
  intro fuel hle
  obtain ⟨k, rfl⟩ := Nat.exists_eq_add_of_le hle
  exact visit_loop_mono (visit_fuel g) _ st h k

/-- Every recorded call holds what the visitor returned for its argument, in some state of the
    visitor. -/
theorem visit_loop_calls_from_visitor {σ : Type} {g : PQP}
    {visitor : σ → OperatorPtr → PQPVisitation × σ} :
    ∀ (fuel : Nat) (st : VisitState σ),
      (∀ c ∈ st.calls, ∃ s, c.2 = (visitor s c.1).1) →
      ∀ c ∈ (visit_loop g visitor fuel st).state.calls, ∃ s, c.2 = (visitor s c.1).1 := by
  intro fuel
  induction fuel with
  | zero =>
    intro st h
    unfold visit_loop
    split <;> exact h
  | succ fuel ih =>
    intro st h
    unfold visit_loop
    have hext : ∀ op, ∀ c ∈ st.calls ++ [(op, (visitor st.visitor_state op).1)],
        ∃ s, c.2 = (visitor s c.1).1 := by
      intro op c hc
      rcases List.mem_append.mp hc with hc | hc
      · exact h c hc
      · rw [List.mem_singleton.mp hc]
        exact ⟨st.visitor_state, rfl⟩
    cases hs : visit_step g visitor st with
    | exit => exact h
    | next st1 =>
      simp only
      obtain ⟨op, rest, _, hcase⟩ := visit_step_next hs
      rcases hcase with ⟨_, rfl⟩ | ⟨_, _, rfl⟩ | ⟨_, _, n, rfl, rfl⟩
      · exact ih _ h
      · exact ih _ (hext op)
      · exact ih _ (hext (some n))
    | null_dereference st1 =>
      obtain ⟨rest, _, _, _, rfl⟩ := visit_step_null hs
      exact hext none

/-- With a visitor that always returns `VisitInputs` the walk from a non-null root returns after
    one call on each operator that is reachable from the root, and on nothing else. -/
theorem visit_pqp_visit_all {σ : Type} (g : PQP) (root : Nat)
    (visitor : σ → OperatorPtr → PQPVisitation × σ) (s0 : σ)
    (hall : ∀ s p, (visitor s p).1 = PQPVisitation.VisitInputs) :
    ∃ st, visit_pqp g (some root) visitor s0 = VisitOutcome.finished st ∧
      st.visited_nodes.Nodup ∧
      ∀ p, p ∈ st.visited_nodes ↔ ∃ n, p = some n ∧ Reachable g root n := by
  obtain ⟨st, hfin, hroot, hclosed, hjust⟩ := visit_pqp_closure g root visitor s0
  obtain ⟨st1, hfin1, hinv, _⟩ := visit_pqp_finished g root visitor s0
  have hst : st1 = st := by
    rw [hfin] at hfin1; injection hfin1 with h; exact h.symm
  subst hst
  have hcalls : ∀ c ∈ st1.calls, c.2 = PQPVisitation.VisitInputs := by
    intro c hc
    have h := @visit_loop_calls_from_visitor σ g visitor (visit_fuel g)
      (visit_init (some root) s0) (by simp [visit_init]) c
    have hrun : visit_loop g visitor (visit_fuel g) (visit_init (some root) s0)
        = VisitOutcome.finished st1 := hfin
    rw [hrun] at h
    obtain ⟨s, hs⟩ := h hc
    rw [hs]; exact hall s c.1
  have hnodup : st1.visited_nodes.Nodup := by
    have h := hinv.nodup
    rw [← hinv.calls_visited] at h
    exact h
  refine ⟨st1, hfin, hnodup, ?_⟩
  intro p
  constructor
  · intro hp
    have hj := hjust p hp
    clear hp
    induction hj with
    | root => exact ⟨root, rfl, Reachable.root⟩
    | input _ _ hi ih =>
      obtain ⟨k, hk, hr⟩ := ih
      rw [← Option.some.inj hk] at hr
      exact ⟨_, rfl, Reachable.input hr hi⟩
  · rintro ⟨n, rfl, hr⟩
    induction hr with
    | root => exact hroot
    | @input a b _ hi ih =>
      obtain ⟨c, hc, hca⟩ := List.mem_map.mp ih
      have hc2 := hcalls c hc
      have hce : c = (some a, PQPVisitation.VisitInputs) := by
        cases c; simp only at hca hc2; rw [hca, hc2]
      rw [hce] at hc
      exact hclosed a b hc hi

/-- C14, evaluated on the cycle `0 -> 1 -> 0` with a visitor that always returns `VisitInputs`:
    the loop is left after three iterations (`0` is visited, `1` is visited, the second entry
    for `0` is skipped), and `visit_pqp` returns after the calls on `0` and `1`. -/
theorem cycle_walk_terminates_example :
    is_input two_cycle 0 1 ∧ is_input two_cycle 1 0 ∧
    (visit_loop two_cycle visit_all 3 (visit_init (some 0) ())).returned = true ∧
    (visit_pqp two_cycle (some 0) visit_all ()).returned = true ∧
    (visit_pqp two_cycle (some 0) visit_all ()).state.visited_nodes = [some 0, some 1] := by
  decide

/-- C14 as amended. A cycle does not keep `visit_pqp` from terminating: for every plan with a
    cycle through an operator `n` that is reachable from the non-null root, and every visitor
    that always returns `VisitInputs`, the loop is left within every budget of at least
    `visit_fuel` iterations, in one and the same state, `visit_pqp` returns, the visitor has
    been called exactly once on `n`, and the operators it has been called on are the operators
    reachable from the root. -/
theorem cycle_walk_terminates {σ : Type} (g : PQP) (root : Nat)
    (visitor : σ → OperatorPtr → PQPVisitation × σ) (s0 : σ) (n : Nat)
    (hall : ∀ s p, (visitor s p).1 = PQPVisitation.VisitInputs)
    (hreach : Reachable g root n)
    (_hcycle : Relation.TransGen (is_input g) n n) :
    ∃ st, visit_pqp g (some root) visitor s0 = VisitOutcome.finished st ∧
      (∀ fuel, visit_fuel g ≤ fuel →
        visit_loop g visitor fuel (visit_init (some root) s0) = VisitOutcome.finished st) ∧
      st.visited_nodes.countP (fun q => decide (q = some n)) = 1 ∧
      ∀ p, p ∈ st.visited_nodes ↔ ∃ m, p = some m ∧ Reachable g root m := by
  obtain ⟨st, hfin, hnodup, hmem⟩ := visit_pqp_visit_all g root visitor s0 hall
  refine ⟨st, hfin, visit_pqp_enough_fuel g root visitor s0 st hfin, ?_, hmem⟩
  have hin : some n ∈ st.visited_nodes := (hmem (some n)).mpr ⟨n, rfl, hreach⟩
  exact Nat.le_antisymm (nodup_countP_le_one hnodup (some n))
    (List.countP_pos_iff.mpr ⟨some n, hin, by simp⟩)

/-- The cycle `0 -> 1 -> 0` with a visitor that always returns `VisitInputs`: the hypotheses of
    the amended C14 hold for the operator `0`. -/
theorem cycle_walk_terminates_witness :
    ((∀ s p, (visit_all s p).1 = PQPVisitation.VisitInputs) ∧ Reachable two_cycle 0 0 ∧
      Relation.TransGen (is_input two_cycle) 0 0) ∧
    ∃ st, visit_pqp two_cycle (some 0) visit_all () = VisitOutcome.finished st ∧
      (∀ fuel, visit_fuel two_cycle ≤ fuel →
        visit_loop two_cycle visit_all fuel (visit_init (some 0) ()) = VisitOutcome.finished st) ∧
      st.visited_nodes.countP (fun q => decide (q = some 0)) = 1 ∧
      ∀ p, p ∈ st.visited_nodes ↔ ∃ m, p = some m ∧ Reachable two_cycle 0 m :=
  ⟨⟨fun _ _ => rfl, Reachable.root,
      Relation.TransGen.tail
        (Relation.TransGen.single (show is_input two_cycle 0 1 by decide))
        (show is_input two_cycle 1 0 by decide)⟩,
    cycle_walk_terminates two_cycle 0 visit_all () 0 (fun _ _ => rfl) Reachable.root
      (Relation.TransGen.tail
        (Relation.TransGen.single (show is_input two_cycle 0 1 by decide))
        (show is_input two_cycle 1 0 by decide))⟩

theorem reachable_mem_candidates {g : PQP} {root m : Nat} (h : Reachable g root m) :
    some m ∈ candidates g (some root) := by
  induction h with
  | root => simp [candidates]
  | @input a b _ hi _ =>
    rcases hi with hi | hi
    · rcases input_left_mem_candidates g (some root) a with h | h
      · rw [hi] at h; exact h
      · rw [hi] at h; cases h
    · rcases input_right_mem_candidates g (some root) a with h | h
      · rw [hi] at h; exact h
      · rw [hi] at h; cases h

/-- The operators reachable from a root are finitely many. -/
theorem reachable_finite (g : PQP) (root : Nat) : Set.Finite {m | Reachable g root m} := by
  apply Set.Finite.subset (Finset.finite_toSet ((candidates g (some root)).filterMap id).toFinset)
  intro m hm
  simp only [Finset.mem_coe, List.mem_toFinset, List.mem_filterMap, id]
  exact ⟨some m, reachable_mem_candidates hm, rfl⟩

theorem unvisited_finite {σ : Type} (g : PQP) (root : Nat) (st : VisitState σ) :
    (unvisited g root st).Finite :=
  Set.Finite.subset (reachable_finite g root) (fun _ hm => hm.1)

/-- Visiting an operator that is reachable and not yet visited takes it out of the unvisited
    operators. -/
theorem unvisited_visit {σ : Type} {g : PQP} {root : Nat} {st st1 : VisitState σ} {n : Nat}
    (hvis : st1.visited_operators = st.visited_operators ++ [some n])
    (hreach : Reachable g root n) (hnew : some n ∉ st.visited_operators) :
    (unvisited g root st1).ncard + 1 = (unvisited g root st).ncard := by
  have heq : unvisited g root st1 = unvisited g root st \ {n} := by
    ext m
    simp only [unvisited, Set.mem_setOf_eq, hvis, List.mem_append, List.mem_singleton,
      Option.some.injEq, Set.mem_diff, Set.mem_singleton_iff]
    constructor
    · rintro ⟨h1, h2⟩
      exact ⟨⟨h1, fun h => h2 (Or.inl h)⟩, fun h => h2 (Or.inr h)⟩
    · rintro ⟨⟨h1, h2⟩, h3⟩
      exact ⟨h1, fun h => h.elim h2 h3⟩
  rw [heq]
  exact Set.ncard_diff_singleton_add_one ⟨hreach, hnew⟩ (unvisited_finite g root st)

/-- Every handle in the queue points at an operator reachable from the root: kept by every
    iteration. -/
theorem visit_step_queue_reachable {σ : Type} {g : PQP} {root : Nat}
    {visitor : σ → OperatorPtr → PQPVisitation × σ} {st st1 : VisitState σ}
    (hstep : visit_step g visitor st = VisitStep.next st1)
    (hq : ∀ q ∈ st.operator_queue, ∃ m, q = some m ∧ Reachable g root m) :
    ∀ q ∈ st1.operator_queue, ∃ m, q = some m ∧ Reachable g root m := by
  obtain ⟨op, rest, hqueue, hcase⟩ := visit_step_next hstep
  have hrest : ∀ q ∈ rest, ∃ m, q = some m ∧ Reachable g root m := by
    intro q hmem; exact hq q (by rw [hqueue]; exact List.mem_cons_of_mem _ hmem)
  rcases hcase with ⟨_, rfl⟩ | ⟨_, _, rfl⟩ | ⟨_, _, n, rfl, rfl⟩
  · exact hrest
  · exact hrest
  · obtain ⟨m, hm, hr⟩ := hq (some n) (by rw [hqueue]; exact List.mem_cons_self _ _)
    have hmn : n = m := Option.some.inj hm
    subst hmn
    intro q hmem
    simp only [mem_push_input] at hmem
    rcases hmem with (hmem | ⟨hmem, hs⟩) | ⟨hmem, hs⟩
    · exact hrest q hmem
    · obtain ⟨k, hk⟩ := Option.isSome_iff_exists.mp hs
      exact ⟨k, by rw [hmem, hk], Reachable.input hr (Or.inl hk)⟩
    · obtain ⟨k, hk⟩ := Option.isSome_iff_exists.mp hs
      exact ⟨k, by rw [hmem, hk], Reachable.input hr (Or.inr hk)⟩

theorem visit_reaches_queue_reachable {σ : Type} {g : PQP} {root : Nat}
    {visitor : σ → OperatorPtr → PQPVisitation × σ} {s0 : σ} {st : VisitState σ}
    (h : VisitReaches g visitor (visit_init (some root) s0) st) :
    ∀ q ∈ st.operator_queue, ∃ m, q = some m ∧ Reachable g root m := by
  induction h with
  | start =>
    intro q hq
    simp only [visit_init, List.mem_singleton] at hq
    exact ⟨root, hq, Reachable.root⟩
  | step _ hstep ih => exact visit_step_queue_reachable hstep ih

/-- What an iteration does to the number of unvisited reachable operators, to the length of the
    queue and to the number of recorded calls: either nothing is visited and the queue gets
    shorter by one, or one operator is visited and the queue gets longer by at most one. -/
theorem visit_step_counts {σ : Type} {g : PQP} {root : Nat}
    {visitor : σ → OperatorPtr → PQPVisitation × σ} {st st1 : VisitState σ}
    (hstep : visit_step g visitor st = VisitStep.next st1)
    (hq : ∀ q ∈ st.operator_queue, ∃ m, q = some m ∧ Reachable g root m) :
    ((unvisited g root st1).ncard = (unvisited g root st).ncard ∧
      st1.operator_queue.length + 1 = st.operator_queue.length ∧
      st1.calls.length = st.calls.length) ∨
    ((unvisited g root st1).ncard + 1 = (unvisited g root st).ncard ∧
      st.operator_queue.length ≤ st1.operator_queue.length + 1 ∧
      st1.operator_queue.length ≤ st.operator_queue.length + 1 ∧
      st1.calls.length = st.calls.length + 1) := by
  obtain ⟨op, rest, hqueue, hcase⟩ := visit_step_next hstep
  obtain ⟨m, hm, hr⟩ := hq op (by rw [hqueue]; exact List.mem_cons_self _ _)
  subst hm
  rcases hcase with ⟨_, rfl⟩ | ⟨hv, _, rfl⟩ | ⟨hv, _, n, hn, rfl⟩
  · left
    exact ⟨rfl, by simp [hqueue], rfl⟩
  · right
    refine ⟨unvisited_visit rfl hr hv, by simp [hqueue], ?_, by simp⟩
    simp only [hqueue, List.length_cons]; omega
  · right
    have hmn : m = n := Option.some.inj hn
    subst hmn
    have h1 := length_push_input_le (push_input rest (input_left g m)) (input_right g m)
    have h2 := length_push_input_le rest (input_left g m)
    have h3 : rest.length ≤ (push_input rest (input_left g m)).length := by
      unfold push_input; split <;> simp
    have h4 : (push_input rest (input_left g m)).length
        ≤ (push_input (push_input rest (input_left g m)) (input_right g m)).length := by
      generalize push_input rest (input_left g m) = l
      unfold push_input; split <;> simp
    refine ⟨unvisited_visit rfl hr hv, ?_, ?_, by simp⟩
    · simp only [hqueue, List.length_cons]; omega
    · simp only [hqueue, List.length_cons]; omega

theorem length_push_input (q : List OperatorPtr) (p : OperatorPtr) :
    (push_input q p).length = q.length + (if p.isSome then 1 else 0) := by
  unfold push_input
  split <;> simp

/-- The pushes that `visit_counts` counts for an iteration are the executions of
    `operator_queue.push` in the body: none when the popped handle is skipped or the visitor
    returns `DoNotVisitInputs`, and else one for each input that is not null. -/
theorem visit_step_pushes {σ : Type} {g : PQP} {visitor : σ → OperatorPtr → PQPVisitation × σ}
    {st st1 : VisitState σ} (hstep : visit_step g visitor st = VisitStep.next st1) :
    ∃ op rest, st.operator_queue = op :: rest ∧
      ((op ∈ st.visited_operators ∧
          st1.operator_queue.length + 1 - st.operator_queue.length = 0) ∨
        (op ∉ st.visited_operators ∧
          (visitor st.visitor_state op).1 = PQPVisitation.DoNotVisitInputs ∧
          st1.operator_queue.length + 1 - st.operator_queue.length = 0) ∨
        (op ∉ st.visited_operators ∧
          (visitor st.visitor_state op).1 = PQPVisitation.VisitInputs ∧
          ∃ n, op = some n ∧
            st1.operator_queue.length + 1 - st.operator_queue.length
              = (if (input_left g n).isSome then 1 else 0)
                + (if (input_right g n).isSome then 1 else 0))) := by
  obtain ⟨op, rest, hq, hcase⟩ := visit_step_next hstep
  refine ⟨op, rest, hq, ?_⟩
  rcases hcase with ⟨hv, rfl⟩ | ⟨hv, hr, rfl⟩ | ⟨hv, hr, n, rfl, rfl⟩
  · left
    exact ⟨hv, by simp [hq]⟩
  · right; left
    refine ⟨hv, ?_, by simp [hq]⟩
    cases h : (visitor st.visitor_state op).1 with
    | VisitInputs => exact absurd h hr
    | DoNotVisitInputs => rfl
  · right; right
    refine ⟨hv, hr, n, rfl, ?_⟩
    simp only [hq, List.length_cons, length_push_input]
    omega

/-- The diamond with a visitor that expands every operator: five pushes (`0`, `1`, `2`, and `3`
    twice) and five iterations (the second entry for `3` is skipped), within the bound
    `2 * 4 + 1`. -/
theorem visit_counts_diamond :
    visit_pqp_pushes diamond (some 0) visit_all () (visit_fuel diamond) = 5 ∧
    visit_pqp_iterations diamond (some 0) visit_all () (visit_fuel diamond) = 5 := by
  decide

/-- From a state whose queue holds reachable operators, the loop makes at most twice as many
    iterations as there are unvisited reachable operators, plus the length of the queue; it
    makes at most twice as many pushes and at most as many visitor calls as there are
    unvisited reachable operators. -/
theorem visit_counts_bound {σ : Type} {g : PQP} {root : Nat}
    {visitor : σ → OperatorPtr → PQPVisitation × σ} :
    ∀ (fuel : Nat) (st : VisitState σ),
      (∀ q ∈ st.operator_queue, ∃ m, q = some m ∧ Reachable g root m) →
      (visit_counts g visitor fuel st).1
        ≤ 2 * (unvisited g root st).ncard + st.operator_queue.length ∧
      (visit_counts g visitor fuel st).2 ≤ 2 * (unvisited g root st).ncard ∧
      (visit_loop g visitor fuel st).state.calls.length
        ≤ st.calls.length + (unvisited g root st).ncard := by
  intro fuel
  induction fuel with
  | zero =>
    intro st _
    refine ⟨by simp [visit_counts], by simp [visit_counts], ?_⟩
    unfold visit_loop
    split <;> simp [VisitOutcome.state]
  | succ fuel ih =>
    intro st hq
    cases hs : visit_step g visitor st with
    | exit =>
      refine ⟨by simp [visit_counts, hs], by simp [visit_counts, hs], ?_⟩
      simp [visit_loop, hs, VisitOutcome.state]
    | next st1 =>
      obtain ⟨i1, i2, i3⟩ := ih st1 (visit_step_queue_reachable hs hq)
      have hloop : visit_loop g visitor (fuel + 1) st = visit_loop g visitor fuel st1 := by
        simp [visit_loop, hs]
      have hc1 : (visit_counts g visitor (fuel + 1) st).1
          = (visit_counts g visitor fuel st1).1 + 1 := by
        simp [visit_counts, hs]
      have hc2 : (visit_counts g visitor (fuel + 1) st).2
          = (visit_counts g visitor fuel st1).2
            + (st1.operator_queue.length + 1 - st.operator_queue.length) := by
        simp [visit_counts, hs]
      rw [hloop, hc1, hc2]
      rcases visit_step_counts hs hq with ⟨h1, h2, h3⟩ | ⟨h1, h2, h3, h4⟩
      · refine ⟨by omega, by omega, by omega⟩
      · refine ⟨by omega, by omega, by omega⟩
    | null_dereference st1 =>
      exfalso
      refine (visit_step_nonnull ?_).1 st1 hs
      intro p hp
      obtain ⟨m, hm, _⟩ := hq p hp
      rw [hm]; simp

theorem unvisited_init (g : PQP) (root : Nat) {σ : Type} (s0 : σ) :
    unvisited g root (visit_init (some root) s0) = {m | Reachable g root m} := by
  ext m
  simp [unvisited, visit_init]

/-- C16. For every plan, acyclic or not, every non-null root and every visitor, with `n` the
    number of operators reachable from the root (a finite number): `visit_pqp` terminates (the
    loop is left within every budget of at least `visit_fuel` iterations, in one and the same
    state, and the function returns), the visitor is called at most `n` times, at most `2n+1`
    handles are ever pushed onto the queue and the loop makes at most `2n+1` iterations,
    whatever the budget; and on every iteration of the run the pair (number of unvisited
    reachable operators, queue length) decreases in the lexicographic order. -/
theorem visit_pqp_terminates_within_bounds {σ : Type} (g : PQP) (root : Nat)
    (visitor : σ → OperatorPtr → PQPVisitation × σ) (s0 : σ) :
    Set.Finite {m | Reachable g root m} ∧
    (∃ st, visit_pqp g (some root) visitor s0 = VisitOutcome.finished st ∧
      (∀ fuel, visit_fuel g ≤ fuel →
        visit_loop g visitor fuel (visit_init (some root) s0) = VisitOutcome.finished st) ∧
      st.calls.length ≤ Set.ncard {m | Reachable g root m}) ∧
    (∀ fuel, visit_pqp_pushes g (some root) visitor s0 fuel
      ≤ 2 * Set.ncard {m | Reachable g root m} + 1) ∧
    (∀ fuel, visit_pqp_iterations g (some root) visitor s0 fuel
      ≤ 2 * Set.ncard {m | Reachable g root m} + 1) ∧
    (∀ st st1, VisitReaches g visitor (visit_init (some root) s0) st →
      visit_step g visitor st = VisitStep.next st1 →
      Prod.Lex (fun a b : Nat => a < b) (fun a b : Nat => a < b)
        ((unvisited g root st1).ncard, st1.operator_queue.length)
        ((unvisited g root st).ncard, st.operator_queue.length)) := by
  have hinit : ∀ q ∈ (visit_init (some root) s0).operator_queue,
      ∃ m, q = some m ∧ Reachable g root m := by
    intro q hq
    simp only [visit_init, List.mem_singleton] at hq
    exact ⟨root, hq, Reachable.root⟩
  have hbound : ∀ fuel, _ := fun fuel =>
    @visit_counts_bound σ g root visitor fuel (visit_init (some root) s0) hinit
  simp only [unvisited_init] at hbound
  refine ⟨reachable_finite g root, ?_, ?_, ?_, ?_⟩
  · obtain ⟨st, hfin, _, _⟩ := visit_pqp_finished g root visitor s0
    refine ⟨st, hfin, visit_pqp_enough_fuel g root visitor s0 st hfin, ?_⟩
    have h := (hbound (visit_fuel g)).2.2
    have hrun : visit_loop g visitor (visit_fuel g) (visit_init (some root) s0)
        = VisitOutcome.finished st := hfin
    rw [hrun] at h
    simpa [VisitOutcome.state, visit_init] using h
  · intro fuel
    have h := (hbound fuel).2.1
    unfold visit_pqp_pushes
    omega
  · intro fuel
    have h := (hbound fuel).1
    unfold visit_pqp_iterations
    simp only [visit_init, List.length_singleton] at h ⊢
    exact h
  · intro st st1 hreach hstep
    rw [Prod.lex_def]
    rcases visit_step_counts hstep (visit_reaches_queue_reachable hreach) with
      ⟨h1, h2, _⟩ | ⟨h1, _, _, _⟩
    · right
      exact ⟨h1, by simp only; omega⟩
    · left
      simp only; omega

theorem expanded_path_mono {g : PQP} {root : Nat} {calls : List (OperatorPtr × PQPVisitation)}
    {m d : Nat} (c : OperatorPtr × PQPVisitation) (h : ExpandedPath g root calls m d) :
    ExpandedPath g root (calls ++ [c]) m d := by
  induction h with
  | root => exact ExpandedPath.root
  | step _ hc hi ih => exact ExpandedPath.step ih (List.mem_append_left _ hc) hi

theorem map_fst_push_level (lq : List (OperatorPtr × Nat)) (p : OperatorPtr) (level : Nat) :
    (push_level lq p level).map Prod.fst = push_input (lq.map Prod.fst) p := by
  unfold push_level push_input
  split <;> simp

theorem mem_push_level {lq : List (OperatorPtr × Nat)} {p : OperatorPtr} {level : Nat}
    {e : OperatorPtr × Nat} :
    e ∈ push_level lq p level ↔ e ∈ lq ∨ (e = (p, level) ∧ p.isSome = true) := by
  unfold push_level
  split
  · rename_i h
    simp [h]
  · rename_i h
    simp [h]

theorem push_level_sorted {lq : List (OperatorPtr × Nat)} {p : OperatorPtr} {level : Nat}
    (hs : (lq.map Prod.snd).Pairwise (fun a b => a ≤ b)) (hle : ∀ e ∈ lq, e.2 ≤ level) :
    ((push_level lq p level).map Prod.snd).Pairwise (fun a b => a ≤ b) := by
  unfold push_level
  split
  · rw [List.map_append, List.pairwise_append]
    refine ⟨hs, by simp, ?_⟩
    intro a ha b hb
    obtain ⟨e, he, rfl⟩ := List.mem_map.mp ha
    simp only [List.map_cons, List.map_nil, List.mem_singleton] at hb
    rw [hb]
    exact hle e he
  · exact hs

/-- What waits in the queue or is visited with a small level still does so after a pop: the
    popped entry itself is visited, at the latest now, with at most its own level. -/
theorem pending_after_pop {lq lqrest lv lv1 lq1 : List (OperatorPtr × Nat)}
    {e0 : OperatorPtr × Nat} (hlq : lq = e0 :: lqrest)
    (hlv : ∀ e ∈ lv, e ∈ lv1) (hlq1 : ∀ e ∈ lqrest, e ∈ lq1)
    (hop : ∃ d, d ≤ e0.2 ∧ (e0.1, d) ∈ lv1) (x : OperatorPtr) (level : Nat)
    (h : (∃ k, k ≤ level ∧ (x, k) ∈ lv) ∨ (x, level) ∈ lq) :
    (∃ k, k ≤ level ∧ (x, k) ∈ lv1) ∨ (x, level) ∈ lq1 := by
  rcases h with ⟨k, hk, hmem⟩ | h
  · exact Or.inl ⟨k, hk, hlv _ hmem⟩
  · rw [hlq] at h
    rcases List.mem_cons.mp h with h | h
    · obtain ⟨d, hd, hmem⟩ := hop
      rw [← h] at hd hmem
      exact Or.inl ⟨d, hd, hmem⟩
    · exact Or.inr (hlq1 _ h)

/-- The level invariant is kept by every iteration. -/
theorem visit_step_level {σ : Type} {g : PQP} {root : Nat}
    {visitor : σ → OperatorPtr → PQPVisitation × σ} {st st1 : VisitState σ}
    {lq lv : List (OperatorPtr × Nat)} {last : Nat}
    (hstep : visit_step g visitor st = VisitStep.next st1)
    (hinv : LevelInv g root st lq lv last) :
    ∃ lq1 lv1 last1, LevelInv g root st1 lq1 lv1 last1 := by
  obtain ⟨op, rest, hq, hcase⟩ := visit_step_next hstep
  have hqe := hinv.queue_eq
  rw [hq] at hqe
  cases lq with
  | nil => simp at hqe
  | cons e0 lqrest =>
    simp only [List.map_cons, List.cons.injEq] at hqe
    obtain ⟨he0, hrest⟩ := hqe
    have hlev0 := hinv.queue_levels e0 (List.mem_cons_self _ _)
    have hsorted := hinv.queue_sorted
    simp only [List.map_cons, List.pairwise_cons] at hsorted
    obtain ⟨hhead, htail_sorted⟩ := hsorted
    have htail_ge : ∀ e ∈ lqrest, e0.2 ≤ e.2 :=
      fun e he => hhead e.2 (List.mem_map.mpr ⟨e, he, rfl⟩)
    have htail_lev : ∀ e ∈ lqrest, e0.2 ≤ e.2 ∧ e.2 ≤ e0.2 + 1 := by
      intro e he
      have := (hinv.queue_levels e (List.mem_cons_of_mem _ he)).2
      exact ⟨htail_ge e he, by omega⟩
    have hvle : ∀ e ∈ lv, e.2 ≤ e0.2 :=
      fun e he => le_trans (hinv.visited_le e he) hlev0.1
    have hpath0 := hinv.queue_path e0 (List.mem_cons_self _ _)
    have hroot0 : (∃ k, k ≤ 0 ∧ (some root, k) ∈ lv) ∨ (some root, 0) ∈ e0 :: lqrest := by
      rcases hinv.root_pending with h | h
      · exact Or.inl ⟨0, le_refl _, h⟩
      · exact Or.inr h
    have hroot1 : ∀ lv1 lq1 : List (OperatorPtr × Nat),
        ((∃ k, k ≤ 0 ∧ (some root, k) ∈ lv1) ∨ (some root, 0) ∈ lq1) →
        (some root, 0) ∈ lv1 ∨ (some root, 0) ∈ lq1 := by
      intro lv1 lq1 h
      rcases h with ⟨k, hk, hmem⟩ | h
      · left
        have hk0 : k = 0 := by omega
        rw [hk0] at hmem; exact hmem
      · exact Or.inr h
    have hnew_sorted : ((lv ++ [(op, e0.2)]).map Prod.snd).Pairwise (fun a b => a ≤ b) := by
      rw [List.map_append, List.pairwise_append]
      refine ⟨hinv.visited_sorted, by simp, ?_⟩
      intro a ha b hb
      obtain ⟨e, he, rfl⟩ := List.mem_map.mp ha
      simp only [List.map_cons, List.map_nil, List.mem_singleton] at hb
      rw [hb]; exact hvle e he
    have hnew_le : ∀ e ∈ lv ++ [(op, e0.2)], e.2 ≤ e0.2 := by
      intro e he
      rcases List.mem_append.mp he with he | he
      · exact hvle e he
      · rw [List.mem_singleton.mp he]
    have hnew_op : ∃ d, d ≤ e0.2 ∧ (e0.1, d) ∈ lv ++ [(op, e0.2)] :=
      ⟨e0.2, le_refl _, by rw [he0]; simp⟩
    have hold_caller : ∀ n d, some n ∈ st.visited_operators →
        (some n, d) ∈ lv ++ [(op, e0.2)] → op ∉ st.visited_operators → (some n, d) ∈ lv := by
      intro n d hn hmem hv
      rcases List.mem_append.mp hmem with h | h
      · exact h
      · have h2 := List.mem_singleton.mp h
        have h3 : some n = op := congrArg Prod.fst h2
        rw [h3] at hn
        exact absurd hn hv
    have hcall_visited : ∀ n r, (some n, r) ∈ st.calls → some n ∈ st.visited_operators := by
      intro n r h
      rw [← hinv.calls_eq]
      exact List.mem_map.mpr ⟨_, h, rfl⟩
    rcases hcase with ⟨hv, rfl⟩ | ⟨hv, hr, rfl⟩ | ⟨hv, hr, n0, rfl, rfl⟩
    · have hop : ∃ d, d ≤ e0.2 ∧ (e0.1, d) ∈ lv := by
        rw [← hinv.visited_eq] at hv
        obtain ⟨ev, hev, hev1⟩ := List.mem_map.mp hv
        refine ⟨ev.2, hvle ev hev, ?_⟩
        rw [he0, ← hev1]; exact hev
      refine ⟨lqrest, lv, e0.2, ⟨hrest, hinv.visited_eq, hinv.calls_eq, hinv.visited_sorted,
        hvle, htail_sorted, htail_lev, ?_, hinv.visited_path, ?_, ?_⟩⟩
      · intro e he; exact hinv.queue_path e (List.mem_cons_of_mem _ he)
      · exact hroot1 _ _
          (pending_after_pop rfl (fun e h => h) (fun e h => h) hop (some root) 0 hroot0)
      · intro n d m hn hc hi
        exact pending_after_pop rfl (fun e h => h) (fun e h => h) hop (some m) (d + 1)
          (hinv.inputs_pending n d m hn hc hi)
    · refine ⟨lqrest, lv ++ [(op, e0.2)], e0.2, ⟨hrest, by simp [hinv.visited_eq],
        by simp [hinv.calls_eq], hnew_sorted, hnew_le, htail_sorted, htail_lev, ?_, ?_, ?_, ?_⟩⟩
      · intro e he
        obtain ⟨m, hm, hp⟩ := hinv.queue_path e (List.mem_cons_of_mem _ he)
        exact ⟨m, hm, expanded_path_mono _ hp⟩
      · intro e he
        rcases List.mem_append.mp he with he | he
        · obtain ⟨m, hm, hp⟩ := hinv.visited_path e he
          exact ⟨m, hm, expanded_path_mono _ hp⟩
        · rw [List.mem_singleton.mp he]
          obtain ⟨m, hm, hp⟩ := hpath0
          exact ⟨m, by rw [← he0]; exact hm, expanded_path_mono _ hp⟩
      · exact hroot1 _ _
          (pending_after_pop rfl (fun e h => List.mem_append_left _ h) (fun e h => h) hnew_op
            (some root) 0 hroot0)
      · intro n d m hn hc hi
        have hc_old : (some n, PQPVisitation.VisitInputs) ∈ st.calls := by
          rcases List.mem_append.mp hc with h | h
          · exact h
          · have h2 := List.mem_singleton.mp h
            exact absurd (congrArg Prod.snd h2).symm hr
        have hn_old := hold_caller n d (hcall_visited n _ hc_old) hn hv
        exact pending_after_pop rfl (fun e h => List.mem_append_left _ h) (fun e h => h) hnew_op
          (some m) (d + 1) (hinv.inputs_pending n d m hn_old hc_old hi)
    · have hsub : ∀ e ∈ lqrest, e ∈ push_level
          (push_level lqrest (input_left g n0) (e0.2 + 1)) (input_right g n0) (e0.2 + 1) := by
        intro e he
        exact mem_push_level.mpr (Or.inl (mem_push_level.mpr (Or.inl he)))
      have hpathn : ExpandedPath g root
          (st.calls ++ [(some n0, (visitor st.visitor_state (some n0)).1)]) n0 e0.2 := by
        obtain ⟨m, hm, hp⟩ := hpath0
        rw [he0] at hm
        rw [Option.some.inj hm]
        exact expanded_path_mono _ hp
      have hcall_new : (some n0, PQPVisitation.VisitInputs) ∈
          st.calls ++ [(some n0, (visitor st.visitor_state (some n0)).1)] := by
        rw [hr]; simp
      refine ⟨push_level (push_level lqrest (input_left g n0) (e0.2 + 1)) (input_right g n0)
          (e0.2 + 1), lv ++ [(some n0, e0.2)], e0.2,
        ⟨by rw [map_fst_push_level, map_fst_push_level, hrest], by simp [hinv.visited_eq],
          by simp [hinv.calls_eq], hnew_sorted, hnew_le, ?_, ?_, ?_, ?_, ?_, ?_⟩⟩
      · apply push_level_sorted (push_level_sorted htail_sorted (fun e he => (htail_lev e he).2))
        intro e he
        rcases mem_push_level.mp he with he | ⟨he, _⟩
        · exact (htail_lev e he).2
        · rw [he]
      · intro e he
        rcases mem_push_level.mp he with he | ⟨he, _⟩
        · rcases mem_push_level.mp he with he | ⟨he, _⟩
          · exact htail_lev e he
          · rw [he]; exact ⟨Nat.le_succ _, le_refl _⟩
        · rw [he]; exact ⟨Nat.le_succ _, le_refl _⟩
      · intro e he
        rcases mem_push_level.mp he with he | ⟨he, hs⟩
        · rcases mem_push_level.mp he with he | ⟨he, hs⟩
          · obtain ⟨m, hm, hp⟩ := hinv.queue_path e (List.mem_cons_of_mem _ he)
            exact ⟨m, hm, expanded_path_mono _ hp⟩
          · obtain ⟨m, hm⟩ := Option.isSome_iff_exists.mp hs
            rw [he]
            exact ⟨m, hm, ExpandedPath.step hpathn hcall_new (Or.inl hm)⟩
        · obtain ⟨m, hm⟩ := Option.isSome_iff_exists.mp hs
          rw [he]
          exact ⟨m, hm, ExpandedPath.step hpathn hcall_new (Or.inr hm)⟩
      · intro e he
        rcases List.mem_append.mp he with he | he
        · obtain ⟨m, hm, hp⟩ := hinv.visited_path e he
          exact ⟨m, hm, expanded_path_mono _ hp⟩
        · rw [List.mem_singleton.mp he]
          exact ⟨n0, rfl, hpathn⟩
      · exact hroot1 _ _
          (pending_after_pop rfl (fun e h => List.mem_append_left _ h) hsub hnew_op
            (some root) 0 hroot0)
      · intro n d m hn hc hi
        rcases List.mem_append.mp hc with hc_old | hc_new
        · have hn_old := hold_caller n d (hcall_visited n _ hc_old) hn hv
          exact pending_after_pop rfl (fun e h => List.mem_append_left _ h) hsub hnew_op
            (some m) (d + 1) (hinv.inputs_pending n d m hn_old hc_old hi)
        · have h2 := List.mem_singleton.mp hc_new
          have hnn : n = n0 := Option.some.inj (congrArg Prod.fst h2)
          subst hnn
          have hd : d = e0.2 := by
            rcases List.mem_append.mp hn with h | h
            · exfalso
              apply hv
              rw [← hinv.visited_eq]
              exact List.mem_map.mpr ⟨_, h, rfl⟩
            · exact congrArg Prod.snd (List.mem_singleton.mp h)
          subst hd
          right
          rcases hi with hi | hi
          · exact mem_push_level.mpr (Or.inl (mem_push_level.mpr
              (Or.inr ⟨by rw [hi], by rw [hi]; rfl⟩)))
          · exact mem_push_level.mpr (Or.inr ⟨by rw [hi], by rw [hi]; rfl⟩)

theorem visit_init_level {σ : Type} (g : PQP) (root : Nat) (s0 : σ) :
    LevelInv g root (visit_init (some root) s0) [(some root, 0)] [] 0 := by
  refine ⟨rfl, rfl, rfl, by simp, by simp, by simp, ?_, ?_, by simp, Or.inr (by simp), ?_⟩
  · intro e he
    rw [List.mem_singleton.mp he]
    exact ⟨le_refl _, Nat.le_succ _⟩
  · intro e he
    rw [List.mem_singleton.mp he]
    exact ⟨root, rfl, ExpandedPath.root⟩
  · intro n d m hn
    simp at hn

/-- The level invariant holds in the state in which the loop is left. -/
theorem visit_loop_level {σ : Type} {g : PQP} {root : Nat}
    {visitor : σ → OperatorPtr → PQPVisitation × σ} :
    ∀ (fuel : Nat) (st st1 : VisitState σ) (lq lv : List (OperatorPtr × Nat)) (last : Nat),
      LevelInv g root st lq lv last →
      visit_loop g visitor fuel st = VisitOutcome.finished st1 →
      ∃ lv1 last1, LevelInv g root st1 [] lv1 last1 := by
  intro fuel
  induction fuel with
  | zero =>
    intro st st1 lq lv last hinv h
    cases hq : st.operator_queue with
    | cons a t => simp [visit_loop, hq] at h
    | nil =>
      simp only [visit_loop, hq, VisitOutcome.finished.injEq] at h
      subst h
      have hlq : lq = [] := by
        have := hinv.queue_eq
        rw [hq] at this
        exact List.map_eq_nil_iff.mp this
      subst hlq
      exact ⟨lv, last, hinv⟩
  | succ fuel ih =>
    intro st st1 lq lv last hinv h
    simp only [visit_loop] at h
    cases hs : visit_step g visitor st with
    | exit =>
      rw [hs] at h
      simp only [VisitOutcome.finished.injEq] at h
      subst h
      have hlq : lq = [] := by
        have := hinv.queue_eq
        rw [visit_step_exit hs] at this
        exact List.map_eq_nil_iff.mp this
      subst hlq
      exact ⟨lv, last, hinv⟩
    | next st2 =>
      rw [hs] at h
      obtain ⟨lq2, lv2, last2, hinv2⟩ := visit_step_level hs hinv
      exact ih st2 st1 lq2 lv2 last2 hinv2 h
    | null_dereference st2 => rw [hs] at h; cases h

/-- With an empty queue the levels of the visited operators are their depths: an operator that a
    path of length `d` leads to is visited with a level of at most `d`. -/
theorem level_le_path {σ : Type} {g : PQP} {root : Nat} {st : VisitState σ}
    {lv : List (OperatorPtr × Nat)} {last : Nat} (hinv : LevelInv g root st [] lv last)
    {m d : Nat} (hp : ExpandedPath g root st.calls m d) :
    ∃ k, k ≤ d ∧ (some m, k) ∈ lv := by
  induction hp with
  | root =>
    rcases hinv.root_pending with h | h
    · exact ⟨0, le_refl _, h⟩
    · simp at h
  | step _ hc hi ih =>
    obtain ⟨k, hk, hmem⟩ := ih
    rcases hinv.inputs_pending _ k _ hmem hc hi with ⟨j, hj, hmem2⟩ | h
    · exact ⟨j, by omega, hmem2⟩
    · simp at h

theorem level_unique {σ : Type} {g : PQP} {root : Nat} {st : VisitState σ}
    {lq lv : List (OperatorPtr × Nat)} {last : Nat} (hinv : LevelInv g root st lq lv last)
    (hnodup : st.visited_operators.Nodup) {p : OperatorPtr} {a b : Nat}
    (ha : (p, a) ∈ lv) (hb : (p, b) ∈ lv) : a = b := by
  have hnd : (lv.map Prod.fst).Nodup := by rw [hinv.visited_eq]; exact hnodup
  have hinj := List.inj_on_of_nodup_map hnd ha hb rfl
  exact congrArg Prod.snd hinj

/-- With an empty queue the level of a visited operator is its depth. -/
theorem level_is_depth {σ : Type} {g : PQP} {root : Nat} {st : VisitState σ}
    {lv : List (OperatorPtr × Nat)} {last : Nat} (hinv : LevelInv g root st [] lv last)
    (hnodup : st.visited_operators.Nodup) {m k : Nat} (hmem : (some m, k) ∈ lv) :
    is_depth g root st.calls m k := by
  obtain ⟨m1, hm1, hp⟩ := hinv.visited_path _ hmem
  have hmm : m = m1 := Option.some.inj hm1
  subst hmm
  refine ⟨hp, ?_⟩
  intro j hj
  obtain ⟨i, hi, hmem2⟩ := level_le_path hinv hj
  rw [level_unique hinv hnodup hmem hmem2]
  exact hi

theorem is_depth_unique {g : PQP} {root : Nat} {calls : List (OperatorPtr × PQPVisitation)}
    {m a b : Nat} (ha : is_depth g root calls m a) (hb : is_depth g root calls m b) : a = b :=
  Nat.le_antisymm (ha.2 b hb.1) (hb.2 a ha.1)

/-- Levels that do not decrease along a list: an earlier entry has at most the level of a later
    one. -/
theorem level_le_of_before {lv : List (OperatorPtr × Nat)}
    (hs : (lv.map Prod.snd).Pairwise (fun a b => a ≤ b)) {u v : OperatorPtr}
    (h : before_in (lv.map Prod.fst) u v) :
    ∃ a b, (u, a) ∈ lv ∧ (v, b) ∈ lv ∧ a ≤ b := by
  obtain ⟨i, j, hij, hi, hj⟩ := h
  rw [List.get?_eq_getElem?, List.getElem?_map] at hi hj
  cases hei : lv[i]? with
  | none => rw [hei] at hi; simp at hi
  | some ei =>
    cases hej : lv[j]? with
    | none => rw [hej] at hj; simp at hj
    | some ej =>
      rw [hei] at hi
      rw [hej] at hj
      simp only [Option.map_some', Option.some.injEq] at hi hj
      obtain ⟨hil, hie⟩ := List.getElem?_eq_some.mp hei
      obtain ⟨hjl, hje⟩ := List.getElem?_eq_some.mp hej
      have hle := List.pairwise_iff_getElem.mp hs i j (by simpa using hil) (by simpa using hjl) hij
      simp only [List.getElem_map, hie, hje] at hle
      refine ⟨ei.2, ej.2, ?_, ?_, hle⟩
      · rw [← hi]
        exact List.get?_mem (by rw [List.get?_eq_getElem?]; exact hei)
      · rw [← hj]
        exact List.get?_mem (by rw [List.get?_eq_getElem?]; exact hej)

/-- The walk from a non-null root is in level order: it returns, every visited operator has a
    depth, and an operator that is visited before another one has at most the depth of the
    other. -/
theorem visit_pqp_level_order {σ : Type} (g : PQP) (root : Nat)
    (visitor : σ → OperatorPtr → PQPVisitation × σ) (s0 : σ) :
    ∃ st, visit_pqp g (some root) visitor s0 = VisitOutcome.finished st ∧
      (∀ u, some u ∈ st.visited_nodes → ∃ d, is_depth g root st.calls u d) ∧
      ∀ u v du dv, visited_before st (some u) (some v) →
        is_depth g root st.calls u du → is_depth g root st.calls v dv → du ≤ dv := by
  obtain ⟨st, hfin, hinv, _⟩ := visit_pqp_finished g root visitor s0
  obtain ⟨lv, last, hlev⟩ := visit_loop_level (visit_fuel g) _ st _ _ _
    (visit_init_level g root s0) hfin
  have hnodes : st.visited_nodes = lv.map Prod.fst := by
    rw [hlev.visited_eq]; exact hinv.calls_visited
  refine ⟨st, hfin, ?_, ?_⟩
  · intro u hu
    rw [hnodes] at hu
    obtain ⟨e, he, heu⟩ := List.mem_map.mp hu
    refine ⟨e.2, level_is_depth hlev hinv.nodup ?_⟩
    rw [← heu]; exact he
  · intro u v du dv hb hu hv
    unfold visited_before at hb
    rw [hnodes] at hb
    obtain ⟨a, b, ha, hb2, hab⟩ := level_le_of_before hlev.visited_sorted hb
    rw [is_depth_unique hu (level_is_depth hlev hinv.nodup ha),
      is_depth_unique hv (level_is_depth hlev hinv.nodup hb2)]
    exact hab

theorem before_in_append {l : List OperatorPtr} {u v : OperatorPtr} (extra : List OperatorPtr)
    (h : before_in l u v) : before_in (l ++ extra) u v := by
  obtain ⟨i, j, hij, hi, hj⟩ := h
  have hil : i < l.length := (List.get?_eq_some.mp hi).1
  have hjl : j < l.length := (List.get?_eq_some.mp hj).1
  refine ⟨i, j, hij, ?_, ?_⟩
  · rw [List.get?_eq_getElem?, List.getElem?_append_left hil, ← List.get?_eq_getElem?]
    exact hi
  · rw [List.get?_eq_getElem?, List.getElem?_append_left hjl, ← List.get?_eq_getElem?]
    exact hj

theorem before_in_snoc {l : List OperatorPtr} {u v : OperatorPtr} (h : u ∈ l) :
    before_in (l ++ [v]) u v := by
  obtain ⟨i, hi⟩ := List.mem_iff_get?.mp h
  have hil : i < l.length := (List.get?_eq_some.mp hi).1
  refine ⟨i, l.length, hil, ?_, ?_⟩
  · rw [List.get?_eq_getElem?, List.getElem?_append_left hil, ← List.get?_eq_getElem?]
    exact hi
  · rw [List.get?_eq_getElem?, List.getElem?_append_right (le_refl _)]
    simp

theorem push_input_eq_append (q : List OperatorPtr) (p : OperatorPtr) :
    ∃ extra, push_input q p = q ++ extra := by
  unfold push_input
  split
  · exact ⟨[p], rfl⟩
  · exact ⟨[], by simp⟩

/-- An iteration pops the front of the queue, adds it to the visited operators unless it is
    among them, and pushes at the back of the queue. -/
theorem visit_step_shape {σ : Type} {g : PQP} {visitor : σ → OperatorPtr → PQPVisitation × σ}
    {st st1 : VisitState σ} (hstep : visit_step g visitor st = VisitStep.next st1) :
    ∃ op rest extra, st.operator_queue = op :: rest ∧ st1.operator_queue = rest ++ extra ∧
      ((op ∈ st.visited_operators ∧ st1.visited_operators = st.visited_operators) ∨
        (op ∉ st.visited_operators ∧ st1.visited_operators = st.visited_operators ++ [op])) := by
  obtain ⟨op, rest, hq, hcase⟩ := visit_step_next hstep
  rcases hcase with ⟨hv, rfl⟩ | ⟨hv, _, rfl⟩ | ⟨hv, _, n, rfl, rfl⟩
  · exact ⟨op, rest, [], hq, by simp, Or.inl ⟨hv, rfl⟩⟩
  · exact ⟨op, rest, [], hq, by simp, Or.inr ⟨hv, rfl⟩⟩
  · obtain ⟨x1, h1⟩ := push_input_eq_append rest (input_left g n)
    obtain ⟨x2, h2⟩ := push_input_eq_append (rest ++ x1) (input_right g n)
    refine ⟨some n, rest, x1 ++ x2, hq, ?_, Or.inr ⟨hv, rfl⟩⟩
    simp only [h1, h2, List.append_assoc]

/-- The order invariant for two different handles is kept by every iteration. -/
theorem visit_step_order {σ : Type} {g : PQP} {visitor : σ → OperatorPtr → PQPVisitation × σ}
    {st st1 : VisitState σ} {a b : OperatorPtr} (hab : a ≠ b)
    (hstep : visit_step g visitor st = VisitStep.next st1) (hinv : OrderInv st a b) :
    OrderInv st1 a b := by
  obtain ⟨op, rest, extra, hq, hq1, hvis⟩ := visit_step_shape hstep
  have hsub : ∀ x, x ∈ st.visited_operators → x ∈ st1.visited_operators := by
    intro x hx
    rcases hvis with ⟨_, h⟩ | ⟨_, h⟩ <;> rw [h]
    · exact hx
    · exact List.mem_append_left _ hx
  have hnew : ∀ x, x ∈ st1.visited_operators → x ∈ st.visited_operators ∨ x = op := by
    intro x hx
    rcases hvis with ⟨_, h⟩ | ⟨_, h⟩ <;> rw [h] at hx
    · exact Or.inl hx
    · rcases List.mem_append.mp hx with hx | hx
      · exact Or.inl hx
      · exact Or.inr (List.mem_singleton.mp hx)
  rcases hinv with hb | ⟨ha, hbv, hbq⟩ | ⟨ha, hbv, q1, q2, hqq, hb1, hb2⟩
  · left
    rcases hvis with ⟨_, h⟩ | ⟨_, h⟩ <;> rw [h]
    · exact hb
    · exact before_in_append _ hb
  · rw [hq] at hbq
    rcases List.mem_cons.mp hbq with hbo | hbr
    · left
      rcases hvis with ⟨hv, _⟩ | ⟨_, h⟩
      · rw [← hbo] at hv; exact absurd hv hbv
      · rw [h, ← hbo]; exact before_in_snoc ha
    · by_cases hbo : b = op
      · left
        rcases hvis with ⟨hv, _⟩ | ⟨_, h⟩
        · rw [← hbo] at hv; exact absurd hv hbv
        · rw [h, ← hbo]; exact before_in_snoc ha
      · right; left
        refine ⟨hsub a ha, ?_, by rw [hq1]; exact List.mem_append_left _ hbr⟩
        intro hb1
        rcases hnew b hb1 with h | h
        · exact hbv h
        · exact hbo h
  · rw [hq] at hqq
    rcases List.cons_eq_append_iff.mp hqq with ⟨hq1nil, hrest⟩ | ⟨q1t, hq1c, hrest⟩
    · have hop : op = a := (List.cons.inj hrest).1.symm ▸ rfl
      have hrest2 : rest = q2 := ((List.cons.inj hrest).2).symm
      right; left
      rcases hvis with ⟨hv, _⟩ | ⟨_, h⟩
      · rw [hop] at hv; exact absurd hv ha
      · refine ⟨by rw [h, hop]; simp, ?_, by rw [hq1, hrest2]; exact List.mem_append_left _ hb2⟩
        intro hbm
        rcases hnew b hbm with h2 | h2
        · exact hbv h2
        · rw [hop] at h2; exact hab h2.symm
    · have hbo : b ≠ op := by
        intro h
        apply hb1
        rw [hq1c, h]
        exact List.mem_cons_self _ _
      have hbv1 : b ∉ st1.visited_operators := by
        intro hbm
        rcases hnew b hbm with h2 | h2
        · exact hbv h2
        · exact hbo h2
      have hb1t : b ∉ q1t := by
        intro h
        apply hb1
        rw [hq1c]
        exact List.mem_cons_of_mem _ h
      by_cases hav : a ∈ st1.visited_operators
      · right; left
        refine ⟨hav, hbv1, ?_⟩
        rw [hq1, hrest]
        simp only [List.mem_append, List.mem_cons]
        exact Or.inl (Or.inr (Or.inr hb2))
      · right; right
        refine ⟨hav, hbv1, q1t, q2 ++ extra, ?_, hb1t, List.mem_append_left _ hb2⟩
        rw [hq1, hrest]
        simp

/-- When the loop is left, two operators for which the order invariant held are visited in that
    order. -/
theorem visit_loop_order {σ : Type} {g : PQP} {visitor : σ → OperatorPtr → PQPVisitation × σ}
    {a b : OperatorPtr} (hab : a ≠ b) :
    ∀ (fuel : Nat) (st st1 : VisitState σ), OrderInv st a b →
      visit_loop g visitor fuel st = VisitOutcome.finished st1 →
      before_in st1.visited_operators a b := by
  have hend : ∀ st : VisitState σ, st.operator_queue = [] → OrderInv st a b →
      before_in st.visited_operators a b := by
    intro st hq hinv
    rcases hinv with h | ⟨_, _, h⟩ | ⟨_, _, q1, q2, h, _⟩
    · exact h
    · rw [hq] at h; simp at h
    · rw [hq] at h; simp at h
  intro fuel
  induction fuel with
  | zero =>
    intro st st1 hinv h
    cases hq : st.operator_queue with
    | cons x t => simp [visit_loop, hq] at h
    | nil =>
      simp only [visit_loop, hq, VisitOutcome.finished.injEq] at h
      subst h
      exact hend _ hq hinv
  | succ fuel ih =>
    intro st st1 hinv h
    simp only [visit_loop] at h
    cases hs : visit_step g visitor st with
    | exit =>
      rw [hs] at h
      simp only [VisitOutcome.finished.injEq] at h
      subst h
      exact hend _ (visit_step_exit hs) hinv
    | next st2 =>
      rw [hs] at h
      exact ih st2 st1 (visit_step_order hab hs hinv) h
    | null_dereference st2 => rw [hs] at h; cases h

/-- A run that finishes goes, from every state it reaches, on to the same final state. -/
theorem visit_reaches_finished {σ : Type} {g : PQP}
    {visitor : σ → OperatorPtr → PQPVisitation × σ} {st0 st fin : VisitState σ}
    (hreach : VisitReaches g visitor st0 st) :
    (∃ fuel, visit_loop g visitor fuel st0 = VisitOutcome.finished fin) →
    ∃ fuel, visit_loop g visitor fuel st = VisitOutcome.finished fin := by
  induction hreach with
  | start => exact fun h => h
  | @step st2 st3 _ hstep ih =>
    intro h
    obtain ⟨fuel, hf⟩ := ih h
    cases fuel with
    | zero =>
      obtain ⟨op, rest, hq, _⟩ := visit_step_next hstep
      simp [visit_loop, hq] at hf
    | succ k =>
      simp only [visit_loop, hstep] at hf
      exact ⟨k, hf⟩

/-- C17. For every plan, non-null root and visitor, `visit_pqp` returns and its walk is in
    level order: every visited operator has a depth (the length of a shortest path from the root
    along edges that leave operators on which the visitor returned `VisitInputs`), and when `u`
    is passed to the visitor before `v`, the depth of `u` is at most the depth of `v`. And
    when the walk expands an operator `n` whose left input `a` and right input `b` are
    different and are both discovered there for the first time (neither is visited or in the
    queue when `n` is popped), then `a` is passed to the visitor before `b`. -/
theorem visit_pqp_breadth_first {σ : Type} (g : PQP) (root : Nat)
    (visitor : σ → OperatorPtr → PQPVisitation × σ) (s0 : σ) :
    ∃ st, visit_pqp g (some root) visitor s0 = VisitOutcome.finished st ∧
      (∀ u, some u ∈ st.visited_nodes → ∃ d, is_depth g root st.calls u d) ∧
      (∀ u v du dv, visited_before st (some u) (some v) →
        is_depth g root st.calls u du → is_depth g root st.calls v dv → du ≤ dv) ∧
      (∀ (s : VisitState σ) (rest : List OperatorPtr) (n a b : Nat),
        VisitReaches g visitor (visit_init (some root) s0) s →
        s.operator_queue = some n :: rest → some n ∉ s.visited_operators →
        (visitor s.visitor_state (some n)).1 = PQPVisitation.VisitInputs →
        input_left g n = some a → input_right g n = some b → a ≠ b →
        some a ∉ s.visited_operators → some a ∉ s.operator_queue →
        some b ∉ s.visited_operators → some b ∉ s.operator_queue →
        visited_before st (some a) (some b)) := by
  obtain ⟨st, hfin, hdepth, horder⟩ := visit_pqp_level_order g root visitor s0
  obtain ⟨st1, hfin1, hinv, _⟩ := visit_pqp_finished g root visitor s0
  have hst : st1 = st := by
    rw [hfin] at hfin1; injection hfin1 with h; exact h.symm
  subst hst
  refine ⟨st1, hfin, hdepth, horder, ?_⟩
  intro s rest n a b hreach hq hn hr hl hrt hab hav haq hbv hbq
  have hstep : visit_step g visitor s = VisitStep.next
      { operator_queue := rest ++ [some a, some b]
        visited_operators := s.visited_operators ++ [some n]
        visitor_state := (visitor s.visitor_state (some n)).2
        calls := s.calls ++ [(some n, (visitor s.visitor_state (some n)).1)] } := by
    simp [visit_step, hq, hn, hr, hl, hrt, push_input]
  have hne : ∀ x : Nat, some x ∉ s.operator_queue → (some x : OperatorPtr) ≠ some n := by
    intro x hx h
    apply hx
    rw [hq, h]
    exact List.mem_cons_self _ _
  have hrest : ∀ x : OperatorPtr, x ∉ s.operator_queue → x ∉ rest := by
    intro x hx h
    apply hx
    rw [hq]
    exact List.mem_cons_of_mem _ h
  have hinit : OrderInv
      ({ operator_queue := rest ++ [some a, some b]
         visited_operators := s.visited_operators ++ [some n]
         visitor_state := (visitor s.visitor_state (some n)).2
         calls := s.calls ++ [(some n, (visitor s.visitor_state (some n)).1)] } : VisitState σ)
      (some a) (some b) := by
    right; right
    refine ⟨?_, ?_, rest, [some b], by simp, hrest _ hbq, by simp⟩
    · simp only [List.mem_append, List.mem_singleton]
      rintro (h | h)
      · exact hav h
      · exact hne a haq h
    · simp only [List.mem_append, List.mem_singleton]
      rintro (h | h)
      · exact hbv h
      · exact hne b hbq h
  obtain ⟨fuel, hf⟩ := visit_reaches_finished (VisitReaches.step hreach hstep)
    ⟨visit_fuel g, hfin⟩
  have hbefore := visit_loop_order (fun h => hab (Option.some.inj h)) fuel _ st1 hinit hf
  unfold visited_before
  rw [show st1.visited_nodes = st1.visited_operators from hinv.calls_visited]
  exact hbefore

/-- The diamond with a visitor that expands every operator: `1`, the left input of `0`, is
    visited before `2`, the right input, and the operators are visited in the order of their
    depths `0`, `1`, `1`, `2`. -/
theorem visit_pqp_breadth_first_diamond :
    (visit_pqp diamond (some 0) visit_all ()).state.visited_nodes
      = [some 0, some 1, some 2, some 3] ∧
    visited_before (visit_pqp diamond (some 0) visit_all ()).state (some 1) (some 2) := by
  refine ⟨by decide, 1, 2, by decide, by decide, by decide⟩

/-! ## Theorems about `start`, `stop` and the ticks -/

/-- C15, evaluated on the example plugin: after `start()` and `stop()` the next tick begins an
    invocation of `_optimize_clustering` (the first one, which reclusters both tables), and the
    tick after it begins another one. -/
theorem tick_after_stop_invokes :
    (ClusteringPlugin.run example_env [PluginStep.start, PluginStep.stop]
      example_plugin).invocations = 0 ∧
    (ClusteringPlugin.run example_env [PluginStep.start, PluginStep.stop, PluginStep.tick]
      example_plugin).invocations = 1 ∧
    (ClusteringPlugin.run example_env [PluginStep.start, PluginStep.stop, PluginStep.tick]
      example_plugin).world.log_manager.length = 3 ∧
    (ClusteringPlugin.run example_env
      [PluginStep.start, PluginStep.stop, PluginStep.tick, PluginStep.tick]
      example_plugin).invocations = 2 := by
  decide

/-- C15 as amended. `stop()` changes nothing: the plugin is in the same state after it, the
    steps after it go as they would without it, and when the loop thread created by `start()`
    exists, a tick after `stop()` begins an invocation of `_optimize_clustering` as a tick before
    it does. -/
theorem stop_changes_nothing (env : Collaborators) (s : PluginState)
    (hstarted : s._loop_thread = true) :
    ClusteringPlugin.stop s = s ∧
    (∀ steps, ClusteringPlugin.run env (PluginStep.stop :: steps) s
      = ClusteringPlugin.run env steps s) ∧
    (ClusteringPlugin.stop s)._loop_thread = true ∧
    (ClusteringPlugin.tick env (ClusteringPlugin.stop s)).invocations = s.invocations + 1 ∧
    (ClusteringPlugin.tick env (ClusteringPlugin.stop s)).world
      = (_optimize_clustering env s.world).world := by
  refine ⟨rfl, fun _ => rfl, hstarted, ?_, ?_⟩ <;>
    simp [ClusteringPlugin.tick, ClusteringPlugin.stop, hstarted]

/-- The example plugin after `start()`: the hypothesis of the amended C15 holds. -/
theorem stop_changes_nothing_example :
    (ClusteringPlugin.start example_plugin)._loop_thread = true ∧
    (ClusteringPlugin.tick example_env
      (ClusteringPlugin.stop (ClusteringPlugin.start example_plugin))).invocations
      = (ClusteringPlugin.start example_plugin).invocations + 1 :=
  ⟨rfl, (stop_changes_nothing example_env (ClusteringPlugin.start example_plugin) rfl).2.2.2.1⟩

end Hyrise
